import Mathlib

/-!
Verification development for the pdf-paper-converter repository.

The repository's processing core is shallowly embedded here:
* `MinerUProcessor.markdown_to_text` (src/mineru_processor.py) as a pipeline of
  character-list substitution passes mirroring the sequential `re.sub` calls;
* the basic extraction branch `process_pdf_basic` of both entry points
  (src/app.py and src/streamlit_app_vercel.py) as pure functions from the
  per-page text the PDF library would return to the result record;
* the demo branch `MinerUProcessor._create_demo_result`;
* the remote-API branch `call_mineru_api` and the per-file dispatch of
  `streamlit_app_vercel.main`;
* the batch loop of `app.main` with its temporary-directory lifecycle, over an
  explicit file-system state.

File-system, clock and HTTP effects are made explicit parameters; progress
callbacks are modelled by the list of `(fraction, message)` pairs a run emits.
-/

namespace PdfConv

/-- Python `\s` / `str.strip()` whitespace on the ASCII range
(` `, `\t`, `\n`, `\r`, `\x0b`, `\x0c`). -/
def isPySpace (c : Char) : Bool :=
  c == ' ' || c == '\t' || c == '\n' || c == '\r' || c == '\x0b' || c == '\x0c'

/-- Python `str.strip()` on a character list. -/
def pyStrip (l : List Char) : List Char :=
  ((l.dropWhile isPySpace).reverse.dropWhile isPySpace).reverse

/-- Python `str.strip()` on strings. -/
def pyStripS (s : String) : String := ⟨pyStrip s.data⟩

/-- Truthiness of `page_text.strip()`: the page text is not whitespace-only. -/
def nonblank (s : String) : Bool := !(pyStrip s.data).isEmpty

/-- Python `"".join(parts)`. -/
def strJoin : List String → String
  | [] => ""
  | s :: r => s ++ strJoin r

/-- Python `sep.join(parts)`. -/
def strJoinSep (sep : String) : List String → String
  | [] => ""
  | [s] => s
  | s :: r => s ++ sep ++ strJoinSep sep r

/-- Byte-level substring occurrence at the head. -/
def subAt : List Char → List Char → Bool
  | [], _ => true
  | _ :: _, [] => false
  | p :: ps, c :: cs => p == c && subAt ps cs

/-- Substring containment on character lists. -/
def containsL (pat : List Char) : List Char → Bool
  | [] => pat.isEmpty
  | c :: cs => subAt pat (c :: cs) || containsL pat cs

/-- `pat` occurs as a contiguous substring of `s`. -/
def strContains (s pat : String) : Bool := containsL pat.data s.data

/-! ## Data model

`ProcessingResult` as produced by every branch: the four rendition strings,
the stats record and the method tag on success, or the error message on
failure (src/app.py and src/streamlit_app_vercel.py build exactly these keys;
the `traceback` diagnostic of the failure dictionary is not modelled). -/

structure Config where
  language : String
  parse_method : String
  formula_enable : Bool
  table_enable : Bool
  deriving DecidableEq, Repr

structure Stats where
  total_pages : Nat
  text_blocks : Nat
  tables : Nat
  formulas : Nat
  deriving DecidableEq, Repr

structure Outputs where
  markdown_content : String
  html_content : String
  text_content : String
  json_content : String
  deriving DecidableEq, Repr

inductive Method where
  | mineru | basic | demo
  deriving DecidableEq, Repr

inductive PResult where
  | ok (outputs : Outputs) (stats : Stats) (method : Method)
  | err (error : String)
  deriving DecidableEq, Repr

def PResult.success : PResult → Bool
  | .ok .. => true
  | .err _ => false

def PResult.outputsD : PResult → Outputs
  | .ok o .. => o
  | .err _ => ⟨"", "", "", ""⟩

def PResult.statsD : PResult → Stats
  | .ok _ st _ => st
  | .err _ => ⟨0, 0, 0, 0⟩

def PResult.errorMsg : PResult → String
  | .ok .. => ""
  | .err e => e

/-- A progress emission: fraction paired with a status message. -/
abbrev Prog := ℚ × String

/-! ## JSON rendition

`json.dumps(json_data, ensure_ascii=False, indent=2)` over the fixed
dictionary shapes of the two basic branches and the demo branch.  The string
escaping covers the escapes that can arise from the embedded text
(backslash, quote, newline, tab, carriage return). -/

def jsonEscapeChar (c : Char) : String :=
  if c = '\\' then "\\\\"
  else if c = '"' then "\\\""
  else if c = '\n' then "\\n"
  else if c = '\t' then "\\t"
  else if c = '\r' then "\\r"
  else String.singleton c

def jsonEscape (s : String) : String := strJoin (s.data.map jsonEscapeChar)

def jsonStr (s : String) : String := "\"" ++ jsonEscape s ++ "\""

/-! ## Basic extraction (src/app.py `process_pdf_basic`, lines 255-367)

The PDF library's view of the document is the list of per-page text strings
that `page.get_text()` would return; a file that fails to open is an
`Except.error` carrying the exception text.  The loop keeps, for every page
whose text is not whitespace-only, a markdown chunk headed by the 1-based
page number, and the raw page text. -/

/-- The `markdown_content` chunks accumulated by the page loop, starting at
page index `i`: `f"# 页面 {page_num + 1}\n\n{page_text}\n\n"` for each
non-blank page. -/
def mdChunks (i : Nat) : List String → List String
  | [] => []
  | p :: rest =>
    if nonblank p then
      ("# 页面 " ++ toString (i + 1) ++ "\n\n" ++ p ++ "\n\n") :: mdChunks (i + 1) rest
    else mdChunks (i + 1) rest

namespace App

/-- Fixed part of the basic-branch HTML template before the interpolated text
(src/app.py lines 296-322). -/
def htmlPre : String :=
  "\n<!DOCTYPE html>\n<html>\n<head>\n    <meta charset=\"UTF-8\">\n    <title>PDF 解析结果</title>\n    <style>\n        body \x7b \n            font-family: -apple-system, BlinkMacSystemFont, \x27Segoe UI\x27, Roboto, sans-serif;\n            line-height: 1.6; \n            max-width: 800px; \n            margin: 0 auto; \n            padding: 20px;\n            color: #333;\n        \x7d\n        h1 \x7b \n            color: #667eea; \n            border-bottom: 2px solid #667eea;\n            padding-bottom: 10px;\n        \x7d\n        h2 \x7b color: #764ba2; \x7d\n        p \x7b margin: 1rem 0; \x7d\n    </style>\n</head>\n<body>\n    <h1>PDF 解析结果</h1>\n    <div>"

/-- Fixed part of the basic-branch HTML template after the interpolated text. -/
def htmlPost : String := "</div>\n</body>\n</html>\n"

/-- `json.dumps(json_data, ensure_ascii=False, indent=2)` for the app basic
branch (src/app.py lines 328-344); `pt` is the `time.time()` float rendered
as text. -/
def jsonContent (stem : String) (pages : Nat) (now fullText fullMd : String)
    (size : Nat) (pt : String) : String :=
  "\x7b\n  \"document\": \x7b\n    \"title\": " ++ jsonStr stem
    ++ ",\n    \"pages\": " ++ toString pages
    ++ ",\n    \"processed_at\": " ++ jsonStr now
    ++ ",\n    \"method\": \"basic_extraction\",\n    \"processor\": \"PyMuPDF\"\n  \x7d,\n  \"content\": \x7b\n    \"text\": "
    ++ jsonStr fullText ++ ",\n    \"markdown\": " ++ jsonStr fullMd
    ++ "\n  \x7d,\n  \"metadata\": \x7b\n    \"file_size\": " ++ toString size
    ++ ",\n    \"processing_time\": " ++ pt ++ "\n  \x7d\n\x7d"

/-- Per-page progress fraction `0.2 + (page_num + 1) / total_pages * 0.6`. -/
def pageProgress (N p : Nat) : ℚ := 0.2 + ((p : ℚ) + 1) / (N : ℚ) * 0.6

/-- Progress emissions of the page loop. -/
def pageTrace (N : Nat) : List Prog :=
  (List.range N).map fun p =>
    (pageProgress N p, "处理第 " ++ toString (p + 1) ++ "/" ++ toString N ++ " 页...")

/-- src/app.py `process_pdf_basic`.  The `config` argument is accepted and
never read, exactly as in the source.  Returns the raised exception or the
result, together with the progress emissions that happened.  A file that
fails to open raises `基础处理失败: ...` after the first emission. -/
def process_pdf_basic (config : Config) (stem : String)
    (input : Except String (List String)) (now : String) (size : Nat)
    (pt : String) : Except String PResult × List Prog :=
  match input with
  | .error e => (.error ("基础处理失败: " ++ e), [(0.1, "初始化基础处理器...")])
  | .ok pages =>
    let N := pages.length
    let full_markdown := strJoin (mdChunks 0 pages)
    let text_content := pages.filter nonblank
    let full_text := strJoinSep "\n\n" text_content
    let html_content := htmlPre ++ full_text.replace "\n" "<br>" ++ htmlPost
    let json_content := jsonContent stem N now full_text full_markdown size pt
    (.ok (.ok
        { markdown_content := full_markdown
          html_content := html_content
          text_content := full_text
          json_content := json_content }
        { total_pages := N
          text_blocks := (text_content.filter nonblank).length
          tables := 0
          formulas := 0 }
        .basic),
     (0.1, "初始化基础处理器...")
       :: (0.2, "开始处理 " ++ toString N ++ " 页内容...")
       :: pageTrace N ++ [(0.9, "生成输出文件..."), (1.0, "处理完成！")])

/-- src/app.py `process_pdf_file` in the `MINERU_AVAILABLE = False`
configuration: delegates to the basic branch and converts any exception into
a failed result after forcing progress to `1.0`. -/
def process_pdf_file (config : Config) (stem : String)
    (input : Except String (List String)) (now : String) (size : Nat)
    (pt : String) : PResult × List Prog :=
  match process_pdf_basic config stem input now size pt with
  | (.ok r, tr) => (r, tr)
  | (.error e, tr) =>
      (.err ("处理 PDF 时出错: " ++ e), tr ++ [(1, "处理失败: " ++ e)])

end App

namespace Vercel

/-- Fixed part of the Vercel basic-branch HTML template before the
interpolated text (src/streamlit_app_vercel.py lines 139-152). -/
def htmlPre : String :=
  "\n<!DOCTYPE html>\n<html>\n<head>\n    <meta charset=\"UTF-8\">\n    <title>PDF 解析结果</title>\n    <style>\n        body \x7b font-family: Arial, sans-serif; line-height: 1.6; max-width: 800px; margin: 0 auto; padding: 20px; \x7d\n        h1 \x7b color: #333; border-bottom: 2px solid #667eea; \x7d\n    </style>\n</head>\n<body>\n    <h1>PDF 解析结果</h1>\n    <div>"

/-- Fixed part of the Vercel basic-branch HTML template after the
interpolated text. -/
def htmlPost : String := "</div>\n</body>\n</html>\n"

/-- `json.dumps(json_data, ensure_ascii=False, indent=2)` for the Vercel
basic branch (src/streamlit_app_vercel.py lines 158-169). -/
def jsonContent (stem : String) (pages : Nat) (now fullText fullMd : String) :
    String :=
  "\x7b\n  \"document\": \x7b\n    \"title\": " ++ jsonStr stem
    ++ ",\n    \"pages\": " ++ toString pages
    ++ ",\n    \"processed_at\": " ++ jsonStr now
    ++ ",\n    \"method\": \"basic_extraction\"\n  \x7d,\n  \"content\": \x7b\n    \"text\": "
    ++ jsonStr fullText ++ ",\n    \"markdown\": " ++ jsonStr fullMd
    ++ "\n  \x7d\n\x7d"

/-- Per-page progress fraction `0.4 + (page_num + 1) / total_pages * 0.4`. -/
def pageProgress (N p : Nat) : ℚ := 0.4 + ((p : ℚ) + 1) / (N : ℚ) * 0.4

/-- Progress emissions of the page loop. -/
def pageTrace (N : Nat) : List Prog :=
  (List.range N).map fun p =>
    (pageProgress N p, "处理第 " ++ toString (p + 1) ++ "/" ++ toString N ++ " 页...")

/-- src/streamlit_app_vercel.py `process_pdf_basic`.  Unlike the app.py
variant it catches its own exceptions and returns a failed result (no
`traceback` key).  The `config` argument is accepted and never read. -/
def process_pdf_basic (language mode : String) (stem : String)
    (input : Except String (List String)) (now : String) :
    PResult × List Prog :=
  match input with
  | .error e =>
      (.err ("处理 PDF 时出错: " ++ e),
       [(0.1, "初始化处理器..."), (0.3, "读取 PDF 文件..."),
        (1, "处理失败: " ++ e)])
  | .ok pages =>
    let N := pages.length
    let full_markdown := strJoin (mdChunks 0 pages)
    let text_content := pages.filter nonblank
    let full_text := strJoinSep "\n\n" text_content
    let html_content := htmlPre ++ full_text.replace "\n" "<br>" ++ htmlPost
    let json_content := jsonContent stem N now full_text full_markdown
    ((.ok
        { markdown_content := full_markdown
          html_content := html_content
          text_content := full_text
          json_content := json_content }
        { total_pages := N
          text_blocks := (text_content.filter nonblank).length
          tables := 0
          formulas := 0 }
        .basic),
     (0.1, "初始化处理器...") :: (0.3, "读取 PDF 文件...")
       :: (0.4, "处理 " ++ toString N ++ " 页内容...")
       :: pageTrace N ++ [(0.9, "生成输出文件..."), (1.0, "处理完成！")])

/-- src/streamlit_app_vercel.py `call_mineru_api`: `apiUrl` is the
`MINERU_API_URL` environment value, `resp` the HTTP outcome (`none` for a
transport failure, otherwise status code and the parsed 200 body).  Every
outcome other than a 200 response yields `none`; nothing is raised. -/
def call_mineru_api (apiUrl : Option String) (resp : Option (Nat × PResult)) :
    Option PResult × List Prog :=
  match apiUrl with
  | none => (none, [])
  | some _ =>
    match resp with
    | none => (none, [(0.2, "连接 MinerU API 服务...")])
    | some (status, r) =>
      if status = 200 then
        (some r, [(0.2, "连接 MinerU API 服务..."), (1.0, "API 处理完成！")])
      else (none, [(0.2, "连接 MinerU API 服务...")])

/-- The per-file dispatch of src/streamlit_app_vercel.py `main`
(lines 403-409): in `api` mode a `None` from the API triggers fallback to the
basic branch with the same progress callback. -/
def processFile (mode : String) (apiUrl : Option String)
    (resp : Option (Nat × PResult)) (language : String) (stem : String)
    (input : Except String (List String)) (now : String) :
    PResult × List Prog :=
  if mode = "api" then
    match call_mineru_api apiUrl resp with
    | (some r, tr) => (r, tr)
    | (none, tr) =>
      let (r, tr2) := process_pdf_basic language mode stem input now
      (r, tr ++ tr2)
  else process_pdf_basic language mode stem input now

end Vercel

/-! ## Markdown → text (src/mineru_processor.py `_markdown_to_text`, 418-434)

Each `re.sub` call is one pass over the character list.  Python's `.` does
not match a newline, so every non-greedy group is confined to one line; the
passes below realize the leftmost, shortest-group matching of the engine and
splice in the captured group (or nothing) exactly as the replacement template
does. -/

/-- Index of the first occurrence of `m` strictly before any newline
(the reach of a non-greedy single-line group). -/
def findOnLine (m : Char) : List Char → Option Nat
  | [] => none
  | c :: rest =>
    if c = m then some 0
    else if c = '\n' then none
    else (findOnLine m rest).map (· + 1)

/-- Index of the first occurrence of two adjacent `m`s before any newline. -/
def findDouble (m : Char) : List Char → Option Nat
  | [] => none
  | [_] => none
  | c :: d :: rest =>
    if c = m ∧ d = m then some 0
    else if c = '\n' then none
    else (findDouble m (d :: rest)).map (· + 1)

/-- Length of the leading run of `m`s. -/
def charRun (m : Char) : List Char → Nat
  | [] => 0
  | c :: rest => if c = m then charRun m rest + 1 else 0

theorem dropWhileLen (p : Char → Bool) (l : List Char) :
    (l.dropWhile p).length ≤ l.length := by
  induction l with
  | nil => simp [List.dropWhile]
  | cons c rest ih =>
    simp only [List.dropWhile]
    by_cases h : p c
    · simp only [h, if_pos, List.length_cons]
      omega
    · simp [h]

/-- `re.sub(r'#{1,6}\s*', '', text)`: at each `#`, consume up to six `#`s
greedily, then all following whitespace. -/
def headingSub : List Char → List Char
  | [] => []
  | c :: rest =>
    if c = '#' then
      headingSub ((rest.drop (min (charRun '#' rest) 5)).dropWhile isPySpace)
    else c :: headingSub rest
  termination_by l => l.length
  decreasing_by
    all_goals simp only [List.length_cons]
    · exact Nat.lt_succ_of_le (Nat.le_trans (dropWhileLen _ _)
        (by simp only [List.length_drop]; omega))
    · omega

/-- `re.sub(r'\*\*(.*?)\*\*', r'\1', text)`: leftmost `**`, shortest group up
to the next `**` on the same line, replaced by the group. -/
def boldSub : List Char → List Char
  | [] => []
  | [c] => [c]
  | c :: d :: rest =>
    if c = '*' ∧ d = '*' then
      match findDouble '*' rest with
      | some i => rest.take i ++ boldSub (rest.drop (i + 2))
      | none => c :: boldSub (d :: rest)
    else c :: boldSub (d :: rest)
  termination_by l => l.length
  decreasing_by
    all_goals simp only [List.length_cons, List.length_drop]
    all_goals omega

/-- One `re.sub(r'm(.*?)m', r'\1', text)` pass for a single-character
delimiter `m` (italic `*`, inline code `` ` ``): the pair and nothing else is
removed. -/
def pairSub (m : Char) : List Char → List Char
  | [] => []
  | c :: rest =>
    if c = m then
      match findOnLine m rest with
      | some i => rest.take i ++ pairSub m (rest.drop (i + 1))
      | none => c :: pairSub m rest
    else c :: pairSub m rest
  termination_by l => l.length
  decreasing_by
    all_goals simp only [List.length_cons, List.length_drop]
    all_goals omega

/-- `re.sub(r'\|.*?\|', '', text)`: the pipes and the span between them are
dropped. -/
def pipeSub : List Char → List Char
  | [] => []
  | c :: rest =>
    if c = '|' then
      match findOnLine '|' rest with
      | some i => pipeSub (rest.drop (i + 1))
      | none => c :: pipeSub rest
    else c :: pipeSub rest
  termination_by l => l.length
  decreasing_by
    all_goals simp only [List.length_cons, List.length_drop]
    all_goals omega

/-- Index of the first `)` strictly before any newline. -/
def findCloseParen : List Char → Option Nat
  | [] => none
  | c :: rest =>
    if c = ')' then some 0
    else if c = '\n' then none
    else (findCloseParen rest).map (· + 1)

/-- Matching of `(.*?)\]\(.*?\)` after an opening `[`: group end positions
are tried in ascending order (each `]` immediately followed by `(`); the
first for which a closing `)` exists on the line wins, with the shortest URL
part.  Returns the captured group and the input remaining after the match. -/
def linkScan (acc : List Char) : List Char → Option (List Char × List Char)
  | [] => none
  | [_] => none
  | c :: d :: rest =>
    if c = '\n' then none
    else if c = ']' ∧ d = '(' then
      match findCloseParen rest with
      | some k => some (acc.reverse, rest.drop (k + 1))
      | none => linkScan (c :: acc) (d :: rest)
    else linkScan (c :: acc) (d :: rest)

theorem linkScan_length :
    ∀ (l : List Char) (acc g r), linkScan acc l = some (g, r) →
      r.length < l.length := by
  intro l
  induction l with
  | nil => intro acc g r h; simp [linkScan] at h
  | cons c rest ih =>
    intro acc g r h
    match rest, ih, h with
    | [], ih, h => simp [linkScan] at h
    | d :: rest2, ih, h =>
      by_cases hn : c = '\n'
      · simp [linkScan, hn] at h
      · by_cases hb : c = ']' ∧ d = '('
        · rcases hk : findCloseParen rest2 with _ | k
          · simp only [linkScan, if_neg hn, if_pos hb, hk] at h
            have := ih (c :: acc) g r h
            simp only [List.length_cons] at *
            omega
          · simp only [linkScan, if_neg hn, if_pos hb, hk] at h
            cases h
            have := List.length_drop (k + 1) rest2
            simp only [List.length_cons]
            omega
        · simp only [linkScan, if_neg hn, if_neg hb] at h
          have := ih (c :: acc) g r h
          simp only [List.length_cons] at *
          omega

/-- `re.sub(r'\[(.*?)\]\(.*?\)', r'\1', text)`: link syntax is removed, the
link text kept. -/
def linkSub : List Char → List Char
  | [] => []
  | c :: rest =>
    if c = '[' then
      match h : linkScan [] rest with
      | some (g, rest2) => g ++ linkSub rest2
      | none => c :: linkSub rest
    else c :: linkSub rest
  termination_by l => l.length
  decreasing_by
    · simp only [List.length_cons]
      exact Nat.lt_succ_of_lt (linkScan_length _ _ _ _ h)
    · simp
    · simp

/-- `re.sub(r'-{3,}', '', text)`: maximal dash runs of length at least three
are removed; shorter runs stay. -/
def dashSub : List Char → List Char
  | [] => []
  | c :: rest =>
    if c = '-' then
      if 2 ≤ charRun '-' rest then dashSub (rest.drop (charRun '-' rest))
      else c :: dashSub rest
    else c :: dashSub rest
  termination_by l => l.length
  decreasing_by
    all_goals simp only [List.length_cons, List.length_drop]
    all_goals omega

/-- `re.sub(r'\n{3,}', '\n\n', text)`: maximal newline runs of length at
least three collapse to exactly two newlines. -/
def newlineSub : List Char → List Char
  | [] => []
  | c :: rest =>
    if c = '\n' then
      if 2 ≤ charRun '\n' rest then
        '\n' :: '\n' :: newlineSub (rest.drop (charRun '\n' rest))
      else c :: newlineSub rest
    else c :: newlineSub rest
  termination_by l => l.length
  decreasing_by
    all_goals simp only [List.length_cons, List.length_drop]
    all_goals omega

/-- The full `_markdown_to_text` pipeline on character lists, in source
order: headings, bold, italic, inline code, links, pipes, horizontal rules,
blank-line collapse, final strip. -/
def mdText (l : List Char) : List Char :=
  pyStrip (newlineSub (dashSub (pipeSub (linkSub
    (pairSub '`' (pairSub '*' (boldSub (headingSub l))))))))

namespace MinerUProcessor

/-- `MinerUProcessor._markdown_to_text` on strings. -/
def markdown_to_text (s : String) : String := ⟨mdText s.data⟩

/-! ### Demo branch (src/mineru_processor.py `_create_demo_result`, 200-342)

Taken when the advanced engine cannot be imported.  The only inputs the
function reads are `Path(pdf_path).stem` and the clock; the bytes of the PDF
are never opened. -/

/-- The fabricated demo markdown document,
`f"# {pdf_name} - 演示解析结果 ..."` (lines 212-254). -/
def demoMarkdown (stem : String) : String :=
  "# " ++ stem ++ " - 演示解析结果\n\n## 📋 文档概述\n\n这是一个演示的 PDF 解析结果。在实际部署中，当 MinerU 引擎可用时，将提供完整的 AI 解析功能。\n\n## 🎯 主要功能\n\n### 文本识别\n- 高精度 OCR 文本识别\n- 支持中英文混合文档\n- 保持原始格式和布局\n\n### 表格解析\n| 功能 | 状态 | 说明 |\n|------|------|------|\n| 表格识别 | ✅ 支持 | 自动识别表格结构 |\n| 单元格合并 | ✅ 支持 | 处理复杂表格布局 |\n| 数据提取 | ✅ 支持 | 结构化数据输出 |\n\n### 公式识别\n数学公式示例：\n- 线性方程：$y = ax + b$\n- 二次方程：$ax^2 + bx + c = 0$\n- 积分公式：$\\int_a^b f(x)dx$\n\n## 📊 处理统计\n\n- **总页数**: 演示页面\n- **文本块**: 多个文本区域\n- **表格数量**: 1个示例表格\n- **公式数量**: 3个数学公式\n\n## 🚀 完整功能\n\n要体验完整的 AI 解析功能，请：\n1. 安装 MinerU 引擎\n2. 配置相关依赖\n3. 重新处理文档\n\n---\n*这是演示模式的输出结果*\n"

/-- Fixed head of the styled template `_markdown_to_html` wraps library
output in (lines 351-396). -/
def libHtmlPre : String :=
  "\n<!DOCTYPE html>\n<html>\n<head>\n    <meta charset=\"UTF-8\">\n    <title>PDF 解析结果</title>\n    <style>\n        body \x7b\n            font-family: -apple-system, BlinkMacSystemFont, \x27Segoe UI\x27, Roboto, sans-serif;\n            line-height: 1.6;\n            max-width: 800px;\n            margin: 0 auto;\n            padding: 20px;\n            color: #333;\n        \x7d\n        h1, h2, h3 \x7b color: #667eea; \x7d\n        table \x7b\n            border-collapse: collapse;\n            width: 100%;\n            margin: 20px 0;\n        \x7d\n        th, td \x7b\n            border: 1px solid #ddd;\n            padding: 12px;\n            text-align: left;\n        \x7d\n        th \x7b background-color: #f8f9fa; \x7d\n        code \x7b\n            background-color: #f8f9fa;\n            padding: 2px 4px;\n            border-radius: 3px;\n        \x7d\n        blockquote \x7b\n            border-left: 4px solid #667eea;\n            margin: 0;\n            padding-left: 20px;\n            color: #666;\n        \x7d\n    </style>\n</head>\n<body>\n"

/-- Fixed tail of the styled template. -/
def libHtmlPost : String := "\n</body>\n</html>\n"

/-- Fixed head of the plain template of the ImportError fallback
(lines 405-416). -/
def plainHtmlPre : String :=
  "\n<!DOCTYPE html>\n<html>\n<head>\n    <meta charset=\"UTF-8\">\n    <title>PDF 解析结果</title>\n</head>\n<body>\n"

/-- Fixed tail of the plain template. -/
def plainHtmlPost : String := "\n</body>\n</html>\n"

/-- `MinerUProcessor._markdown_to_html`: `mdLib = some rendered` models a
present `markdown` package and the HTML it returned for the content; `none`
models the ImportError fallback of naive string replacement. -/
def markdown_to_html (mdLib : Option String) (markdown_content : String) :
    String :=
  match mdLib with
  | some rendered => libHtmlPre ++ rendered ++ libHtmlPost
  | none =>
    let h := markdown_content.replace "\n" "<br>"
    let h := (h.replace "# " "<h1>").replace "\n" "</h1>\n"
    let h := (h.replace "## " "<h2>").replace "\n" "</h2>\n"
    let h := (h.replace "### " "<h3>").replace "\n" "</h3>\n"
    plainHtmlPre ++ h ++ plainHtmlPost

/-- `json.dumps(json_data, ensure_ascii=False, indent=2)` for the demo JSON
dictionary (lines 277-311); `ts` is `time.strftime("%Y-%m-%d %H:%M:%S")`. -/
def demoJson (stem ts : String) : String :=
  "\x7b\n  \"document\": \x7b\n    \"title\": " ++ jsonStr stem
    ++ ",\n    \"type\": \"demo\",\n    \"pages\": 1,\n    \"content\": \x7b\n      \"text_blocks\": [\n        \x7b\n          \"type\": \"heading\",\n          \"content\": "
    ++ jsonStr (stem ++ " - 演示解析结果")
    ++ "\n        \x7d,\n        \x7b\n          \"type\": \"paragraph\",\n          \"content\": \"这是一个演示的 PDF 解析结果。\"\n        \x7d,\n        \x7b\n          \"type\": \"table\",\n          \"content\": \"示例表格数据\"\n        \x7d,\n        \x7b\n          \"type\": \"formula\",\n          \"content\": \"数学公式示例\"\n        \x7d\n      ],\n      \"tables\": [\n        \x7b\n          \"headers\": [\n            \"功能\",\n            \"状态\",\n            \"说明\"\n          ],\n          \"rows\": [\n            [\n              \"表格识别\",\n              \"✅ 支持\",\n              \"自动识别表格结构\"\n            ],\n            [\n              \"单元格合并\",\n              \"✅ 支持\",\n              \"处理复杂表格布局\"\n            ],\n            [\n              \"数据提取\",\n              \"✅ 支持\",\n              \"结构化数据输出\"\n            ]\n          ]\n        \x7d\n      ],\n      \"formulas\": [\n        \"y = ax + b\",\n        \"ax^2 + bx + c = 0\",\n        \"∫f(x)dx\"\n      ]\n    \x7d\n  \x7d,\n  \"metadata\": \x7b\n    \"processed_at\": "
    ++ jsonStr ts
    ++ ",\n    \"method\": \"demo\",\n    \"version\": \"1.0.0\"\n  \x7d\n\x7d"

/-- `MinerUProcessor._create_demo_result`.  `pdfContent` is the page data of
the uploaded PDF; the source never opens the file, so the argument is
(faithfully) unread.  The stats are the hard-coded constants of lines
332-337. -/
def create_demo_result (stem : String) (pdfContent : List String)
    (ts : String) (mdLib : Option String) : PResult × List Prog :=
  let markdown_content := demoMarkdown stem
  let html_content := markdown_to_html mdLib markdown_content
  let text_content := markdown_to_text markdown_content
  let json_content := demoJson stem ts
  (.ok
    { markdown_content := markdown_content
      html_content := html_content
      text_content := text_content
      json_content := json_content }
    { total_pages := 1, text_blocks := 4, tables := 1, formulas := 3 }
    .demo,
   [(0.3, "生成演示内容..."), (0.6, "生成输出文件..."),
    (1.0, "演示结果生成完成！")])

/-- `MinerUProcessor.process_pdf` when `mineru_available` is false: emits the
initialization milestone, then delegates to the demo branch. -/
def process_pdf_demo (stem : String) (pdfContent : List String) (ts : String)
    (mdLib : Option String) : PResult × List Prog :=
  let (r, tr) := create_demo_result stem pdfContent ts mdLib
  (r, (0.1, "初始化处理器...") :: tr)

end MinerUProcessor

/-! ## Batch processing and the temporary workspace (src/app.py `main`)

The file system is the list of existing paths plus a counter of
`cleanup_temp_dirs` invocations.  `shutil.rmtree` removes a directory and
everything below it: in path terms, every path of which the directory is a
character prefix. -/

/-- Character-prefix test (`t` is an initial segment of `p`). -/
def pref : List Char → List Char → Bool
  | [], _ => true
  | _ :: _, [] => false
  | a :: as, b :: bs => a == b && pref as bs

/-- `p` lies at or under directory `t`. -/
def underDir (t p : String) : Bool := pref t.data p.data

structure FS where
  paths : List String
  cleanups : Nat
  deriving Repr

/-- src/app.py `create_temp_dirs` (lines 209-216): one `mkdtemp` parent with
`input` and `output` children. -/
def create_temp_dirs (temp : String) (fs : FS) : FS :=
  { fs with
    paths := (temp ++ "/output") :: (temp ++ "/input") :: temp :: fs.paths }

/-- src/app.py `cleanup_temp_dirs` (lines 218-224): `shutil.rmtree` on the
workspace parent.  (The `os.path.exists` guard only skips a no-op removal and
is absorbed by the filter.) -/
def cleanup_temp_dirs (temp : String) (fs : FS) : FS :=
  { paths := fs.paths.filter (fun p => !underDir temp p)
    cleanups := fs.cleanups + 1 }

/-- One uploaded file as the batch loop sees it: the saved name, the stem
used for its output directory, whether writing the uploaded bytes succeeds,
the pages the PDF library yields (or the open error), and the metadata that
lands in the JSON rendition. -/
structure UploadFile where
  name : String
  stem : String
  writeOk : Bool
  input : Except String (List String)
  size : Nat
  pt : String

/-- The per-file loop of src/app.py `main` (lines 555-583): save the bytes
into the input directory, create the per-file output directory, process, and
collect the result.  An exception while saving propagates out of the loop;
processing itself never raises (`process_pdf_file` catches everything). -/
def batchLoop (cfg : Config) (now temp : String) :
    List UploadFile → FS → Except String (List PResult) × FS
  | [], fs => (.ok [], fs)
  | f :: rest, fs =>
    if f.writeOk then
      match batchLoop cfg now temp rest { fs with
        paths := (temp ++ "/output/" ++ f.stem)
          :: (temp ++ "/input/" ++ f.name) :: fs.paths } with
      | (.ok rs, fs2) =>
        (.ok ((App.process_pdf_file cfg f.stem f.input now f.size f.pt).1
          :: rs), fs2)
      | (.error e, fs2) => (.error e, fs2)
    else (.error ("write failed: " ++ f.name), fs)

/-- The batch-scoped `try ... finally cleanup_temp_dirs(temp_base_dir)` of
src/app.py `main` (lines 546-699): workspace created before any file,
removed exactly once after the loop returns or raises. -/
def main_batch (cfg : Config) (now temp : String) (files : List UploadFile)
    (fs : FS) : Except String (List PResult) × FS :=
  let fs1 := create_temp_dirs temp fs
  let (res, fs2) := batchLoop cfg now temp files fs1
  (res, cleanup_temp_dirs temp fs2)

/-- The result list the loop accumulates when every save succeeds. -/
def batch_results (cfg : Config) (now : String) (files : List UploadFile) :
    List PResult :=
  files.map fun f => (App.process_pdf_file cfg f.stem f.input now f.size f.pt).1

/-! ## General lemmas about the string helpers -/

theorem containsL_nil (t : List Char) : containsL [] t = true := by
  cases t <;> simp [containsL, subAt, List.isEmpty]

theorem subAt_append {pat s : List Char} (h : subAt pat s = true)
    (t : List Char) : subAt pat (s ++ t) = true := by
  induction pat generalizing s with
  | nil => simp [subAt]
  | cons p ps ih =>
    cases s with
    | nil => simp [subAt] at h
    | cons c cs =>
      simp only [subAt, Bool.and_eq_true] at h
      simp only [List.cons_append, subAt, Bool.and_eq_true]
      exact ⟨h.1, ih h.2⟩

theorem containsL_append_left {pat s : List Char} (h : containsL pat s = true)
    (t : List Char) : containsL pat (s ++ t) = true := by
  induction s with
  | nil =>
    cases pat with
    | nil => exact containsL_nil t
    | cons p ps => simp [containsL, List.isEmpty] at h
  | cons c cs ih =>
    simp only [containsL, Bool.or_eq_true] at h
    rcases h with h | h
    · simp only [List.cons_append, containsL, Bool.or_eq_true]
      exact Or.inl (subAt_append h t)
    · simp only [List.cons_append, containsL, Bool.or_eq_true]
      exact Or.inr (ih h)

theorem containsL_append_right (pat : List Char) {t : List Char}
    (h : containsL pat t = true) (s : List Char) :
    containsL pat (s ++ t) = true := by
  induction s with
  | nil => simpa using h
  | cons c cs ih =>
    simp only [List.cons_append, containsL, Bool.or_eq_true]
    exact Or.inr ih

theorem strContains_left (a b pat : String) (h : strContains a pat = true) :
    strContains (a ++ b) pat = true := by
  unfold strContains at *
  rw [String.data_append]
  exact containsL_append_left h b.data

theorem strContains_right (a b pat : String) (h : strContains b pat = true) :
    strContains (a ++ b) pat = true := by
  unfold strContains at *
  rw [String.data_append]
  exact containsL_append_right pat.data h a.data

/-- Containment in the fixed head of a three-part template. -/
theorem strContains3_left (a b c pat : String)
    (h : strContains a pat = true) : strContains (a ++ b ++ c) pat = true :=
  strContains_left (a ++ b) c pat (strContains_left a b pat h)

/-- Containment in the fixed tail of a three-part template. -/
theorem strContains3_right (a b c pat : String)
    (h : strContains c pat = true) : strContains (a ++ b ++ c) pat = true :=
  strContains_right (a ++ b) c pat h

theorem append_ne_empty_left {a : String} (h : a.data ≠ []) (b : String) :
    a ++ b ≠ "" := by
  rw [Ne, String.ext_iff, String.data_append]
  simp [h]

/-- The joined markdown of the basic page loop is empty exactly when every
page is whitespace-only. -/
theorem strJoin_mdChunks_empty (pages : List String) :
    ∀ i, strJoin (mdChunks i pages) = "" ↔ ∀ p ∈ pages, nonblank p = false := by
  induction pages with
  | nil => intro i; simp [mdChunks, strJoin]
  | cons p rest ih =>
    intro i
    by_cases hp : nonblank p
    · simp only [mdChunks, hp, if_pos, strJoin]
      constructor
      · intro h
        exact absurd h (append_ne_empty_left (by simp) _)
      · intro h
        exact absurd hp (by simpa using h p (by simp))
    · simp only [mdChunks, hp, if_neg, ih (i + 1), Bool.false_eq_true,
        not_false_eq_true, List.mem_cons]
      constructor
      · intro h q hq
        rcases hq with rfl | hq
        · simpa using hp
        · exact h q hq
      · intro h q hq
        exact h q (Or.inr hq)

/-- Non-emptiness form of the previous lemma. -/
theorem strJoin_mdChunks_ne_empty (pages : List String) :
    strJoin (mdChunks 0 pages) ≠ "" ↔ ∃ p ∈ pages, nonblank p = true := by
  rw [Ne, strJoin_mdChunks_empty pages 0]
  constructor
  · intro h
    by_contra hc
    push_neg at hc
    refine h fun p hp => ?_
    exact Bool.eq_false_iff.mpr (hc p hp)
  · rintro ⟨p, hp, hnb⟩ h
    rw [h p hp] at hnb
    exact Bool.false_ne_true hnb

theorem pref_self (l : List Char) : pref l l = true := by
  induction l with
  | nil => rfl
  | cons c cs ih => simp [pref, ih]

/-! ## C1: outputs of successful results -/

/-- C1 (corrected): on every modelled branch a `success = true` result's
`html_content` carries the `<html>`...`</html>` wrapper, and
`markdown_content` is non-empty for the demo branch and for basic runs with
at least one non-whitespace page — but the basic branches return
`success = true` with an empty `markdown_content` when every page is
whitespace-only, so non-emptiness holds exactly when some page is
non-blank. -/
theorem C1_success_output_shape :
    (∀ (cfg : Config) (stem : String) (pages : List String) (now : String)
        (size : Nat) (pt : String),
      (App.process_pdf_file cfg stem (.ok pages) now size pt).1.success = true ∧
      strContains (App.process_pdf_file cfg stem (.ok pages) now size
        pt).1.outputsD.html_content "<html>" = true ∧
      strContains (App.process_pdf_file cfg stem (.ok pages) now size
        pt).1.outputsD.html_content "</html>" = true ∧
      ((App.process_pdf_file cfg stem (.ok pages) now size
          pt).1.outputsD.markdown_content ≠ "" ↔
        ∃ p ∈ pages, nonblank p = true)) ∧
    (∀ (language mode stem : String) (pages : List String) (now : String),
      (Vercel.process_pdf_basic language mode stem (.ok pages) now).1.success
          = true ∧
      strContains (Vercel.process_pdf_basic language mode stem (.ok pages)
        now).1.outputsD.html_content "<html>" = true ∧
      strContains (Vercel.process_pdf_basic language mode stem (.ok pages)
        now).1.outputsD.html_content "</html>" = true ∧
      ((Vercel.process_pdf_basic language mode stem (.ok pages)
          now).1.outputsD.markdown_content ≠ "" ↔
        ∃ p ∈ pages, nonblank p = true)) ∧
    (∀ (stem : String) (content : List String) (ts : String)
        (mdLib : Option String),
      (MinerUProcessor.create_demo_result stem content ts mdLib).1.success
          = true ∧
      strContains (MinerUProcessor.create_demo_result stem content ts
        mdLib).1.outputsD.html_content "<html>" = true ∧
      strContains (MinerUProcessor.create_demo_result stem content ts
        mdLib).1.outputsD.html_content "</html>" = true ∧
      (MinerUProcessor.create_demo_result stem content ts
        mdLib).1.outputsD.markdown_content ≠ "") := by
  refine ⟨?_, ?_, ?_⟩
  · intro cfg stem pages now size pt
    refine ⟨rfl, ?_, ?_, ?_⟩
    · exact strContains3_left App.htmlPre _ App.htmlPost "<html>" (by decide)
    · exact strContains3_right App.htmlPre _ App.htmlPost "</html>" (by decide)
    · show strJoin (mdChunks 0 pages) ≠ "" ↔ _
      exact strJoin_mdChunks_ne_empty pages
  · intro language mode stem pages now
    refine ⟨rfl, ?_, ?_, ?_⟩
    · exact strContains3_left Vercel.htmlPre _ Vercel.htmlPost "<html>" (by decide)
    · exact strContains3_right Vercel.htmlPre _ Vercel.htmlPost "</html>" (by decide)
    · show strJoin (mdChunks 0 pages) ≠ "" ↔ _
      exact strJoin_mdChunks_ne_empty pages
  · intro stem content ts mdLib
    refine ⟨rfl, ?_, ?_, ?_⟩
    · cases mdLib with
      | some rendered =>
        exact strContains3_left MinerUProcessor.libHtmlPre _
          MinerUProcessor.libHtmlPost "<html>" (by decide)
      | none =>
        exact strContains3_left MinerUProcessor.plainHtmlPre _
          MinerUProcessor.plainHtmlPost "<html>" (by decide)
    · cases mdLib with
      | some rendered =>
        exact strContains3_right MinerUProcessor.libHtmlPre _
          MinerUProcessor.libHtmlPost "</html>" (by decide)
      | none =>
        exact strContains3_right MinerUProcessor.plainHtmlPre _
          MinerUProcessor.plainHtmlPost "</html>" (by decide)
    · refine append_ne_empty_left ?_ _
      rw [String.data_append]
      simp

/-- C1 counterexample: a one-page PDF whose only page is a single space is
processed by the app.py basic branch with `success = true` and an *empty*
`markdown_content`, contradicting the claimed invariant. -/
theorem C1_counterexample :
    (App.process_pdf_file ⟨"ch", "auto", true, true⟩ "doc" (.ok [" "]) "now"
      1 "0.0").1.success = true ∧
    (App.process_pdf_file ⟨"ch", "auto", true, true⟩ "doc" (.ok [" "]) "now"
      1 "0.0").1.outputsD.markdown_content = "" := by
  constructor
  · decide
  · decide

/-! ## C3: remote-API failure falls back to the basic branch -/

/-- C3 (confirmed): with the remote branch selected, a transport failure or
any non-200 status makes `call_mineru_api` yield `None` (a soft condition,
no error result), and the dispatched result is exactly the one the basic
branch alone produces for the same input. -/
theorem C3_api_unavailable_falls_back
    (url language mode stem now : String)
    (input : Except String (List String)) (resp : Option (Nat × PResult))
    (h : resp = none ∨ ∃ status r, resp = some (status, r) ∧ status ≠ 200) :
    (Vercel.call_mineru_api (some url) resp).1 = none ∧
    (Vercel.processFile "api" (some url) resp language stem input now).1 =
      (Vercel.process_pdf_basic language "api" stem input now).1 := by
  have hcall : Vercel.call_mineru_api (some url) resp =
      (none, [(0.2, "连接 MinerU API 服务...")]) := by
    rcases h with rfl | ⟨status, r, rfl, hs⟩
    · rfl
    · simp [Vercel.call_mineru_api, hs]
  refine ⟨by rw [hcall], ?_⟩
  unfold Vercel.processFile
  rw [if_pos rfl, hcall]

/-- Witness for C3 at a concrete input: a 500 response on a one-page PDF. -/
theorem C3_witness :
    (Vercel.call_mineru_api (some "http://api") (some (500, .err "x"))).1
        = none ∧
    (Vercel.processFile "api" (some "http://api") (some (500, .err "x"))
        "ch" "doc" (.ok ["hello"]) "now").1 =
      (Vercel.process_pdf_basic "ch" "api" "doc" (.ok ["hello"]) "now").1 :=
  C3_api_unavailable_falls_back "http://api" "ch" "api" "doc" "now"
    (.ok ["hello"]) (some (500, .err "x"))
    (Or.inr ⟨500, .err "x", rfl, by decide⟩)

/-! ## C4: the temporary workspace is gone after a batch -/

theorem batchLoop_cleanups (cfg : Config) (now temp : String) :
    ∀ (files : List UploadFile) (fs : FS),
      (batchLoop cfg now temp files fs).2.cleanups = fs.cleanups := by
  intro files
  induction files with
  | nil => intro fs; rfl
  | cons f rest ih =>
    intro fs
    unfold batchLoop
    by_cases hw : f.writeOk
    · simp only [hw, if_pos]
      rcases hr : batchLoop cfg now temp rest { fs with
        paths := (temp ++ "/output/" ++ f.stem)
          :: (temp ++ "/input/" ++ f.name) :: fs.paths } with ⟨res, fs2⟩
      have := ih { fs with
        paths := (temp ++ "/output/" ++ f.stem)
          :: (temp ++ "/input/" ++ f.name) :: fs.paths }
      rw [hr] at this
      cases res <;> simpa using this
    · simp [hw]

/-- C4 (confirmed): whatever the batch does — every file, some files or the
very first save may fail — after `main_batch` returns, no surviving path
lies at or under the workspace directory, the workspace path itself is gone,
and the cleanup ran exactly once. -/
theorem C4_workspace_removed (cfg : Config) (now temp : String)
    (files : List UploadFile) (fs : FS) :
    ((main_batch cfg now temp files fs).2.paths.all
      (fun p => !underDir temp p)) = true ∧
    ((main_batch cfg now temp files fs).2.paths.contains temp) = false ∧
    (main_batch cfg now temp files fs).2.cleanups = fs.cleanups + 1 := by
  have hkey : (main_batch cfg now temp files fs).2 =
      cleanup_temp_dirs temp
        (batchLoop cfg now temp files (create_temp_dirs temp fs)).2 := by
    show (match batchLoop cfg now temp files (create_temp_dirs temp fs) with
      | (res, fs2) => (res, cleanup_temp_dirs temp fs2)).2 = _
    rcases h : batchLoop cfg now temp files (create_temp_dirs temp fs)
      with ⟨res, fs2⟩
    rfl
  rw [hkey]
  refine ⟨?_, ?_, ?_⟩
  · simp only [cleanup_temp_dirs, List.all_eq_true]
    intro p hp
    exact (List.mem_filter.mp hp).2
  · simp only [cleanup_temp_dirs, List.contains_eq_any_beq, List.any_eq_false]
    intro p hp hbeq
    have hpe : temp = p := beq_iff_eq.mp hbeq
    subst hpe
    have h2 := (List.mem_filter.mp hp).2
    rw [show underDir temp temp = true from pref_self temp.data] at h2
    simp at h2
  · simp only [cleanup_temp_dirs]
    rw [batchLoop_cleanups cfg now temp files (create_temp_dirs temp fs)]
    rfl

/-! ## C5: one corrupted file in a batch -/

theorem file_ok_success (cfg : Config) (stem : String) (pages : List String)
    (now : String) (size : Nat) (pt : String) :
    (App.process_pdf_file cfg stem (.ok pages) now size pt).1.success
      = true := rfl

theorem file_err_shape (cfg : Config) (stem e now : String) (size : Nat)
    (pt : String) :
    (App.process_pdf_file cfg stem (.error e) now size pt).1 =
      .err ("处理 PDF 时出错: " ++ ("基础处理失败: " ++ e)) := rfl

/-- When every save succeeds, the loop returns one result per file, in
order. -/
theorem batchLoop_ok (cfg : Config) (now temp : String) :
    ∀ (files : List UploadFile) (fs : FS),
      (∀ f ∈ files, f.writeOk = true) →
      (batchLoop cfg now temp files fs).1 =
        .ok (batch_results cfg now files) := by
  intro files
  induction files with
  | nil => intro fs _; rfl
  | cons f rest ih =>
    intro fs h
    have hw : f.writeOk = true := h f (by simp)
    unfold batchLoop
    simp only [hw, if_pos]
    rcases hr : batchLoop cfg now temp rest { fs with
      paths := (temp ++ "/output/" ++ f.stem)
        :: (temp ++ "/input/" ++ f.name) :: fs.paths } with ⟨res, fs2⟩
    have hres : res = .ok (batch_results cfg now rest) := by
      have := ih { fs with
        paths := (temp ++ "/output/" ++ f.stem)
          :: (temp ++ "/input/" ++ f.name) :: fs.paths }
        (fun g hg => h g (List.mem_cons_of_mem f hg))
      rw [hr] at this
      exact this
    subst hres
    simp [batch_results]

/-- C5 (confirmed): in a batch where exactly one file is corrupted (its open
fails) and every save succeeds, the batch returns one result per file; the
corrupted file contributes the single `success = false` result, which
carries a non-empty error message, and all other files still yield
`success = true` results. -/
theorem C5_one_corrupt_file (cfg : Config) (now temp : String) (fs : FS)
    (pre post : List UploadFile) (bad : UploadFile) (e : String)
    (hgood : ∀ f ∈ pre ++ post, f.writeOk = true ∧ f.input.isOk = true)
    (hbadw : bad.writeOk = true) (hbad : bad.input = .error e) :
    (main_batch cfg now temp (pre ++ bad :: post) fs).1 =
      .ok (batch_results cfg now (pre ++ bad :: post)) ∧
    (batch_results cfg now (pre ++ bad :: post)).length =
      pre.length + post.length + 1 ∧
    (batch_results cfg now (pre ++ bad :: post)).countP
      (fun r => r.success) = pre.length + post.length ∧
    (batch_results cfg now (pre ++ bad :: post)).countP
      (fun r => !r.success) = 1 ∧
    ∀ r ∈ batch_results cfg now (pre ++ bad :: post),
      r.success = false → r.errorMsg ≠ "" := by
  have hgoodW : ∀ f ∈ pre ++ bad :: post, f.writeOk = true := by
    intro f hf
    rcases List.mem_append.mp hf with hf | hf
    · exact (hgood f (List.mem_append.mpr (Or.inl hf))).1
    · rcases List.mem_cons.mp hf with rfl | hf
      · exact hbadw
      · exact (hgood f (List.mem_append.mpr (Or.inr hf))).2.symm ▸
          (hgood f (List.mem_append.mpr (Or.inr hf))).1
  have hokS : ∀ f ∈ pre ++ post,
      ((App.process_pdf_file cfg f.stem f.input now f.size f.pt).1.success)
        = true := by
    intro f hf
    have hio := (hgood f hf).2
    rcases hi : f.input with e' | pages
    · rw [hi] at hio
      exact Bool.noConfusion hio
    · exact file_ok_success cfg f.stem pages now f.size f.pt
  have hbadR : (App.process_pdf_file cfg bad.stem bad.input now bad.size
      bad.pt).1 = .err ("处理 PDF 时出错: " ++ ("基础处理失败: " ++ e)) := by
    rw [hbad]; exact file_err_shape cfg bad.stem e now bad.size bad.pt
  have hsplit : batch_results cfg now (pre ++ bad :: post) =
      batch_results cfg now pre ++
        (App.process_pdf_file cfg bad.stem bad.input now bad.size bad.pt).1
        :: batch_results cfg now post := by
    simp [batch_results]
  refine ⟨?_, ?_, ?_, ?_, ?_⟩
  · have hloop := batchLoop_ok cfg now temp (pre ++ bad :: post)
      (create_temp_dirs temp fs) hgoodW
    have hkey : (main_batch cfg now temp (pre ++ bad :: post) fs).1 =
        (batchLoop cfg now temp (pre ++ bad :: post)
          (create_temp_dirs temp fs)).1 := by
      show (match batchLoop cfg now temp (pre ++ bad :: post)
          (create_temp_dirs temp fs) with
        | (res, fs2) => (res, cleanup_temp_dirs temp fs2)).1 = _
      rcases batchLoop cfg now temp (pre ++ bad :: post)
        (create_temp_dirs temp fs) with ⟨res, fs2⟩
      rfl
    rw [hkey, hloop]
  · simp [batch_results]
    omega
  · rw [hsplit, List.countP_append, List.countP_cons]
    have h1 : (batch_results cfg now pre).countP (fun r => r.success)
        = pre.length := by
      have hlen : (batch_results cfg now pre).length = pre.length := by
        simp [batch_results]
      rw [← hlen, List.countP_eq_length]
      intro r hr
      rcases List.mem_map.mp hr with ⟨f, hf, rfl⟩
      exact hokS f (List.mem_append.mpr (Or.inl hf))
    have h2 : (batch_results cfg now post).countP (fun r => r.success)
        = post.length := by
      have hlen : (batch_results cfg now post).length = post.length := by
        simp [batch_results]
      rw [← hlen, List.countP_eq_length]
      intro r hr
      rcases List.mem_map.mp hr with ⟨f, hf, rfl⟩
      exact hokS f (List.mem_append.mpr (Or.inr hf))
    rw [h1, h2, hbadR]
    simp [batch_results, PResult.success]
  · rw [hsplit, List.countP_append, List.countP_cons]
    have h1 : (batch_results cfg now pre).countP (fun r => !r.success)
        = 0 := by
      rw [List.countP_eq_zero]
      intro r hr
      rcases List.mem_map.mp hr with ⟨f, hf, rfl⟩
      simp [hokS f (List.mem_append.mpr (Or.inl hf))]
    have h2 : (batch_results cfg now post).countP (fun r => !r.success)
        = 0 := by
      rw [List.countP_eq_zero]
      intro r hr
      rcases List.mem_map.mp hr with ⟨f, hf, rfl⟩
      simp [hokS f (List.mem_append.mpr (Or.inr hf))]
    rw [h1, h2, hbadR]
    simp [PResult.success]
  · intro r hr hfail
    rw [hsplit] at hr
    rcases List.mem_append.mp hr with hr | hr
    · rcases List.mem_map.mp hr with ⟨f, hf, rfl⟩
      rw [hokS f (List.mem_append.mpr (Or.inl hf))] at hfail
      exact absurd hfail (by simp)
    · rcases List.mem_cons.mp hr with rfl | hr
      · rw [hbadR]
        show "处理 PDF 时出错: " ++ ("基础处理失败: " ++ e) ≠ ""
        exact append_ne_empty_left (by decide) _
      · rcases List.mem_map.mp hr with ⟨f, hf, rfl⟩
        rw [hokS f (List.mem_append.mpr (Or.inr hf))] at hfail
        exact absurd hfail (by simp)

/-- Witness for C5: a three-file batch whose middle file cannot be opened
(N = 3, k = 2). -/
theorem C5_witness :
    (main_batch ⟨"ch", "auto", true, true⟩ "now" "/tmp/t"
      ([⟨"a.pdf", "a", true, .ok ["x"], 1, "0"⟩] ++
        ⟨"b.pdf", "b", true, .error "broken document", 1, "0"⟩ ::
        [⟨"c.pdf", "c", true, .ok ["y"], 1, "0"⟩]) ⟨[], 0⟩).1 =
      .ok (batch_results ⟨"ch", "auto", true, true⟩ "now"
        ([⟨"a.pdf", "a", true, .ok ["x"], 1, "0"⟩] ++
          ⟨"b.pdf", "b", true, .error "broken document", 1, "0"⟩ ::
          [⟨"c.pdf", "c", true, .ok ["y"], 1, "0"⟩])) ∧
    (batch_results ⟨"ch", "auto", true, true⟩ "now"
      ([⟨"a.pdf", "a", true, .ok ["x"], 1, "0"⟩] ++
        ⟨"b.pdf", "b", true, .error "broken document", 1, "0"⟩ ::
        [⟨"c.pdf", "c", true, .ok ["y"], 1, "0"⟩])).length = 1 + 1 + 1 ∧
    (batch_results ⟨"ch", "auto", true, true⟩ "now"
      ([⟨"a.pdf", "a", true, .ok ["x"], 1, "0"⟩] ++
        ⟨"b.pdf", "b", true, .error "broken document", 1, "0"⟩ ::
        [⟨"c.pdf", "c", true, .ok ["y"], 1, "0"⟩])).countP
      (fun r => r.success) = 1 + 1 ∧
    (batch_results ⟨"ch", "auto", true, true⟩ "now"
      ([⟨"a.pdf", "a", true, .ok ["x"], 1, "0"⟩] ++
        ⟨"b.pdf", "b", true, .error "broken document", 1, "0"⟩ ::
        [⟨"c.pdf", "c", true, .ok ["y"], 1, "0"⟩])).countP
      (fun r => !r.success) = 1 ∧
    ∀ r ∈ batch_results ⟨"ch", "auto", true, true⟩ "now"
      ([⟨"a.pdf", "a", true, .ok ["x"], 1, "0"⟩] ++
        ⟨"b.pdf", "b", true, .error "broken document", 1, "0"⟩ ::
        [⟨"c.pdf", "c", true, .ok ["y"], 1, "0"⟩]),
      r.success = false → r.errorMsg ≠ "" :=
  C5_one_corrupt_file ⟨"ch", "auto", true, true⟩ "now" "/tmp/t" ⟨[], 0⟩
    [⟨"a.pdf", "a", true, .ok ["x"], 1, "0"⟩]
    [⟨"c.pdf", "c", true, .ok ["y"], 1, "0"⟩]
    ⟨"b.pdf", "b", true, .error "broken document", 1, "0"⟩
    "broken document" (by decide) (by decide) rfl

/-! ## C8: page count in the basic branch -/

/-- C8 (confirmed): for a PDF that opens with at least one page of
extractable text, both basic branches succeed and report
`stats.total_pages` equal to the library's page count, no matter how many
pages are blank. -/
theorem C8_total_pages_exact (cfg : Config) (language mode stem : String)
    (pages : List String) (now : String) (size : Nat) (pt : String)
    (hne : pages ≠ []) (hx : ∃ p ∈ pages, nonblank p = true) :
    ((App.process_pdf_file cfg stem (.ok pages) now size pt).1.success
        = true ∧
      (App.process_pdf_file cfg stem (.ok pages) now size
        pt).1.statsD.total_pages = pages.length) ∧
    ((Vercel.process_pdf_basic language mode stem (.ok pages) now).1.success
        = true ∧
      (Vercel.process_pdf_basic language mode stem (.ok pages)
        now).1.statsD.total_pages = pages.length) :=
  ⟨⟨rfl, rfl⟩, ⟨rfl, rfl⟩⟩

/-- Witness for C8: a two-page PDF whose second page is blank. -/
theorem C8_witness :
    ((App.process_pdf_file ⟨"ch", "auto", true, true⟩ "doc"
        (.ok ["hello", " "]) "now" 1 "0").1.success = true ∧
      (App.process_pdf_file ⟨"ch", "auto", true, true⟩ "doc"
        (.ok ["hello", " "]) "now" 1 "0").1.statsD.total_pages =
        (["hello", " "] : List String).length) ∧
    ((Vercel.process_pdf_basic "ch" "basic" "doc" (.ok ["hello", " "])
        "now").1.success = true ∧
      (Vercel.process_pdf_basic "ch" "basic" "doc" (.ok ["hello", " "])
        "now").1.statsD.total_pages =
        (["hello", " "] : List String).length) :=
  C8_total_pages_exact ⟨"ch", "auto", true, true⟩ "ch" "basic" "doc"
    ["hello", " "] "now" 1 "0" (by decide) (by decide)

/-! ## C9: the demo result and its inputs -/

/-- C9 (corrected): the demo branch never reads the PDF's content — for a
fixed stem and clock its result is literally independent of the page data —
its stats are the fixed constants (1 page, 4 text blocks, 1 table,
3 formulas) and it always succeeds. -/
theorem C9_demo_input_independence :
    ∀ (stem ts : String) (mdLib : Option String)
      (content content' : List String),
      MinerUProcessor.create_demo_result stem content ts mdLib =
        MinerUProcessor.create_demo_result stem content' ts mdLib ∧
      (MinerUProcessor.create_demo_result stem content ts mdLib).1.statsD =
        ⟨1, 4, 1, 3⟩ ∧
      (MinerUProcessor.create_demo_result stem content ts mdLib).1.success
        = true := by
  intro stem ts mdLib content content'
  exact ⟨rfl, rfl, rfl⟩

/-- C9 counterexample: two input paths with different stems produce
different demo markdown — the demo document embeds the input file's stem, so
it is not a fixed input-independent document. -/
theorem C9_counterexample :
    (MinerUProcessor.create_demo_result "a" [] "t"
      none).1.outputsD.markdown_content ≠
    (MinerUProcessor.create_demo_result "b" [] "t"
      none).1.outputsD.markdown_content := by
  decide

/-! ## C10: the basic branch ignores the configuration -/

/-- C10 (confirmed): both basic branches never read their configuration
argument (so the formula/table toggles cannot affect them), always report
zero tables and zero formulas, and report `text_blocks` equal to the number
of pages with non-whitespace text. -/
theorem C10_basic_ignores_config :
    ∀ (cfg cfg' : Config) (lang lang' mode mode' stem : String)
      (input : Except String (List String)) (now : String) (size : Nat)
      (pt : String) (pages : List String),
      App.process_pdf_basic cfg stem input now size pt =
        App.process_pdf_basic cfg' stem input now size pt ∧
      Vercel.process_pdf_basic lang mode stem input now =
        Vercel.process_pdf_basic lang' mode' stem input now ∧
      ((App.process_pdf_file cfg stem (.ok pages) now size
          pt).1.statsD.tables = 0 ∧
        (App.process_pdf_file cfg stem (.ok pages) now size
          pt).1.statsD.formulas = 0 ∧
        (App.process_pdf_file cfg stem (.ok pages) now size
          pt).1.statsD.text_blocks = (pages.filter nonblank).length) ∧
      ((Vercel.process_pdf_basic lang mode stem (.ok pages)
          now).1.statsD.tables = 0 ∧
        (Vercel.process_pdf_basic lang mode stem (.ok pages)
          now).1.statsD.formulas = 0 ∧
        (Vercel.process_pdf_basic lang mode stem (.ok pages)
          now).1.statsD.text_blocks = (pages.filter nonblank).length) := by
  intro cfg cfg' lang lang' mode mode' stem input now size pt pages
  refine ⟨rfl, rfl, ⟨rfl, rfl, ?_⟩, ⟨rfl, rfl, ?_⟩⟩
  · show ((pages.filter nonblank).filter nonblank).length = _
    rw [List.filter_eq_self.mpr (fun a ha => (List.mem_filter.mp ha).2)]
  · show ((pages.filter nonblank).filter nonblank).length = _
    rw [List.filter_eq_self.mpr (fun a ha => (List.mem_filter.mp ha).2)]

/-! ## C6: progress reporting -/

/-- The emitted progress fractions never decrease. -/
def monoProg (t : List Prog) : Prop :=
  List.Chain' (fun x y : Prog => x.1 ≤ y.1) t

/-- Every emitted fraction lies in `[0, 1]`. -/
def boundedProg (t : List Prog) : Prop :=
  ∀ e ∈ t, 0 ≤ e.1 ∧ e.1 ≤ 1

instance : DecidableRel (fun x y : Prog => x.1 ≤ y.1) :=
  fun x y => inferInstanceAs (Decidable (x.1 ≤ y.1))

instance (t : List Prog) : Decidable (monoProg t) :=
  inferInstanceAs (Decidable (List.Chain' (fun x y : Prog => x.1 ≤ y.1) t))

theorem progress_affine_mono (a b : ℚ) (hb : 0 ≤ b) (N p : Nat) :
    a + ((p : ℚ) + 1) / (N : ℚ) * b ≤
      a + (((p : ℚ) + 1) + 1) / (N : ℚ) * b := by
  rcases Nat.eq_zero_or_pos N with rfl | hN
  · simp
  · have hNq : (0 : ℚ) < N := by exact_mod_cast hN
    have h1 : ((p : ℚ) + 1) ≤ ((p : ℚ) + 1 + 1) := by linarith
    have h2 := (div_le_div_iff_of_pos_right hNq).mpr h1
    have h3 := mul_le_mul_of_nonneg_right h2 hb
    linarith

theorem progress_affine_bounds (a b : ℚ) (hb : 0 ≤ b) (N p : Nat)
    (hp : p < N) :
    a ≤ a + ((p : ℚ) + 1) / (N : ℚ) * b ∧
      a + ((p : ℚ) + 1) / (N : ℚ) * b ≤ a + b := by
  have hNq : (0 : ℚ) < N := by exact_mod_cast Nat.pos_of_ne_zero (by omega)
  constructor
  · have h0 : 0 ≤ ((p : ℚ) + 1) / (N : ℚ) * b := by positivity
    linarith
  · have h1 : ((p : ℚ) + 1) / (N : ℚ) ≤ 1 := by
      rw [div_le_one hNq]
      have : (p : ℚ) + 1 ≤ (N : ℚ) := by exact_mod_cast hp
      linarith
    have h2 : ((p : ℚ) + 1) / (N : ℚ) * b ≤ 1 * b :=
      mul_le_mul_of_nonneg_right h1 hb
    linarith

/-- A page trace built from a pointwise monotone generator is a chain. -/
theorem chain'_map_range (g : Nat → Prog)
    (hg : ∀ i, (g i).1 ≤ (g (i + 1)).1) (N : Nat) :
    List.Chain' (fun x y : Prog => x.1 ≤ y.1) ((List.range N).map g) := by
  induction N with
  | zero => simp
  | succ n ih =>
    rw [List.range_succ, List.map_append]
    refine ih.append ?_ ?_
    · exact List.chain'_singleton _
    · intro x hx y hy
      simp only [List.map_cons, List.map_nil, List.head?_cons,
        Option.mem_def, Option.some.injEq] at hy
      subst hy
      cases n with
      | zero => simp at hx
      | succ m =>
        rw [List.range_succ, List.map_append, List.map_cons, List.map_nil,
      List.getLast?_concat] at hx
        simp only [Option.mem_def, Option.some.injEq] at hx
        subst hx
        exact hg m

theorem getLast?_cons_cons_append (a b c d : Prog) (X : List Prog) :
    (a :: b :: (X ++ [c, d])).getLast? = some d := by
  have h : a :: b :: (X ++ [c, d]) = (a :: b :: (X ++ [c])) ++ [d] := by
    simp
  rw [h, List.getLast?_concat]

/-- The app.py basic-branch trace on a successfully opened file, spelled
out. -/
theorem App_ok_trace (cfg : Config) (stem : String) (pages : List String)
    (now : String) (size : Nat) (pt : String) :
    (App.process_pdf_file cfg stem (.ok pages) now size pt).2 =
      (0.1, "初始化基础处理器...") ::
      (0.2, "开始处理 " ++ toString pages.length ++ " 页内容...") ::
      (App.pageTrace pages.length ++
        [(0.9, "生成输出文件..."), (1.0, "处理完成！")]) := rfl

/-- The Vercel basic-branch trace on a successfully opened file. -/
theorem Vercel_ok_trace (language mode stem : String) (pages : List String)
    (now : String) :
    (Vercel.process_pdf_basic language mode stem (.ok pages) now).2 =
      (0.1, "初始化处理器...") :: (0.3, "读取 PDF 文件...") ::
      (0.4, "处理 " ++ toString pages.length ++ " 页内容...") ::
      (Vercel.pageTrace pages.length ++
        [(0.9, "生成输出文件..."), (1.0, "处理完成！")]) := rfl

theorem App_pageTrace_chain (N : Nat) :
    List.Chain' (fun x y : Prog => x.1 ≤ y.1) (App.pageTrace N) := by
  refine chain'_map_range _ (fun i => ?_) N
  show App.pageProgress N i ≤ App.pageProgress N (i + 1)
  unfold App.pageProgress
  push_cast
  exact progress_affine_mono 0.2 0.6 (by norm_num) N i

theorem Vercel_pageTrace_chain (N : Nat) :
    List.Chain' (fun x y : Prog => x.1 ≤ y.1) (Vercel.pageTrace N) := by
  refine chain'_map_range _ (fun i => ?_) N
  show Vercel.pageProgress N i ≤ Vercel.pageProgress N (i + 1)
  unfold Vercel.pageProgress
  push_cast
  exact progress_affine_mono 0.4 0.4 (by norm_num) N i

theorem App_pageTrace_junction (N : Nat) :
    ∀ x ∈ (App.pageTrace N).getLast?, (x : Prog).1 ≤ (0.9 : ℚ) := by
  intro x hx
  cases N with
  | zero => simp [App.pageTrace] at hx
  | succ m =>
    unfold App.pageTrace at hx
    rw [List.range_succ, List.map_append, List.map_cons, List.map_nil,
      List.getLast?_concat] at hx
    simp only [Option.mem_def, Option.some.injEq] at hx
    subst hx
    show App.pageProgress (m + 1) m ≤ (0.9 : ℚ)
    have h := (progress_affine_bounds 0.2 0.6 (by norm_num) (m + 1) m
      (by omega)).2
    unfold App.pageProgress
    push_cast at h ⊢
    linarith

theorem Vercel_pageTrace_junction (N : Nat) :
    ∀ x ∈ (Vercel.pageTrace N).getLast?, (x : Prog).1 ≤ (0.9 : ℚ) := by
  intro x hx
  cases N with
  | zero => simp [Vercel.pageTrace] at hx
  | succ m =>
    unfold Vercel.pageTrace at hx
    rw [List.range_succ, List.map_append, List.map_cons, List.map_nil,
      List.getLast?_concat] at hx
    simp only [Option.mem_def, Option.some.injEq] at hx
    subst hx
    show Vercel.pageProgress (m + 1) m ≤ (0.9 : ℚ)
    have h := (progress_affine_bounds 0.4 0.4 (by norm_num) (m + 1) m
      (by omega)).2
    unfold Vercel.pageProgress
    push_cast at h ⊢
    linarith

theorem App_pageTrace_head (N : Nat) :
    ∀ x ∈ (App.pageTrace N).head?, (0.2 : ℚ) ≤ (x : Prog).1 := by
  intro x hx
  cases N with
  | zero => simp [App.pageTrace] at hx
  | succ m =>
    unfold App.pageTrace at hx
    rw [List.range_succ_eq_map] at hx
    simp only [List.map_cons, List.head?_cons, Option.mem_def,
      Option.some.injEq] at hx
    subst hx
    show (0.2 : ℚ) ≤ App.pageProgress (m + 1) 0
    have h := (progress_affine_bounds 0.2 0.6 (by norm_num) (m + 1) 0
      (by omega)).1
    unfold App.pageProgress
    push_cast at h ⊢
    linarith

theorem Vercel_pageTrace_head (N : Nat) :
    ∀ x ∈ (Vercel.pageTrace N).head?, (0.4 : ℚ) ≤ (x : Prog).1 := by
  intro x hx
  cases N with
  | zero => simp [Vercel.pageTrace] at hx
  | succ m =>
    unfold Vercel.pageTrace at hx
    rw [List.range_succ_eq_map] at hx
    simp only [List.map_cons, List.head?_cons, Option.mem_def,
      Option.some.injEq] at hx
    subst hx
    show (0.4 : ℚ) ≤ Vercel.pageProgress (m + 1) 0
    have h := (progress_affine_bounds 0.4 0.4 (by norm_num) (m + 1) 0
      (by omega)).1
    unfold Vercel.pageProgress
    push_cast at h ⊢
    linarith

theorem App_pageTrace_bounds (N : Nat) :
    ∀ e ∈ App.pageTrace N, (0 : ℚ) ≤ e.1 ∧ e.1 ≤ 1 := by
  intro e he
  unfold App.pageTrace at he
  rcases List.mem_map.mp he with ⟨p, hp, rfl⟩
  have hpN : p < N := List.mem_range.mp hp
  have h := progress_affine_bounds 0.2 0.6 (by norm_num) N p hpN
  show (0 : ℚ) ≤ App.pageProgress N p ∧ App.pageProgress N p ≤ 1
  unfold App.pageProgress
  push_cast at h ⊢
  constructor <;> linarith [h.1, h.2]

theorem Vercel_pageTrace_bounds (N : Nat) :
    ∀ e ∈ Vercel.pageTrace N, (0 : ℚ) ≤ e.1 ∧ e.1 ≤ 1 := by
  intro e he
  unfold Vercel.pageTrace at he
  rcases List.mem_map.mp he with ⟨p, hp, rfl⟩
  have hpN : p < N := List.mem_range.mp hp
  have h := progress_affine_bounds 0.4 0.4 (by norm_num) N p hpN
  show (0 : ℚ) ≤ Vercel.pageProgress N p ∧ Vercel.pageProgress N p ≤ 1
  unfold Vercel.pageProgress
  push_cast at h ⊢
  constructor <;> linarith [h.1, h.2]

theorem App_ok_trace_mono (N : Nat) (s1 s2 s3 s4 : String) :
    List.Chain' (fun x y : Prog => x.1 ≤ y.1)
      ((0.1, s1) :: (0.2, s2) ::
        (App.pageTrace N ++ [(0.9, s3), (1.0, s4)])) := by
  rw [List.chain'_cons]
  refine ⟨by norm_num, ?_⟩
  rw [List.chain'_cons']
  constructor
  · intro h hh
    rcases hN : App.pageTrace N with _ | ⟨p0, rest⟩
    · rw [hN] at hh
      simp only [List.nil_append, List.head?_cons, Option.mem_def,
        Option.some.injEq] at hh
      subst hh
      norm_num
    · rw [hN] at hh
      simp only [List.cons_append, List.head?_cons, Option.mem_def,
        Option.some.injEq] at hh
      subst hh
      have := App_pageTrace_head N p0 (by rw [hN]; rfl)
      exact this
  · refine (App_pageTrace_chain N).append ?_ ?_
    · exact List.chain'_cons.mpr ⟨by norm_num, List.chain'_singleton _⟩
    · intro x hx y hy
      simp only [List.head?_cons, Option.mem_def, Option.some.injEq] at hy
      subst hy
      exact App_pageTrace_junction N x hx

theorem Vercel_ok_trace_mono (N : Nat) (s1 s2 s3 s4 s5 : String) :
    List.Chain' (fun x y : Prog => x.1 ≤ y.1)
      ((0.1, s1) :: (0.3, s2) :: (0.4, s3) ::
        (Vercel.pageTrace N ++ [(0.9, s4), (1.0, s5)])) := by
  rw [List.chain'_cons]
  refine ⟨by norm_num, ?_⟩
  rw [List.chain'_cons]
  refine ⟨by norm_num, ?_⟩
  rw [List.chain'_cons']
  constructor
  · intro h hh
    rcases hN : Vercel.pageTrace N with _ | ⟨p0, rest⟩
    · rw [hN] at hh
      simp only [List.nil_append, List.head?_cons, Option.mem_def,
        Option.some.injEq] at hh
      subst hh
      norm_num
    · rw [hN] at hh
      simp only [List.cons_append, List.head?_cons, Option.mem_def,
        Option.some.injEq] at hh
      subst hh
      exact Vercel_pageTrace_head N p0 (by rw [hN]; rfl)
  · refine (Vercel_pageTrace_chain N).append ?_ ?_
    · exact List.chain'_cons.mpr ⟨by norm_num, List.chain'_singleton _⟩
    · intro x hx y hy
      simp only [List.head?_cons, Option.mem_def, Option.some.injEq] at hy
      subst hy
      exact Vercel_pageTrace_junction N x hx

theorem App_ok_trace_bounded (N : Nat) (s1 s2 s3 s4 : String) :
    boundedProg ((0.1, s1) :: (0.2, s2) ::
      (App.pageTrace N ++ [(0.9, s3), (1.0, s4)])) := by
  intro e he
  simp only [List.mem_cons, List.mem_append] at he
  rcases he with rfl | rfl | he | he
  · norm_num
  · norm_num
  · exact App_pageTrace_bounds N e he
  · simp only [List.mem_cons, List.not_mem_nil, or_false] at he
    rcases he with rfl | rfl <;> norm_num

theorem Vercel_ok_trace_bounded (N : Nat) (s1 s2 s3 s4 s5 : String) :
    boundedProg ((0.1, s1) :: (0.3, s2) :: (0.4, s3) ::
      (Vercel.pageTrace N ++ [(0.9, s4), (1.0, s5)])) := by
  intro e he
  simp only [List.mem_cons, List.mem_append] at he
  rcases he with rfl | rfl | rfl | he | he
  · norm_num
  · norm_num
  · norm_num
  · exact Vercel_pageTrace_bounds N e he
  · simp only [List.mem_cons, List.not_mem_nil, or_false] at he
    rcases he with rfl | rfl <;> norm_num

/-- C6 (corrected): on every single branch the emitted progress sequence is
monotonically non-decreasing, stays in `[0, 1]`, ends at `1.0` on success,
and on failure the final emission is `1.0` with a failure message; but on
the remote-API fallback path the combined sequence is *not* monotone — the
API branch emits `0.2` and the basic fallback then restarts at `0.1`. -/
theorem C6_progress_reporting :
    (∀ (cfg : Config) (stem : String) (pages : List String) (now : String)
        (size : Nat) (pt : String),
      monoProg (App.process_pdf_file cfg stem (.ok pages) now size pt).2 ∧
      boundedProg (App.process_pdf_file cfg stem (.ok pages) now size pt).2 ∧
      (App.process_pdf_file cfg stem (.ok pages) now size pt).2.getLast? =
        some (1.0, "处理完成！")) ∧
    (∀ (language mode stem : String) (pages : List String) (now : String),
      monoProg
        (Vercel.process_pdf_basic language mode stem (.ok pages) now).2 ∧
      boundedProg
        (Vercel.process_pdf_basic language mode stem (.ok pages) now).2 ∧
      (Vercel.process_pdf_basic language mode stem (.ok pages)
        now).2.getLast? = some (1.0, "处理完成！")) ∧
    (∀ (cfg : Config) (stem e now : String) (size : Nat) (pt : String),
      (App.process_pdf_file cfg stem (.error e) now size pt).2 =
        [(0.1, "初始化基础处理器..."),
         (1, "处理失败: " ++ ("基础处理失败: " ++ e))] ∧
      monoProg (App.process_pdf_file cfg stem (.error e) now size pt).2 ∧
      boundedProg (App.process_pdf_file cfg stem (.error e) now size pt).2) ∧
    (∀ (language mode stem e now : String),
      (Vercel.process_pdf_basic language mode stem (.error e) now).2 =
        [(0.1, "初始化处理器..."), (0.3, "读取 PDF 文件..."),
         (1, "处理失败: " ++ e)] ∧
      monoProg (Vercel.process_pdf_basic language mode stem (.error e)
        now).2 ∧
      boundedProg (Vercel.process_pdf_basic language mode stem (.error e)
        now).2) ∧
    (∀ (stem : String) (content : List String) (ts : String)
        (mdLib : Option String),
      monoProg (MinerUProcessor.process_pdf_demo stem content ts mdLib).2 ∧
      boundedProg
        (MinerUProcessor.process_pdf_demo stem content ts mdLib).2 ∧
      (MinerUProcessor.process_pdf_demo stem content ts mdLib).2.getLast? =
        some (1.0, "演示结果生成完成！")) := by
  refine ⟨?_, ?_, ?_, ?_, ?_⟩
  · intro cfg stem pages now size pt
    rw [App_ok_trace]
    exact ⟨App_ok_trace_mono pages.length _ _ _ _,
      App_ok_trace_bounded pages.length _ _ _ _,
      getLast?_cons_cons_append _ _ _ _ _⟩
  · intro language mode stem pages now
    rw [Vercel_ok_trace]
    refine ⟨Vercel_ok_trace_mono pages.length _ _ _ _ _,
      Vercel_ok_trace_bounded pages.length _ _ _ _ _, ?_⟩
    show ((0.1, "初始化处理器...") :: ((0.3, "读取 PDF 文件...") ::
      (0.4, "处理 " ++ toString pages.length ++ " 页内容...") ::
      (Vercel.pageTrace pages.length ++
        [(0.9, "生成输出文件..."), (1.0, "处理完成！")]))).getLast? = _
    rw [List.getLast?_cons]
    rw [getLast?_cons_cons_append]
    rfl
  · intro cfg stem e now size pt
    have htr : (App.process_pdf_file cfg stem (.error e) now size pt).2 =
        [(0.1, "初始化基础处理器..."),
         (1, "处理失败: " ++ ("基础处理失败: " ++ e))] := rfl
    rw [htr]
    refine ⟨rfl, ?_, ?_⟩
    · exact List.chain'_cons.mpr ⟨by norm_num, List.chain'_singleton _⟩
    · intro x hx
      simp only [List.mem_cons, List.not_mem_nil, or_false] at hx
      rcases hx with rfl | rfl <;> norm_num
  · intro language mode stem e now
    have htr : (Vercel.process_pdf_basic language mode stem (.error e)
        now).2 =
        [(0.1, "初始化处理器..."), (0.3, "读取 PDF 文件..."),
         (1, "处理失败: " ++ e)] := rfl
    rw [htr]
    refine ⟨rfl, ?_, ?_⟩
    · exact List.chain'_cons.mpr ⟨by norm_num,
        List.chain'_cons.mpr ⟨by norm_num, List.chain'_singleton _⟩⟩
    · intro x hx
      simp only [List.mem_cons, List.not_mem_nil, or_false] at hx
      rcases hx with rfl | rfl | rfl <;> norm_num
  · intro stem content ts mdLib
    have htr : (MinerUProcessor.process_pdf_demo stem content ts mdLib).2 =
        [(0.1, "初始化处理器..."), (0.3, "生成演示内容..."),
         (0.6, "生成输出文件..."), (1.0, "演示结果生成完成！")] := rfl
    rw [htr]
    refine ⟨?_, ?_, rfl⟩
    · exact List.chain'_cons.mpr ⟨by norm_num,
        List.chain'_cons.mpr ⟨by norm_num,
          List.chain'_cons.mpr ⟨by norm_num, List.chain'_singleton _⟩⟩⟩
    · intro x hx
      simp only [List.mem_cons, List.not_mem_nil, or_false] at hx
      rcases hx with rfl | rfl | rfl | rfl <;> norm_num

/-- C6 counterexample: with the remote branch selected and the endpoint
answering 500 on a one-page PDF, the combined emission sequence is
`0.2, 0.1, 0.3, 0.4, 0.8, 0.9, 1.0` — it decreases from `0.2` to `0.1` when
the fallback restarts, so the progress values on this path are not
monotonically non-decreasing. -/
theorem C6_counterexample :
    ¬ monoProg ((Vercel.processFile "api" (some "u") (some (500, .err "x"))
      "ch" "doc" (.ok ["hello"]) "now").2) := by
  intro h
  have h2 : (0.2 : ℚ) ≤ 0.1 := (List.chain'_cons.mp h).1
  norm_num at h2

/-! ## Markdown → text: identity of each pass on trigger-free text

These lemmas say each substitution pass leaves text without its trigger
character unchanged, and are the backbone of both the C7 shape computations
and the C2 idempotence analysis. -/

theorem headingSub_id : ∀ l : List Char, '#' ∉ l → headingSub l = l := by
  intro l
  induction l with
  | nil => intro _; simp [headingSub]
  | cons c rest ih =>
    intro h
    have hc : ¬c = '#' := fun hc => h (hc ▸ List.mem_cons_self c rest)
    unfold headingSub
    rw [if_neg hc, ih (fun hm => h (List.mem_cons_of_mem c hm))]

theorem pairSub_id_not_mem (m : Char) :
    ∀ l : List Char, m ∉ l → pairSub m l = l := by
  intro l
  induction l with
  | nil => intro _; simp [pairSub]
  | cons c rest ih =>
    intro h
    have hc : ¬c = m := fun hc => h (hc ▸ List.mem_cons_self c rest)
    unfold pairSub
    rw [if_neg hc, ih (fun hm => h (List.mem_cons_of_mem c hm))]

theorem pipeSub_id_not_mem :
    ∀ l : List Char, '|' ∉ l → pipeSub l = l := by
  intro l
  induction l with
  | nil => intro _; simp [pipeSub]
  | cons c rest ih =>
    intro h
    have hc : ¬c = '|' := fun hc => h (hc ▸ List.mem_cons_self c rest)
    unfold pipeSub
    rw [if_neg hc, ih (fun hm => h (List.mem_cons_of_mem c hm))]

theorem dashSub_id_not_mem :
    ∀ l : List Char, '-' ∉ l → dashSub l = l := by
  intro l
  induction l with
  | nil => intro _; simp [dashSub]
  | cons c rest ih =>
    intro h
    have hc : ¬c = '-' := fun hc => h (hc ▸ List.mem_cons_self c rest)
    unfold dashSub
    rw [if_neg hc, ih (fun hm => h (List.mem_cons_of_mem c hm))]

theorem newlineSub_id_not_mem :
    ∀ l : List Char, '\n' ∉ l → newlineSub l = l := by
  intro l
  induction l with
  | nil => intro _; simp [newlineSub]
  | cons c rest ih =>
    intro h
    have hc : ¬c = '\n' := fun hc => h (hc ▸ List.mem_cons_self c rest)
    unfold newlineSub
    rw [if_neg hc, ih (fun hm => h (List.mem_cons_of_mem c hm))]

/-- No two adjacent occurrences of `m`. -/
def noAdj (m : Char) : List Char → Bool
  | [] => true
  | [_] => true
  | a :: b :: rest => !(a = m ∧ b = m : Bool) && noAdj m (b :: rest)

theorem boldSub_id_noAdj :
    ∀ l : List Char, noAdj '*' l = true → boldSub l = l := by
  intro l
  induction l with
  | nil => intro _; simp [boldSub]
  | cons c rest ih =>
    intro h
    cases rest with
    | nil => simp [boldSub]
    | cons d rest2 =>
      unfold noAdj at h
      rw [Bool.and_eq_true] at h
      have h1 : ¬(c = '*' ∧ d = '*') := by
        intro hcd
        rw [show (decide (c = '*' ∧ d = '*')) = true from decide_eq_true hcd]
          at h
        exact Bool.false_ne_true h.1
      unfold boldSub
      rw [if_neg h1, ih h.2]

theorem noAdj_of_not_mem (m : Char) :
    ∀ l : List Char, m ∉ l → noAdj m l = true := by
  intro l
  induction l with
  | nil => intro _; rfl
  | cons c rest ih =>
    intro h
    cases rest with
    | nil => rfl
    | cons d rest2 =>
      unfold noAdj
      rw [Bool.and_eq_true]
      refine ⟨?_, ih (fun hm => h (List.mem_cons_of_mem c hm))⟩
      have hc : ¬c = m := fun hc => h (hc ▸ List.mem_cons_self c (d :: rest2))
      simp [hc]

theorem boldSub_id_not_mem (l : List Char) (h : '*' ∉ l) : boldSub l = l :=
  boldSub_id_noAdj l (noAdj_of_not_mem '*' l h)

theorem linkSub_id : ∀ l : List Char, '[' ∉ l → linkSub l = l := by
  intro l
  induction l with
  | nil => intro _; simp [linkSub]
  | cons c rest ih =>
    intro h
    have hc : ¬c = '[' := fun hc => h (hc ▸ List.mem_cons_self c rest)
    unfold linkSub
    rw [if_neg hc, ih (fun hm => h (List.mem_cons_of_mem c hm))]

/-! ### The final strip -/

/-- The head (if any) is not whitespace. -/
def noLeadSpace : List Char → Bool
  | [] => true
  | c :: _ => !isPySpace c

theorem dropWhile_id_noLead {l : List Char} (h : noLeadSpace l = true) :
    l.dropWhile isPySpace = l := by
  cases l with
  | nil => rfl
  | cons c rest =>
    unfold noLeadSpace at h
    rw [Bool.not_eq_true'] at h
    simp [List.dropWhile, h]

theorem pyStrip_id {l : List Char} (h1 : noLeadSpace l = true)
    (h2 : noLeadSpace l.reverse = true) : pyStrip l = l := by
  unfold pyStrip
  rw [dropWhile_id_noLead h1, dropWhile_id_noLead h2, List.reverse_reverse]

theorem noLeadSpace_dropWhile (l : List Char) :
    noLeadSpace (l.dropWhile isPySpace) = true := by
  induction l with
  | nil => rfl
  | cons c rest ih =>
    by_cases hc : isPySpace c
    · simpa [List.dropWhile, hc] using ih
    · simp [List.dropWhile, hc, noLeadSpace]

theorem dropWhile_eq_drop (p : Char → Bool) :
    ∀ l : List Char, ∃ j, l.dropWhile p = l.drop j := by
  intro l
  induction l with
  | nil => exact ⟨0, rfl⟩
  | cons c rest ih =>
    by_cases hc : p c
    · rcases ih with ⟨j, hj⟩
      exact ⟨j + 1, by simp [List.dropWhile, hc, hj]⟩
    · exact ⟨0, by simp [List.dropWhile, hc]⟩

theorem dropWhile_append_last (p : Char → Bool) :
    ∀ (u : List Char) (c : Char),
      (u ++ [c]).dropWhile p = [] ∨
        ∃ w, (u ++ [c]).dropWhile p = w ++ [c] := by
  intro u
  induction u with
  | nil =>
    intro c
    by_cases hc : p c
    · exact Or.inl (by simp [List.dropWhile, hc])
    · exact Or.inr ⟨[], by simp [List.dropWhile, hc]⟩
  | cons a u' ih =>
    intro c
    by_cases ha : p a
    · simpa [List.dropWhile, ha] using ih c
    · exact Or.inr ⟨a :: u', by simp [List.dropWhile, ha]⟩

/-- The strip output rejects leading whitespace on both ends. -/
theorem pyStrip_noLead (l : List Char) :
    noLeadSpace (pyStrip l) = true ∧
      noLeadSpace (pyStrip l).reverse = true := by
  constructor
  · show noLeadSpace
      (((l.dropWhile isPySpace).reverse.dropWhile isPySpace).reverse) = true
    rcases hy : l.dropWhile isPySpace with _ | ⟨c, y'⟩
    · simp [noLeadSpace]
    · have hc : noLeadSpace (c :: y') = true := hy ▸ noLeadSpace_dropWhile l
      have hrev : (c :: y').reverse = y'.reverse ++ [c] := by simp
      rw [hrev]
      rcases dropWhile_append_last isPySpace y'.reverse c with h | ⟨w, h⟩
      · rw [h]; rfl
      · rw [h]
        simp only [List.reverse_append, List.reverse_cons, List.reverse_nil,
          List.nil_append, List.singleton_append]
        unfold noLeadSpace at hc ⊢
        exact hc
  · show noLeadSpace
      (((l.dropWhile isPySpace).reverse.dropWhile isPySpace).reverse.reverse)
        = true
    rw [List.reverse_reverse]
    exact noLeadSpace_dropWhile _

/-- `pyStrip` is a contiguous slice: a `drop` followed by a `take`. -/
theorem pyStrip_eq_drop_take (l : List Char) :
    ∃ j k, pyStrip l = (l.drop j).take k := by
  rcases dropWhile_eq_drop isPySpace l with ⟨j, hj⟩
  rcases dropWhile_eq_drop isPySpace (l.dropWhile isPySpace).reverse
    with ⟨j2, hj2⟩
  refine ⟨j, (l.dropWhile isPySpace).length - j2, ?_⟩
  show ((l.dropWhile isPySpace).reverse.dropWhile isPySpace).reverse = _
  rw [hj2, List.reverse_drop, List.reverse_reverse, List.length_reverse, hj]

/-! ### Locating the closing delimiter of a non-greedy group -/

theorem findOnLine_append (m : Char) :
    ∀ (u v : List Char), (∀ c ∈ u, ¬c = m ∧ ¬c = '\n') →
      findOnLine m (u ++ m :: v) = some u.length := by
  intro u
  induction u with
  | nil => intro v _; simp [findOnLine]
  | cons a u' ih =>
    intro v h
    have ha := h a (by simp)
    show findOnLine m (a :: (u' ++ m :: v)) = some (u'.length + 1)
    unfold findOnLine
    rw [if_neg ha.1, if_neg ha.2, ih v (fun c hc => h c (by simp [hc]))]
    rfl

theorem findOnLine_some (m : Char) :
    ∀ (l : List Char) (i : Nat), findOnLine m l = some i →
      ∃ u v, l = u ++ m :: v ∧ u.length = i ∧
        ∀ c ∈ u, ¬c = m ∧ ¬c = '\n' := by
  intro l
  induction l with
  | nil => intro i h; simp [findOnLine] at h
  | cons c rest ih =>
    intro i h
    unfold findOnLine at h
    by_cases hc : c = m
    · rw [if_pos hc] at h
      injection h with h
      exact ⟨[], rest, by rw [hc]; rfl, h, by simp⟩
    · rw [if_neg hc] at h
      by_cases hn : c = '\n'
      · rw [if_pos hn] at h
        exact absurd h (by simp)
      · rw [if_neg hn] at h
        rcases ho : findOnLine m rest with _ | i'
        · rw [ho] at h
          exact absurd h (by simp)
        · rw [ho] at h
          simp at h
          rcases ih i' ho with ⟨u, v, hl, hlen, hu⟩
          refine ⟨c :: u, v, by simp [hl], by simp [hlen, h], ?_⟩
          intro d hd
          rcases List.mem_cons.mp hd with rfl | hd
          · exact ⟨hc, hn⟩
          · exact hu d hd

theorem findCloseParen_append :
    ∀ (u v : List Char), (∀ c ∈ u, ¬c = ')' ∧ ¬c = '\n') →
      findCloseParen (u ++ ')' :: v) = some u.length := by
  intro u
  induction u with
  | nil => intro v _; simp [findCloseParen]
  | cons a u' ih =>
    intro v h
    have ha := h a (by simp)
    show findCloseParen (a :: (u' ++ ')' :: v)) = some (u'.length + 1)
    unfold findCloseParen
    rw [if_neg ha.1, if_neg ha.2, ih v (fun c hc => h c (by simp [hc]))]
    rfl

theorem findDouble_append (m : Char) :
    ∀ (u v : List Char), (∀ c ∈ u, ¬c = m ∧ ¬c = '\n') →
      findDouble m (u ++ m :: m :: v) = some u.length := by
  intro u
  induction u with
  | nil => intro v _; simp [findDouble]
  | cons a u' ih =>
    intro v h
    have ha := h a (by simp)
    cases u' with
    | nil =>
      have hfd : findDouble m ([] ++ m :: m :: v) = some 0 := by
        simp [findDouble]
      simp only [List.singleton_append, List.cons_append, List.nil_append]
        at hfd ⊢
      unfold findDouble
      have hne : ¬(a = m ∧ m = m) := fun hx => ha.1 hx.1
      rw [if_neg hne, if_neg ha.2, hfd]
      rfl
    | cons b u'' =>
      have hb := h b (by simp)
      have hr := ih v (fun c hc => h c (by simp [hc]))
      simp only [List.cons_append] at hr ⊢
      unfold findDouble
      have hne : ¬(a = m ∧ b = m) := fun hx => ha.1 hx.1
      rw [if_neg hne, if_neg ha.2, hr]
      rfl

theorem linkScan_step (a : Char) (ha1 : ¬a = '\n') (ha2 : ¬a = ']')
    (acc : List Char) (d : Char) (r : List Char) :
    linkScan acc (a :: d :: r) = linkScan (a :: acc) (d :: r) := by
  cases r with
  | nil =>
    unfold linkScan
    rw [if_neg ha1, if_neg (fun hx => ha2 hx.1)]
    rfl
  | cons e r' =>
    unfold linkScan
    rw [if_neg ha1, if_neg (fun hx => ha2 hx.1)]
    rfl

theorem linkScan_clean :
    ∀ (t : List Char) (acc w : List Char) (k : Nat),
      (∀ c ∈ t, ¬c = ']' ∧ ¬c = '\n') → findCloseParen w = some k →
      linkScan acc (t ++ ']' :: '(' :: w) =
        some (acc.reverse ++ t, w.drop (k + 1)) := by
  intro t
  induction t with
  | nil =>
    intro acc w k _ hf
    simp only [List.nil_append]
    unfold linkScan
    rw [if_neg (by decide : ¬(']' : Char) = '\n'),
      if_pos (by exact ⟨rfl, rfl⟩), hf]
    simp
  | cons a t' ih =>
    intro acc w k h hf
    have ha := h a (by simp)
    have hstep := linkScan_step a ha.2 ha.1 acc
    rcases t' with _ | ⟨b, t''⟩
    · simp only [List.nil_append, List.cons_append]
      rw [linkScan_step a ha.2 ha.1 acc ']' ('(' :: w)]
      have := ih (a :: acc) w k (by simp) hf
      simp only [List.nil_append] at this
      rw [this]
      simp
    · simp only [List.cons_append]
      rw [linkScan_step a ha.2 ha.1 acc b (t'' ++ ']' :: '(' :: w)]
      have := ih (a :: acc) w k (fun c hc => h c (by simp [hc])) hf
      simp only [List.cons_append] at this
      rw [this]
      simp

/-! ### One-shape computations for each pass -/

theorem charRun_replicate_append (m : Char) :
    ∀ (k : Nat) (v : List Char), (∀ c ∈ v.take 1, ¬c = m) →
      charRun m (List.replicate k m ++ v) = k := by
  intro k
  induction k with
  | zero =>
    intro v hv
    cases v with
    | nil => rfl
    | cons c v' =>
      have := hv c (by simp)
      simp [charRun, this]
  | succ n ih =>
    intro v hv
    have hr := ih v hv
    show charRun m (m :: (List.replicate n m ++ v)) = n + 1
    unfold charRun
    rw [if_pos rfl]
    exact congrArg (fun z => z + 1) hr

theorem pairSub_shape (m : Char) (u : List Char)
    (hu : ∀ c ∈ u, ¬c = m ∧ ¬c = '\n') :
    pairSub m (m :: (u ++ [m])) = u := by
  unfold pairSub
  rw [if_pos rfl, findOnLine_append m u [] hu]
  have hdrop : (u ++ [m]).drop (u.length + 1) = [] := by
    rw [show u.length + 1 = u.length + 1 from rfl, ← List.drop_drop,
      List.drop_left]
    rfl
  have htake : (u ++ [m]).take u.length = u := List.take_left u [m]
  simp only [htake, hdrop]
  rw [show pairSub m [] = [] from by unfold pairSub; rfl]
  simp

theorem pipeSub_shape (u : List Char)
    (hu : ∀ c ∈ u, ¬c = '|' ∧ ¬c = '\n') :
    pipeSub ('|' :: (u ++ ['|'])) = [] := by
  unfold pipeSub
  rw [if_pos rfl, findOnLine_append '|' u [] hu]
  have hdrop : (u ++ ['|']).drop (u.length + 1) = [] := by
    rw [← List.drop_drop, List.drop_left]
    rfl
  simp only [hdrop]
  unfold pipeSub
  rfl

theorem boldSub_shape (u : List Char)
    (hu : ∀ c ∈ u, ¬c = '*' ∧ ¬c = '\n') :
    boldSub ('*' :: '*' :: (u ++ ['*', '*'])) = u := by
  unfold boldSub
  rw [if_pos ⟨rfl, rfl⟩, findDouble_append '*' u [] hu]
  have hdrop : (u ++ ['*', '*']).drop (u.length + 2) = [] := by
    rw [← List.drop_drop, List.drop_left]
    rfl
  have htake : (u ++ ['*', '*']).take u.length = u := List.take_left u _
  simp only [htake, hdrop]
  rw [show boldSub [] = [] from by unfold boldSub; rfl]
  simp

theorem linkSub_shape (t u : List Char)
    (ht : ∀ c ∈ t, ¬c = ']' ∧ ¬c = '\n')
    (hu : ∀ c ∈ u, ¬c = ')' ∧ ¬c = '\n') :
    linkSub ('[' :: (t ++ ']' :: '(' :: (u ++ [')']))) = t := by
  unfold linkSub
  rw [if_pos rfl]
  have hscan := linkScan_clean t [] (u ++ [')']) u.length ht
    (findCloseParen_append u [] hu)
  have hdrop : (u ++ [')']).drop (u.length + 1) = [] := by
    rw [← List.drop_drop, List.drop_left]
    rfl
  rw [hdrop] at hscan
  simp only [List.reverse_nil, List.nil_append] at hscan
  rw [hscan]
  show t ++ linkSub [] = t
  rw [show linkSub [] = [] from by unfold linkSub; rfl]
  simp

theorem dashSub_append_free :
    ∀ (u v : List Char), (∀ c ∈ u, ¬c = '-') →
      dashSub (u ++ v) = u ++ dashSub v := by
  intro u
  induction u with
  | nil => intro v _; simp
  | cons a u' ih =>
    intro v h
    have ha := h a (by simp)
    show dashSub (a :: (u' ++ v)) = a :: (u' ++ dashSub v)
    conv_lhs => unfold dashSub
    rw [if_neg ha, ih v (fun c hc => h c (by simp [hc]))]

theorem newlineSub_append_free :
    ∀ (u v : List Char), (∀ c ∈ u, ¬c = '\n') →
      newlineSub (u ++ v) = u ++ newlineSub v := by
  intro u
  induction u with
  | nil => intro v _; simp
  | cons a u' ih =>
    intro v h
    have ha := h a (by simp)
    show newlineSub (a :: (u' ++ v)) = a :: (u' ++ newlineSub v)
    conv_lhs => unfold newlineSub
    rw [if_neg ha, ih v (fun c hc => h c (by simp [hc]))]

/-- A maximal newline run of length at least three collapses to exactly two
newlines. -/
theorem newlineSub_run (n : Nat) (hn : 3 ≤ n) (v : List Char)
    (hv : ∀ c ∈ v.take 1, ¬c = '\n') :
    newlineSub (List.replicate n '\n' ++ v) =
      '\n' :: '\n' :: newlineSub v := by
  obtain ⟨m, rfl⟩ : ∃ m, n = m + 1 := ⟨n - 1, by omega⟩
  show newlineSub ('\n' :: (List.replicate m '\n' ++ v)) =
    '\n' :: '\n' :: newlineSub v
  conv_lhs => unfold newlineSub
  rw [if_pos rfl]
  have hrun : charRun '\n' (List.replicate m '\n' ++ v) = m :=
    charRun_replicate_append '\n' m v hv
  rw [hrun, if_pos (by omega)]
  congr 1
  congr 1
  congr 1
  rw [List.drop_left' (by simp)]

/-! ### Plain text: no Markdown markers, no whitespace -/

/-- A character none of the substitution passes can react to. -/
def plainChar (c : Char) : Bool :=
  !(c == '#' || c == '*' || c == '`' || c == '[' || c == ']' || c == '(' ||
    c == ')' || c == '|' || c == '-' || isPySpace c)

theorem plainChar_spec {c : Char} (h : plainChar c = true) :
    ¬c = '#' ∧ ¬c = '*' ∧ ¬c = '`' ∧ ¬c = '[' ∧ ¬c = ']' ∧ ¬c = '(' ∧
      ¬c = ')' ∧ ¬c = '|' ∧ ¬c = '-' ∧ ¬c = '\n' ∧ isPySpace c = false := by
  unfold plainChar at h
  rw [Bool.not_eq_true'] at h
  simp only [Bool.or_eq_false_iff, beq_eq_false_iff_ne, ne_eq] at h
  obtain ⟨⟨⟨⟨⟨⟨⟨⟨⟨h1, h2⟩, h3⟩, h4⟩, h5⟩, h6⟩, h7⟩, h8⟩, h9⟩, h10⟩ := h
  refine ⟨h1, h2, h3, h4, h5, h6, h7, h8, h9, ?_, h10⟩
  intro he
  rw [he] at h10
  exact absurd h10 (by decide)

theorem plain_not_mem {l : List Char} (h : ∀ c ∈ l, plainChar c = true)
    {x : Char} (hx : plainChar x = false) : x ∉ l := by
  intro hm
  rw [h x hm] at hx
  exact Bool.noConfusion hx

theorem plain_pair {l : List Char} (h : ∀ c ∈ l, plainChar c = true)
    {m : Char} (hm : plainChar m = false) :
    ∀ c ∈ l, ¬c = m ∧ ¬c = '\n' := by
  intro c hc
  have hcp := h c hc
  refine ⟨fun he => ?_, (plainChar_spec hcp).2.2.2.2.2.2.2.2.2.1⟩
  rw [he, hm] at hcp
  exact Bool.false_ne_true hcp

theorem plain_noLead {l : List Char} (h : ∀ c ∈ l, plainChar c = true) :
    noLeadSpace l = true := by
  cases l with
  | nil => rfl
  | cons c rest =>
    have hsp := (plainChar_spec (h c (by simp))).2.2.2.2.2.2.2.2.2.2
    show (!isPySpace c) = true
    rw [hsp]
    rfl

theorem plain_reverse {l : List Char} (h : ∀ c ∈ l, plainChar c = true) :
    ∀ c ∈ l.reverse, plainChar c = true := by
  intro c hc
  exact h c (List.mem_reverse.mp hc)

/-- Every pass fixes whisker-free plain text. -/
theorem tail_passes_plain (i : List Char)
    (hp : ∀ c ∈ i, plainChar c = true) :
    boldSub i = i ∧ pairSub '*' i = i ∧ pairSub '`' i = i ∧
      linkSub i = i ∧ pipeSub i = i ∧ dashSub i = i ∧ newlineSub i = i ∧
      pyStrip i = i := by
  refine ⟨boldSub_id_not_mem i (plain_not_mem hp (by decide)),
    pairSub_id_not_mem '*' i (plain_not_mem hp (by decide)),
    pairSub_id_not_mem '`' i (plain_not_mem hp (by decide)),
    linkSub_id i (plain_not_mem hp (by decide)),
    pipeSub_id_not_mem i (plain_not_mem hp (by decide)),
    dashSub_id_not_mem i (plain_not_mem hp (by decide)),
    newlineSub_id_not_mem i (plain_not_mem hp (by decide)),
    pyStrip_id (plain_noLead hp) (plain_noLead (plain_reverse hp))⟩

/-- Plain text passes the whole pipeline unchanged. -/
theorem mdText_plain (i : List Char)
    (hp : ∀ c ∈ i, plainChar c = true) : mdText i = i := by
  obtain ⟨h1, h2, h3, h4, h5, h6, h7, h8⟩ := tail_passes_plain i hp
  unfold mdText
  rw [headingSub_id i (plain_not_mem hp (by decide)), h1, h2, h3, h4, h5,
    h6, h7, h8]

theorem headingSub_shape (k : Nat) (hk : k ≤ 5) (i : List Char)
    (hns : noLeadSpace i = true) (hnh : '#' ∉ i) :
    headingSub ('#' :: (List.replicate k '#' ++ (' ' :: i))) = i := by
  conv_lhs => unfold headingSub
  rw [if_pos rfl]
  have hrun : charRun '#' (List.replicate k '#' ++ (' ' :: i)) = k := by
    refine charRun_replicate_append '#' k _ ?_
    intro c hc
    simp only [List.take_succ_cons, List.take_zero, List.mem_singleton]
      at hc
    subst hc
    decide
  rw [hrun, Nat.min_eq_left hk, List.drop_left' (by simp)]
  have hdw : (' ' :: i).dropWhile isPySpace = i := by
    rw [List.dropWhile_cons_of_pos (by decide)]
    exact dropWhile_id_noLead hns
  rw [hdw]
  exact headingSub_id i hnh

theorem noAdj_sandwich (m : Char) :
    ∀ (u : List Char), u ≠ [] → (∀ c ∈ u, ¬c = m) →
      noAdj m (m :: (u ++ [m])) = true := by
  have haux : ∀ (u : List Char), (∀ c ∈ u, ¬c = m) →
      noAdj m (u ++ [m]) = true := by
    intro u
    induction u with
    | nil => intro _; rfl
    | cons a u' ih =>
      intro h
      have ha := h a (by simp)
      cases u' with
      | nil =>
        show (!(decide (a = m ∧ m = m)) && noAdj m [m]) = true
        rw [Bool.and_eq_true]
        exact ⟨by simp [ha], rfl⟩
      | cons b u'' =>
        show (!(decide (a = m ∧ b = m)) && noAdj m (b :: (u'' ++ [m])))
          = true
        rw [Bool.and_eq_true]
        exact ⟨by simp [ha], ih (fun c hc => h c (by simp [hc]))⟩
  intro u hne h
  cases u with
  | nil => exact absurd rfl hne
  | cons a u' =>
    have ha := h a (by simp)
    show (!(decide (m = m ∧ a = m)) && noAdj m (a :: (u' ++ [m]))) = true
    rw [Bool.and_eq_true]
    exact ⟨by simp [ha], haux (a :: u') h⟩

theorem charRun_zero_not_mem (m : Char) {l : List Char} (h : m ∉ l) :
    charRun m l = 0 := by
  cases l with
  | nil => rfl
  | cons c rest =>
    have hc : ¬c = m := fun hc => h (by simp [hc.symm])
    simp [charRun, hc]

theorem dashSub_run3 (c : Char) (v : List Char) (hc : ¬c = '-') :
    dashSub ('-' :: '-' :: '-' :: (c :: v)) = dashSub (c :: v) := by
  conv_lhs => unfold dashSub
  have hrun : charRun '-' ('-' :: '-' :: (c :: v)) = 2 := by
    simp [charRun, hc]
  rw [if_pos rfl, hrun, if_pos (by norm_num)]
  rfl

theorem newlineSub_single (b : List Char) (hb : '\n' ∉ b) :
    newlineSub ('\n' :: b) = '\n' :: b := by
  conv_lhs => unfold newlineSub
  have hrun : charRun '\n' b = 0 := charRun_zero_not_mem '\n' hb
  rw [if_pos rfl, hrun, if_neg (by norm_num),
    newlineSub_id_not_mem b hb]

theorem newlineSub_two (b : List Char) (hb : '\n' ∉ b) :
    newlineSub ('\n' :: '\n' :: b) = '\n' :: '\n' :: b := by
  conv_lhs => unfold newlineSub
  have hrun : charRun '\n' ('\n' :: b) = 1 := by
    have h0 : charRun '\n' b = 0 := charRun_zero_not_mem '\n' hb
    simp [charRun, h0]
  rw [if_pos rfl, hrun, if_neg (by norm_num), newlineSub_single b hb]

theorem noLead_append {u : List Char} (hu : u ≠ []) (v : List Char) :
    noLeadSpace (u ++ v) = noLeadSpace u := by
  cases u with
  | nil => exact absurd rfl hu
  | cons c rest => rfl

/-! ### The pipeline on each documented shape -/

theorem mdText_heading_shape (k : Nat) (hk : k ≤ 5) (i : List Char)
    (hp : ∀ c ∈ i, plainChar c = true) :
    mdText ('#' :: (List.replicate k '#' ++ (' ' :: i))) = i := by
  obtain ⟨h1, h2, h3, h4, h5, h6, h7, h8⟩ := tail_passes_plain i hp
  unfold mdText
  rw [headingSub_shape k hk i (plain_noLead hp)
    (plain_not_mem hp (by decide)), h1, h2, h3, h4, h5, h6, h7, h8]

theorem mdText_bold_shape (i : List Char)
    (hp : ∀ c ∈ i, plainChar c = true) :
    mdText ('*' :: '*' :: (i ++ ['*', '*'])) = i := by
  obtain ⟨h1, h2, h3, h4, h5, h6, h7, h8⟩ := tail_passes_plain i hp
  have hmem : ∀ c ∈ ('*' :: '*' :: (i ++ ['*', '*'])), c = '*' ∨ c ∈ i := by
    intro c hc
    simp only [List.mem_cons, List.mem_append, List.mem_singleton] at hc
    tauto
  have hno : ∀ x : Char, ¬x = '*' → plainChar x = false →
      x ∉ ('*' :: '*' :: (i ++ ['*', '*'])) := by
    intro x hx hpx hm
    rcases hmem x hm with h | h
    · exact hx h
    · exact plain_not_mem hp hpx h
  unfold mdText
  rw [headingSub_id _ (hno '#' (by decide) (by decide)),
    boldSub_shape i (plain_pair hp (by decide)), h2, h3, h4, h5, h6, h7, h8]

theorem mdText_italic_shape (i : List Char) (hne : i ≠ [])
    (hp : ∀ c ∈ i, plainChar c = true) :
    mdText ('*' :: (i ++ ['*'])) = i := by
  obtain ⟨h1, h2, h3, h4, h5, h6, h7, h8⟩ := tail_passes_plain i hp
  have hmem : ∀ c ∈ ('*' :: (i ++ ['*'])), c = '*' ∨ c ∈ i := by
    intro c hc
    simp only [List.mem_cons, List.mem_append, List.mem_singleton] at hc
    tauto
  have hno : ∀ x : Char, ¬x = '*' → plainChar x = false →
      x ∉ ('*' :: (i ++ ['*'])) := by
    intro x hx hpx hm
    rcases hmem x hm with h | h
    · exact hx h
    · exact plain_not_mem hp hpx h
  unfold mdText
  rw [headingSub_id _ (hno '#' (by decide) (by decide)),
    boldSub_id_noAdj _
      (noAdj_sandwich '*' i hne
        (fun c hc => (plain_pair hp (by decide) c hc).1)),
    pairSub_shape '*' i (plain_pair hp (by decide)),
    h3, h4, h5, h6, h7, h8]

theorem mdText_code_shape (i : List Char)
    (hp : ∀ c ∈ i, plainChar c = true) :
    mdText ('`' :: (i ++ ['`'])) = i := by
  obtain ⟨h1, h2, h3, h4, h5, h6, h7, h8⟩ := tail_passes_plain i hp
  have hmem : ∀ c ∈ ('`' :: (i ++ ['`'])), c = '`' ∨ c ∈ i := by
    intro c hc
    simp only [List.mem_cons, List.mem_append, List.mem_singleton] at hc
    tauto
  have hno : ∀ x : Char, ¬x = '`' → plainChar x = false →
      x ∉ ('`' :: (i ++ ['`'])) := by
    intro x hx hpx hm
    rcases hmem x hm with h | h
    · exact hx h
    · exact plain_not_mem hp hpx h
  unfold mdText
  rw [headingSub_id _ (hno '#' (by decide) (by decide)),
    boldSub_id_not_mem _ (hno '*' (by decide) (by decide)),
    pairSub_id_not_mem '*' _ (hno '*' (by decide) (by decide)),
    pairSub_shape '`' i (plain_pair hp (by decide)),
    h4, h5, h6, h7, h8]

theorem mdText_link_shape (t u : List Char)
    (hpt : ∀ c ∈ t, plainChar c = true)
    (hpu : ∀ c ∈ u, plainChar c = true) :
    mdText ('[' :: (t ++ ']' :: '(' :: (u ++ [')']))) = t := by
  obtain ⟨h1, h2, h3, h4, h5, h6, h7, h8⟩ := tail_passes_plain t hpt
  have hmem : ∀ c ∈ ('[' :: (t ++ ']' :: '(' :: (u ++ [')']))),
      c = '[' ∨ c = ']' ∨ c = '(' ∨ c = ')' ∨ c ∈ t ∨ c ∈ u := by
    intro c hc
    simp only [List.mem_cons, List.mem_append, List.mem_singleton] at hc
    tauto
  have hno : ∀ x : Char, ¬x = '[' → ¬x = ']' → ¬x = '(' → ¬x = ')' →
      plainChar x = false → x ∉ ('[' :: (t ++ ']' :: '(' :: (u ++ [')']))) := by
    intro x hx1 hx2 hx3 hx4 hpx hm
    rcases hmem x hm with h | h | h | h | h | h
    · exact hx1 h
    · exact hx2 h
    · exact hx3 h
    · exact hx4 h
    · exact plain_not_mem hpt hpx h
    · exact plain_not_mem hpu hpx h
  unfold mdText
  rw [headingSub_id _
      (hno '#' (by decide) (by decide) (by decide) (by decide) (by decide)),
    boldSub_id_not_mem _
      (hno '*' (by decide) (by decide) (by decide) (by decide) (by decide)),
    pairSub_id_not_mem '*' _
      (hno '*' (by decide) (by decide) (by decide) (by decide) (by decide)),
    pairSub_id_not_mem '`' _
      (hno '`' (by decide) (by decide) (by decide) (by decide) (by decide)),
    linkSub_shape t u (plain_pair hpt (by decide))
      (plain_pair hpu (by decide)),
    h5, h6, h7, h8]

theorem mdText_pipe_shape (i : List Char)
    (hp : ∀ c ∈ i, plainChar c = true) :
    mdText ('|' :: (i ++ ['|'])) = [] := by
  have hmem : ∀ c ∈ ('|' :: (i ++ ['|'])), c = '|' ∨ c ∈ i := by
    intro c hc
    simp only [List.mem_cons, List.mem_append, List.mem_singleton] at hc
    tauto
  have hno : ∀ x : Char, ¬x = '|' → plainChar x = false →
      x ∉ ('|' :: (i ++ ['|'])) := by
    intro x hx hpx hm
    rcases hmem x hm with h | h
    · exact hx h
    · exact plain_not_mem hp hpx h
  unfold mdText
  rw [headingSub_id _ (hno '#' (by decide) (by decide)),
    boldSub_id_not_mem _ (hno '*' (by decide) (by decide)),
    pairSub_id_not_mem '*' _ (hno '*' (by decide) (by decide)),
    pairSub_id_not_mem '`' _ (hno '`' (by decide) (by decide)),
    linkSub_id _ (hno '[' (by decide) (by decide)),
    pipeSub_shape i (plain_pair hp (by decide)),
    show dashSub [] = [] from by unfold dashSub; rfl,
    show newlineSub [] = [] from by unfold newlineSub; rfl]
  rfl

theorem mdText_hr_line_shape (a b : List Char) (hna : a ≠ []) (hnb : b ≠ [])
    (hpa : ∀ c ∈ a, plainChar c = true)
    (hpb : ∀ c ∈ b, plainChar c = true) :
    mdText (a ++ ('\n' :: '-' :: '-' :: '-' :: '\n' :: b)) =
      a ++ ('\n' :: '\n' :: b) := by
  have hmem : ∀ c ∈ a ++ ('\n' :: '-' :: '-' :: '-' :: '\n' :: b),
      c ∈ a ∨ c = '\n' ∨ c = '-' ∨ c ∈ b := by
    intro c hc
    simp only [List.mem_append, List.mem_cons] at hc
    tauto
  have hno : ∀ x : Char, ¬x = '\n' → ¬x = '-' → plainChar x = false →
      x ∉ a ++ ('\n' :: '-' :: '-' :: '-' :: '\n' :: b) := by
    intro x hx1 hx2 hpx hm
    rcases hmem x hm with h | h | h | h
    · exact plain_not_mem hpa hpx h
    · exact hx1 h
    · exact hx2 h
    · exact plain_not_mem hpb hpx h
  unfold mdText
  rw [headingSub_id _ (hno '#' (by decide) (by decide) (by decide)),
    boldSub_id_not_mem _ (hno '*' (by decide) (by decide) (by decide)),
    pairSub_id_not_mem '*' _ (hno '*' (by decide) (by decide) (by decide)),
    pairSub_id_not_mem '`' _ (hno '`' (by decide) (by decide) (by decide)),
    linkSub_id _ (hno '[' (by decide) (by decide) (by decide)),
    pipeSub_id_not_mem _ (hno '|' (by decide) (by decide) (by decide))]
  have hshape : a ++ ('\n' :: '-' :: '-' :: '-' :: '\n' :: b) =
      (a ++ ['\n']) ++ ('-' :: '-' :: '-' :: ('\n' :: b)) := by simp
  rw [hshape,
    dashSub_append_free (a ++ ['\n']) _ (by
      intro c hc
      rcases List.mem_append.mp hc with h | h
      · exact (plain_pair (m := '-') hpa (by decide) c h).1
      · simp only [List.mem_singleton] at h
        subst h
        decide),
    dashSub_run3 '\n' b (by decide),
    dashSub_id_not_mem ('\n' :: b) (by
      intro hm
      rcases List.mem_cons.mp hm with h | h
      · exact absurd h (by decide)
      · exact plain_not_mem hpb (by decide) h)]
  have hshape2 : (a ++ ['\n']) ++ ('\n' :: b) = a ++ ('\n' :: '\n' :: b) :=
    by simp
  rw [hshape2,
    newlineSub_append_free a _
      (fun c hc => (plain_pair (m := '\n') hpa (by decide) c hc).2),
    newlineSub_two b (plain_not_mem hpb (by decide))]
  refine pyStrip_id ?_ ?_
  · rw [noLead_append hna]
    exact plain_noLead hpa
  · have hrev : (a ++ ('\n' :: '\n' :: b)).reverse =
        b.reverse ++ (['\n', '\n'] ++ a.reverse) := by simp
    rw [hrev, noLead_append (by simp [hnb])]
    exact plain_noLead (plain_reverse hpb)

theorem mdText_collapse_shape (n : Nat) (hn : 3 ≤ n) (a b : List Char)
    (hna : a ≠ []) (hnb : b ≠ [])
    (hpa : ∀ c ∈ a, plainChar c = true)
    (hpb : ∀ c ∈ b, plainChar c = true) :
    mdText (a ++ (List.replicate n '\n' ++ b)) = a ++ ('\n' :: '\n' :: b) := by
  have hmem : ∀ c ∈ a ++ (List.replicate n '\n' ++ b),
      c ∈ a ∨ c = '\n' ∨ c ∈ b := by
    intro c hc
    simp only [List.mem_append, List.mem_replicate] at hc
    tauto
  have hno : ∀ x : Char, ¬x = '\n' → plainChar x = false →
      x ∉ a ++ (List.replicate n '\n' ++ b) := by
    intro x hx1 hpx hm
    rcases hmem x hm with h | h | h
    · exact plain_not_mem hpa hpx h
    · exact hx1 h
    · exact plain_not_mem hpb hpx h
  unfold mdText
  rw [headingSub_id _ (hno '#' (by decide) (by decide)),
    boldSub_id_not_mem _ (hno '*' (by decide) (by decide)),
    pairSub_id_not_mem '*' _ (hno '*' (by decide) (by decide)),
    pairSub_id_not_mem '`' _ (hno '`' (by decide) (by decide)),
    linkSub_id _ (hno '[' (by decide) (by decide)),
    pipeSub_id_not_mem _ (hno '|' (by decide) (by decide)),
    dashSub_id_not_mem _ (hno '-' (by decide) (by decide)),
    newlineSub_append_free a _
      (fun c hc => (plain_pair (m := '\n') hpa (by decide) c hc).2),
    newlineSub_run n hn b (by
      intro c hc
      exact (plain_pair (m := '\n') hpb (by decide) c
        (List.take_subset 1 b hc)).2),
    newlineSub_id_not_mem b (plain_not_mem hpb (by decide))]
  refine pyStrip_id ?_ ?_
  · rw [noLead_append hna]
    exact plain_noLead hpa
  · have hrev : (a ++ ('\n' :: '\n' :: b)).reverse =
        b.reverse ++ (['\n', '\n'] ++ a.reverse) := by simp
    rw [hrev, noLead_append (by simp [hnb])]
    exact plain_noLead (plain_reverse hpb)

theorem mdText_twonl_shape (a b : List Char) (hna : a ≠ []) (hnb : b ≠ [])
    (hpa : ∀ c ∈ a, plainChar c = true)
    (hpb : ∀ c ∈ b, plainChar c = true) :
    mdText (a ++ ('\n' :: '\n' :: b)) = a ++ ('\n' :: '\n' :: b) := by
  have hmem : ∀ c ∈ a ++ ('\n' :: '\n' :: b),
      c ∈ a ∨ c = '\n' ∨ c ∈ b := by
    intro c hc
    simp only [List.mem_append, List.mem_cons] at hc
    tauto
  have hno : ∀ x : Char, ¬x = '\n' → plainChar x = false →
      x ∉ a ++ ('\n' :: '\n' :: b) := by
    intro x hx1 hpx hm
    rcases hmem x hm with h | h | h
    · exact plain_not_mem hpa hpx h
    · exact hx1 h
    · exact plain_not_mem hpb hpx h
  unfold mdText
  rw [headingSub_id _ (hno '#' (by decide) (by decide)),
    boldSub_id_not_mem _ (hno '*' (by decide) (by decide)),
    pairSub_id_not_mem '*' _ (hno '*' (by decide) (by decide)),
    pairSub_id_not_mem '`' _ (hno '`' (by decide) (by decide)),
    linkSub_id _ (hno '[' (by decide) (by decide)),
    pipeSub_id_not_mem _ (hno '|' (by decide) (by decide)),
    dashSub_id_not_mem _ (hno '-' (by decide) (by decide)),
    newlineSub_append_free a _
      (fun c hc => (plain_pair (m := '\n') hpa (by decide) c hc).2),
    newlineSub_two b (plain_not_mem hpb (by decide))]
  refine pyStrip_id ?_ ?_
  · rw [noLead_append hna]
    exact plain_noLead hpa
  · have hrev : (a ++ ('\n' :: '\n' :: b)).reverse =
        b.reverse ++ (['\n', '\n'] ++ a.reverse) := by simp
    rw [hrev, noLead_append (by simp [hnb])]
    exact plain_noLead (plain_reverse hpb)

/-- The pipeline output carries no leading or trailing whitespace. -/
theorem mdText_stripped (l : List Char) : pyStrip (mdText l) = mdText l := by
  unfold mdText
  exact pyStrip_id (pyStrip_noLead _).1 (pyStrip_noLead _).2

/-- Strings free of the markers and of whitespace, and non-empty: the clean
payloads the spec sentence inserts the markers around. -/
def PlainS (s : String) : Prop :=
  s.data ≠ [] ∧ ∀ c ∈ s.data, plainChar c = true

theorem mdt_eq {s t : String} (h : mdText s.data = t.data) :
    MinerUProcessor.markdown_to_text s = t := by
  unfold MinerUProcessor.markdown_to_text
  rw [String.ext_iff]
  exact h

/-- C7 (corrected): the conversion strips heading markers (any level, with
their following space), bold, italic and inline-code markers, link syntax
keeping the link text, table pipe spans, and horizontal dash rules; it
collapses every run of three or more consecutive newline characters to
exactly two newlines — so a run of exactly two blank lines, such as the
three newlines in a\n\n\nb, is NOT left unchanged but becomes one blank
line — while a single blank line (exactly two newlines) is preserved; and
the result carries no leading or trailing whitespace. -/
theorem C7_markdown_to_text_strips :
    (∀ i : String, PlainS i →
      MinerUProcessor.markdown_to_text ("# " ++ i) = i ∧
      MinerUProcessor.markdown_to_text ("###### " ++ i) = i ∧
      MinerUProcessor.markdown_to_text ("**" ++ i ++ "**") = i ∧
      MinerUProcessor.markdown_to_text ("*" ++ i ++ "*") = i ∧
      MinerUProcessor.markdown_to_text ("`" ++ i ++ "`") = i ∧
      MinerUProcessor.markdown_to_text ("|" ++ i ++ "|") = "") ∧
    (∀ t u : String, PlainS t → PlainS u →
      MinerUProcessor.markdown_to_text ("[" ++ t ++ "](" ++ u ++ ")") = t) ∧
    MinerUProcessor.markdown_to_text "---" = "" ∧
    (∀ a b : String, PlainS a → PlainS b →
      MinerUProcessor.markdown_to_text (a ++ "\n---\n" ++ b) =
        a ++ "\n\n" ++ b ∧
      (∀ n : Nat, 3 ≤ n →
        MinerUProcessor.markdown_to_text
            (a ++ (⟨List.replicate n '\n'⟩ : String) ++ b) =
          a ++ "\n\n" ++ b) ∧
      MinerUProcessor.markdown_to_text (a ++ "\n\n" ++ b) =
        a ++ "\n\n" ++ b) ∧
    (∀ s : String,
      pyStripS (MinerUProcessor.markdown_to_text s) =
        MinerUProcessor.markdown_to_text s) := by
  refine ⟨?_, ?_, ?_, ?_, ?_⟩
  · intro i hi
    refine ⟨?_, ?_, ?_, ?_, ?_, ?_⟩
    · apply mdt_eq
      have hd : ("# " ++ i).data =
          '#' :: (List.replicate 0 '#' ++ (' ' :: i.data)) := rfl
      rw [hd]
      exact mdText_heading_shape 0 (by norm_num) i.data hi.2
    · apply mdt_eq
      have hd : ("###### " ++ i).data =
          '#' :: (List.replicate 5 '#' ++ (' ' :: i.data)) := rfl
      rw [hd]
      exact mdText_heading_shape 5 (by norm_num) i.data hi.2
    · apply mdt_eq
      have hd : ("**" ++ i ++ "**").data =
          '*' :: '*' :: (i.data ++ ['*', '*']) := rfl
      rw [hd]
      exact mdText_bold_shape i.data hi.2
    · apply mdt_eq
      have hd : ("*" ++ i ++ "*").data = '*' :: (i.data ++ ['*']) := rfl
      rw [hd]
      exact mdText_italic_shape i.data hi.1 hi.2
    · apply mdt_eq
      have hd : ("`" ++ i ++ "`").data = '`' :: (i.data ++ ['`']) := rfl
      rw [hd]
      exact mdText_code_shape i.data hi.2
    · apply mdt_eq
      have hd : ("|" ++ i ++ "|").data = '|' :: (i.data ++ ['|']) := rfl
      rw [hd]
      exact mdText_pipe_shape i.data hi.2
  · intro t u ht hu
    apply mdt_eq
    have hd : ("[" ++ t ++ "](" ++ u ++ ")").data =
        '[' :: (t.data ++ ']' :: '(' :: (u.data ++ [')'])) := by
      show '[' :: (((t.data ++ [']', '(']) ++ u.data) ++ [')']) = _
      rw [List.append_assoc, List.append_assoc]
      rfl
    rw [hd]
    exact mdText_link_shape t.data u.data ht.2 hu.2
  · apply mdt_eq
    have hd : ("---" : String).data = ['-', '-', '-'] := rfl
    rw [hd, show ("" : String).data = ([] : List Char) from rfl]
    simp +decide [mdText, headingSub, boldSub, pairSub, linkSub, pipeSub,
      dashSub, newlineSub, pyStrip, findOnLine, findDouble, findCloseParen,
      linkScan, charRun, isPySpace, List.dropWhile]
  · intro a b ha hb
    have htgt : (a ++ "\n\n" ++ b).data =
        a.data ++ ('\n' :: '\n' :: b.data) := by
      show (a.data ++ ['\n', '\n']) ++ b.data = _
      rw [List.append_assoc]
      rfl
    refine ⟨?_, ?_, ?_⟩
    · apply mdt_eq
      have hd : (a ++ "\n---\n" ++ b).data =
          a.data ++ ('\n' :: '-' :: '-' :: '-' :: '\n' :: b.data) := by
        show (a.data ++ ['\n', '-', '-', '-', '\n']) ++ b.data = _
        rw [List.append_assoc]
        rfl
      rw [hd, htgt]
      exact mdText_hr_line_shape a.data b.data ha.1 hb.1 ha.2 hb.2
    · intro n hn
      apply mdt_eq
      have hd : (a ++ (⟨List.replicate n '\n'⟩ : String) ++ b).data =
          a.data ++ (List.replicate n '\n' ++ b.data) := by
        show (a.data ++ List.replicate n '\n') ++ b.data = _
        rw [List.append_assoc]
      rw [hd, htgt]
      exact mdText_collapse_shape n hn a.data b.data ha.1 hb.1 ha.2 hb.2
    · apply mdt_eq
      rw [htgt]
      exact mdText_twonl_shape a.data b.data ha.1 hb.1 ha.2 hb.2
  · intro s
    exact congrArg (fun l => (⟨l⟩ : String)) (mdText_stripped s.data)

/-- C7 counterexample: a run of exactly two blank lines (three consecutive
newline characters) is not left unchanged — the conversion collapses it to
a single blank line. -/
theorem C7_counterexample :
    MinerUProcessor.markdown_to_text "a\n\n\nb" = "a\n\nb" ∧
      ("a\n\nb" : String) ≠ "a\n\n\nb" := by
  constructor
  · unfold MinerUProcessor.markdown_to_text
    rw [String.ext_iff]
    show mdText ("a\n\n\nb" : String).data = ("a\n\nb" : String).data
    have h1 : ("a\n\n\nb" : String).data = ['a', '\n', '\n', '\n', 'b'] := rfl
    have h2 : ("a\n\nb" : String).data = ['a', '\n', '\n', 'b'] := rfl
    rw [h1, h2]
    simp +decide [mdText, headingSub, boldSub, pairSub, linkSub, pipeSub,
      dashSub, newlineSub, pyStrip, findOnLine, findDouble, findCloseParen,
      linkScan, charRun, isPySpace, List.dropWhile]
  · decide

/-! ## Idempotence machinery

A second application of a pass is the identity when the first application's
output satisfies a line-local invariant.  The invariant "at most one `m` per
line" is tracked by a left fold over an `Option Bool` state: `some s` means
no violation so far and `s` records whether the current line has already
seen an `m`; `none` records a violated line. -/

/-- One step of the at-most-one-`m`-per-line automaton. -/
def lineAcc (m : Char) : Option Bool → Char → Option Bool
  | none, _ => none
  | some s, c =>
    if c = '\n' then some false
    else if c = m then (if s then none else some true)
    else some s

/-- Run the automaton over a list from a given state. -/
def amoplS (m : Char) (st : Option Bool) (l : List Char) : Option Bool :=
  l.foldl (lineAcc m) st

theorem amoplS_cons (m : Char) (st : Option Bool) (c : Char) (l : List Char) :
    amoplS m st (c :: l) = amoplS m (lineAcc m st c) l := rfl

theorem amoplS_append (m : Char) (st : Option Bool) (u v : List Char) :
    amoplS m st (u ++ v) = amoplS m (amoplS m st u) v := by
  unfold amoplS
  exact List.foldl_append _ _ _ _

theorem amoplS_none (m : Char) : ∀ l : List Char, amoplS m none l = none := by
  intro l
  induction l with
  | nil => rfl
  | cons c rest ih => rw [amoplS_cons]; exact ih

theorem lineAcc_other (m : Char) {c : Char} (h1 : ¬c = m) (h2 : ¬c = '\n')
    (st : Option Bool) : lineAcc m st c = st := by
  cases st with
  | none => rfl
  | some s => simp [lineAcc, h1, h2]

theorem amoplS_free (m : Char) {u : List Char}
    (h : ∀ c ∈ u, ¬c = m ∧ ¬c = '\n') (st : Option Bool) :
    amoplS m st u = st := by
  induction u with
  | nil => rfl
  | cons c rest ih =>
    rw [amoplS_cons,
      lineAcc_other m (h c (List.mem_cons_self c rest)).1
        (h c (List.mem_cons_self c rest)).2]
    exact ih (fun x hx => h x (List.mem_cons_of_mem c hx))

theorem amoplS_not_mem (m : Char) :
    ∀ (l : List Char), m ∉ l → ∀ s : Bool, amoplS m (some s) l ≠ none := by
  intro l
  induction l with
  | nil => intro _ s h; exact Option.noConfusion h
  | cons c rest ih =>
    intro h s
    have hc : ¬c = m := fun hc => h (hc ▸ List.mem_cons_self c rest)
    have hrest : m ∉ rest := fun hm => h (List.mem_cons_of_mem c hm)
    rw [amoplS_cons]
    by_cases hn : c = '\n'
    · rw [show lineAcc m (some s) c = some false by simp [lineAcc, hn]]
      exact ih hrest false
    · rw [lineAcc_other m hc hn]
      exact ih hrest s

/-- Whitespace never carries an `m` (for a non-whitespace marker), so a
whitespace block maps the clean line-start state to itself. -/
theorem amoplS_ws {m : Char} (hm : isPySpace m = false) {u : List Char}
    (h : ∀ c ∈ u, isPySpace c = true) :
    amoplS m (some false) u = some false := by
  induction u with
  | nil => rfl
  | cons c rest ih =>
    have hcw : isPySpace c = true := h c (List.mem_cons_self c rest)
    have hcm : ¬c = m := fun hcm => by rw [hcm, hm] at hcw; cases hcw
    rw [amoplS_cons]
    by_cases hn : c = '\n'
    · rw [show lineAcc m (some false) c = some false by simp [lineAcc, hn]]
      exact ih (fun x hx => h x (List.mem_cons_of_mem c hx))
    · rw [lineAcc_other m hcm hn]
      exact ih (fun x hx => h x (List.mem_cons_of_mem c hx))

/-- Deleting characters inside a line can only lower the automaton state:
`stLe x y` reads "x is at most y" with `none` on top. -/
def stLe : Option Bool → Option Bool → Prop
  | _, none => True
  | none, some _ => False
  | some a, some b => a = true → b = true

theorem stLe_top : ∀ x : Option Bool, stLe x none := by
  intro x
  cases x with
  | none => trivial
  | some a => trivial

theorem stLe_refl : ∀ x : Option Bool, stLe x x := by
  intro x
  cases x with
  | none => trivial
  | some a => exact fun h => h

theorem stLe_trans : ∀ {x y z : Option Bool}, stLe x y → stLe y z → stLe x z := by
  intro x y z h1 h2
  cases z with
  | none => exact stLe_top x
  | some c =>
    cases y with
    | none => exact absurd h2 (fun h => h)
    | some b =>
      cases x with
      | none => exact absurd h1 (fun h => h)
      | some a => exact fun h => h2 (h1 h)

theorem stLe_ne_none {x y : Option Bool} (h : stLe x y) (hy : y ≠ none) :
    x ≠ none := by
  cases y with
  | none => exact absurd rfl hy
  | some b =>
    cases x with
    | none => exact absurd h (fun h => h)
    | some a => exact fun hx => Option.noConfusion hx

theorem lineAcc_mono (m : Char) {x y : Option Bool} (h : stLe x y) (c : Char) :
    stLe (lineAcc m x c) (lineAcc m y c) := by
  cases y with
  | none => exact stLe_top _
  | some b =>
    cases x with
    | none => exact absurd h (fun h => h)
    | some a =>
      by_cases hn : c = '\n'
      · simp only [lineAcc, if_pos hn]
        exact stLe_refl _
      · by_cases hm : c = m
        · simp only [lineAcc, if_neg hn, if_pos hm]
          cases b with
          | true => exact stLe_top _
          | false =>
            have ha : a = false := by
              cases hha : a with
              | true => exact absurd (h hha) Bool.noConfusion
              | false => rfl
            rw [ha]
            exact fun h => h
        · simp only [lineAcc, if_neg hn, if_neg hm]
          exact h

theorem amoplS_mono (m : Char) :
    ∀ (l : List Char) {x y : Option Bool}, stLe x y →
      stLe (amoplS m x l) (amoplS m y l) := by
  intro l
  induction l with
  | nil => intro x y h; exact h
  | cons c rest ih =>
    intro x y h
    rw [amoplS_cons, amoplS_cons]
    exact ih (lineAcc_mono m h c)

theorem stLe_step_line (m : Char) {c : Char} (hn : ¬c = '\n')
    (st : Option Bool) : stLe st (lineAcc m st c) := by
  cases st with
  | none => exact stLe_refl none
  | some s =>
    by_cases hm : c = m
    · simp only [lineAcc, if_neg hn, if_pos hm]
      cases s with
      | true => exact stLe_top _
      | false => exact fun h => Bool.noConfusion h
    · rw [lineAcc_other m hm hn]
      exact stLe_refl _

theorem amoplS_step_line (m : Char) :
    ∀ (u : List Char), '\n' ∉ u → ∀ st : Option Bool,
      stLe st (amoplS m st u) := by
  intro u
  induction u with
  | nil => intro _ st; exact stLe_refl st
  | cons c rest ih =>
    intro h st
    have hc : ¬c = '\n' := fun hc => h (hc ▸ List.mem_cons_self c rest)
    rw [amoplS_cons]
    exact stLe_trans (stLe_step_line m hc st)
      (ih (fun hm => h (List.mem_cons_of_mem c hm)) _)

theorem drop_cons_append (u v : List Char) (x : Char) :
    (u ++ x :: v).drop (u.length + 1) = v := by
  have h : u ++ x :: v = (u ++ [x]) ++ v := by simp
  have hlen : (u ++ [x]).length = u.length + 1 := by simp
  rw [h, ← hlen, List.drop_left]

theorem findOnLine_none (m : Char) :
    ∀ l : List Char, findOnLine m l = none →
      m ∉ l ∨ ∃ u v, l = u ++ '\n' :: v ∧ ∀ c ∈ u, ¬c = m ∧ ¬c = '\n' := by
  intro l
  induction l with
  | nil => intro _; left; simp
  | cons c rest ih =>
    intro h
    unfold findOnLine at h
    by_cases hc : c = m
    · rw [if_pos hc] at h
      exact Option.noConfusion h
    · rw [if_neg hc] at h
      by_cases hn : c = '\n'
      · right
        exact ⟨[], rest, by rw [hn]; rfl, by intro x hx; simp at hx⟩
      · rw [if_neg hn] at h
        have h2 : findOnLine m rest = none := by
          cases hf : findOnLine m rest with
          | none => rfl
          | some i => rw [hf] at h; exact Option.noConfusion h
        rcases ih h2 with h3 | ⟨u, v, he, hu⟩
        · left
          intro hm
          rcases List.mem_cons.mp hm with he | hm
          · exact hc he.symm
          · exact h3 hm
        · right
          refine ⟨c :: u, v, by rw [he]; rfl, ?_⟩
          intro x hx
          rcases List.mem_cons.mp hx with rfl | hx
          · exact ⟨hc, hn⟩
          · exact hu x hx

theorem pairSub_free_prefix (m : Char) :
    ∀ u v : List Char, (∀ c ∈ u, ¬c = m) →
      pairSub m (u ++ v) = u ++ pairSub m v := by
  intro u
  induction u with
  | nil => intro v _; simp
  | cons c rest ih =>
    intro v h
    have hc : ¬c = m := h c (List.mem_cons_self c rest)
    show pairSub m (c :: (rest ++ v)) = c :: (rest ++ pairSub m v)
    conv_lhs => unfold pairSub
    rw [if_neg hc, ih v (fun x hx => h x (List.mem_cons_of_mem c hx))]

theorem pipeSub_free_prefix :
    ∀ u v : List Char, (∀ c ∈ u, ¬c = '|') →
      pipeSub (u ++ v) = u ++ pipeSub v := by
  intro u
  induction u with
  | nil => intro v _; simp
  | cons c rest ih =>
    intro v h
    have hc : ¬c = '|' := h c (List.mem_cons_self c rest)
    show pipeSub (c :: (rest ++ v)) = c :: (rest ++ pipeSub v)
    conv_lhs => unfold pipeSub
    rw [if_neg hc, ih v (fun x hx => h x (List.mem_cons_of_mem c hx))]

/-- One `pairSub m` pass leaves at most one unmatched `m` per line. -/
theorem pairSub_amopl (m : Char) (hm : ¬m = '\n') :
    ∀ (n : Nat) (l : List Char), l.length ≤ n →
      amoplS m (some false) (pairSub m l) ≠ none := by
  intro n
  induction n with
  | zero =>
    intro l hl
    have h0 : l = [] := List.length_eq_zero.mp (Nat.le_zero.mp hl)
    subst h0
    rw [show pairSub m [] = [] from by unfold pairSub; rfl]
    exact fun h => Option.noConfusion h
  | succ n ih =>
    intro l hl
    cases l with
    | nil =>
      rw [show pairSub m [] = [] from by unfold pairSub; rfl]
      exact fun h => Option.noConfusion h
    | cons c rest =>
      simp only [List.length_cons] at hl
      by_cases hc : c = m
      · rw [hc]
        cases hfind : findOnLine m rest with
        | some i =>
          obtain ⟨u, v, hrest, hlen, hu⟩ := findOnLine_some m rest i hfind
          have hps : pairSub m (m :: rest) =
              rest.take i ++ pairSub m (rest.drop (i + 1)) := by
            conv_lhs => unfold pairSub
            rw [if_pos rfl, hfind]
          have htake : rest.take i = u := by
            rw [hrest, ← hlen]
            exact List.take_left u _
          have hdrop : rest.drop (i + 1) = v := by
            rw [hrest, ← hlen]
            exact drop_cons_append u v m
          rw [hps, htake, hdrop, amoplS_append, amoplS_free m hu]
          refine ih v ?_
          have hr : rest.length = u.length + (v.length + 1) := by
            rw [hrest]
            simp
          omega
        | none =>
          have hps : pairSub m (m :: rest) = m :: pairSub m rest := by
            conv_lhs => unfold pairSub
            rw [if_pos rfl, hfind]
          rw [hps, amoplS_cons,
            show lineAcc m (some false) m = some true by simp [lineAcc, hm]]
          rcases findOnLine_none m rest hfind with hnm | ⟨u, v, hrest, hu⟩
          · rw [pairSub_id_not_mem m rest hnm]
            exact amoplS_not_mem m rest hnm true
          · have hufree : ∀ c ∈ u ++ ['\n'], ¬c = m := by
              intro x hx
              rcases List.mem_append.mp hx with hx | hx
              · exact (hu x hx).1
              · simp only [List.mem_singleton] at hx
                subst hx
                exact fun h => hm h.symm
            have hsplit : rest = (u ++ ['\n']) ++ v := by
              rw [hrest]
              simp
            rw [hsplit, pairSub_free_prefix m (u ++ ['\n']) v hufree,
              amoplS_append, amoplS_append, amoplS_free m hu, amoplS_cons,
              show lineAcc m (some true) '\n' = some false by simp [lineAcc]]
            refine ih v ?_
            have hr : rest.length = u.length + (v.length + 1) := by
              rw [hrest]
              simp
            omega
      · have hps : pairSub m (c :: rest) = c :: pairSub m rest := by
          conv_lhs => unfold pairSub
          rw [if_neg hc]
        rw [hps, amoplS_cons]
        have hla : lineAcc m (some false) c = some false := by
          by_cases hn : c = '\n'
          · simp [lineAcc, hn]
          · rw [lineAcc_other m hc hn]
        rw [hla]
        exact ih rest (by omega)

/-- One `pipeSub` pass leaves at most one unmatched `|` per line. -/
theorem pipeSub_amopl :
    ∀ (n : Nat) (l : List Char), l.length ≤ n →
      amoplS '|' (some false) (pipeSub l) ≠ none := by
  intro n
  induction n with
  | zero =>
    intro l hl
    have h0 : l = [] := List.length_eq_zero.mp (Nat.le_zero.mp hl)
    subst h0
    rw [show pipeSub [] = [] from by unfold pipeSub; rfl]
    exact fun h => Option.noConfusion h
  | succ n ih =>
    intro l hl
    cases l with
    | nil =>
      rw [show pipeSub [] = [] from by unfold pipeSub; rfl]
      exact fun h => Option.noConfusion h
    | cons c rest =>
      simp only [List.length_cons] at hl
      by_cases hc : c = '|'
      · subst hc
        cases hfind : findOnLine '|' rest with
        | some i =>
          obtain ⟨u, v, hrest, hlen, hu⟩ := findOnLine_some '|' rest i hfind
          have hps : pipeSub ('|' :: rest) =
              pipeSub (rest.drop (i + 1)) := by
            conv_lhs => unfold pipeSub
            rw [if_pos rfl, hfind]
          have hdrop : rest.drop (i + 1) = v := by
            rw [hrest, ← hlen]
            exact drop_cons_append u v '|'
          rw [hps, hdrop]
          refine ih v ?_
          have hr : rest.length = u.length + (v.length + 1) := by
            rw [hrest]
            simp
          omega
        | none =>
          have hps : pipeSub ('|' :: rest) = '|' :: pipeSub rest := by
            conv_lhs => unfold pipeSub
            rw [if_pos rfl, hfind]
          rw [hps, amoplS_cons,
            show lineAcc '|' (some false) '|' = some true by
              simp [lineAcc]]
          rcases findOnLine_none '|' rest hfind with hnm | ⟨u, v, hrest, hu⟩
          · rw [pipeSub_id_not_mem rest hnm]
            exact amoplS_not_mem '|' rest hnm true
          · have hufree : ∀ c ∈ u ++ ['\n'], ¬c = '|' := by
              intro x hx
              rcases List.mem_append.mp hx with hx | hx
              · exact (hu x hx).1
              · simp only [List.mem_singleton] at hx
                subst hx
                decide
            have hsplit : rest = (u ++ ['\n']) ++ v := by
              rw [hrest]
              simp
            rw [hsplit, pipeSub_free_prefix (u ++ ['\n']) v hufree,
              amoplS_append, amoplS_append, amoplS_free '|' hu, amoplS_cons,
              show lineAcc '|' (some true) '\n' = some false by
                simp [lineAcc]]
            refine ih v ?_
            have hr : rest.length = u.length + (v.length + 1) := by
              rw [hrest]
              simp
            omega
      · have hps : pipeSub (c :: rest) = c :: pipeSub rest := by
          conv_lhs => unfold pipeSub
          rw [if_neg hc]
        rw [hps, amoplS_cons]
        have hla : lineAcc '|' (some false) c = some false := by
          by_cases hn : c = '\n'
          · simp [lineAcc, hn]
          · rw [lineAcc_other '|' hc hn]
        rw [hla]
        exact ih rest (by omega)

/-- With at most one `m` per line, `pairSub m` finds no pair: identity. -/
theorem pairSub_id_amopl (m : Char) (hm : ¬m = '\n') :
    ∀ (l : List Char) (s : Bool), amoplS m (some s) l ≠ none →
      pairSub m l = l := by
  intro l
  induction l with
  | nil => intro s _; simp [pairSub]
  | cons c rest ih =>
    intro s h
    by_cases hc : c = m
    · rw [hc] at h ⊢
      cases hfind : findOnLine m rest with
      | some i =>
        exfalso
        obtain ⟨u, v, hrest, hlen, hu⟩ := findOnLine_some m rest i hfind
        apply h
        rw [amoplS_cons]
        cases s with
        | true =>
          rw [show lineAcc m (some true) m = none by simp [lineAcc, hm],
            amoplS_none]
        | false =>
          rw [show lineAcc m (some false) m = some true by
              simp [lineAcc, hm],
            hrest, amoplS_append, amoplS_free m hu, amoplS_cons,
            show lineAcc m (some true) m = none by simp [lineAcc, hm],
            amoplS_none]
      | none =>
        have hps : pairSub m (m :: rest) = m :: pairSub m rest := by
          conv_lhs => unfold pairSub
          rw [if_pos rfl, hfind]
        cases s with
        | true =>
          exfalso
          apply h
          rw [amoplS_cons,
            show lineAcc m (some true) m = none by simp [lineAcc, hm],
            amoplS_none]
        | false =>
          rw [hps, ih true (by
            rw [amoplS_cons,
              show lineAcc m (some false) m = some true by
                simp [lineAcc, hm]] at h
            exact h)]
    · have hps : pairSub m (c :: rest) = c :: pairSub m rest := by
        conv_lhs => unfold pairSub
        rw [if_neg hc]
      rw [hps]
      by_cases hn : c = '\n'
      · rw [ih false (by
          rw [amoplS_cons, show lineAcc m (some s) c = some false by
            simp [lineAcc, hn]] at h
          exact h)]
      · rw [ih s (by
          rw [amoplS_cons, lineAcc_other m hc hn] at h
          exact h)]

/-- With at most one `|` per line, `pipeSub` finds no span: identity. -/
theorem pipeSub_id_amopl :
    ∀ (l : List Char) (s : Bool), amoplS '|' (some s) l ≠ none →
      pipeSub l = l := by
  intro l
  induction l with
  | nil => intro s _; simp [pipeSub]
  | cons c rest ih =>
    intro s h
    by_cases hc : c = '|'
    · subst hc
      cases hfind : findOnLine '|' rest with
      | some i =>
        exfalso
        obtain ⟨u, v, hrest, hlen, hu⟩ := findOnLine_some '|' rest i hfind
        apply h
        rw [amoplS_cons]
        cases s with
        | true =>
          rw [show lineAcc '|' (some true) '|' = none by simp [lineAcc],
            amoplS_none]
        | false =>
          rw [show lineAcc '|' (some false) '|' = some true by
              simp [lineAcc],
            hrest, amoplS_append, amoplS_free '|' hu, amoplS_cons,
            show lineAcc '|' (some true) '|' = none by simp [lineAcc],
            amoplS_none]
      | none =>
        have hps : pipeSub ('|' :: rest) = '|' :: pipeSub rest := by
          conv_lhs => unfold pipeSub
          rw [if_pos rfl, hfind]
        cases s with
        | true =>
          exfalso
          apply h
          rw [amoplS_cons,
            show lineAcc '|' (some true) '|' = none by simp [lineAcc],
            amoplS_none]
        | false =>
          rw [hps, ih true (by
            rw [amoplS_cons,
              show lineAcc '|' (some false) '|' = some true by
                simp [lineAcc]] at h
            exact h)]
    · have hps : pipeSub (c :: rest) = c :: pipeSub rest := by
        conv_lhs => unfold pipeSub
        rw [if_neg hc]
      rw [hps]
      by_cases hn : c = '\n'
      · rw [ih false (by
          rw [amoplS_cons, show lineAcc '|' (some s) c = some false by
            simp [lineAcc, hn]] at h
          exact h)]
      · rw [ih s (by
          rw [amoplS_cons, lineAcc_other '|' hc hn] at h
          exact h)]

/-- With at most one `m` per line there are in particular no two adjacent
`m`s. -/
theorem noAdj_of_amoplS (m : Char) (hm : ¬m = '\n') :
    ∀ (l : List Char) (s : Bool), amoplS m (some s) l ≠ none →
      noAdj m l = true := by
  intro l
  induction l with
  | nil => intro s _; rfl
  | cons a rest ih =>
    intro s h
    cases rest with
    | nil => rfl
    | cons b rest2 =>
      unfold noAdj
      rw [Bool.and_eq_true]
      constructor
      · by_cases hab : a = m ∧ b = m
        · exfalso
          apply h
          obtain ⟨ha, hb⟩ := hab
          rw [ha, hb, amoplS_cons]
          cases s with
          | true =>
            rw [show lineAcc m (some true) m = none by simp [lineAcc, hm],
              amoplS_none]
          | false =>
            rw [show lineAcc m (some false) m = some true by
                simp [lineAcc, hm],
              amoplS_cons,
              show lineAcc m (some true) m = none by simp [lineAcc, hm],
              amoplS_none]
        · simp [hab]
      · cases hla : lineAcc m (some s) a with
        | none =>
          exfalso
          apply h
          rw [amoplS_cons, hla, amoplS_none]
        | some t =>
          refine ih t ?_
          rw [amoplS_cons, hla] at h
          exact h

/-- `pairSub k` deletes only `k` characters, so for any other marker the
line automaton is unchanged. -/
theorem pairSub_amoplS_eq (k m : Char) (hk1 : ¬k = m) (hk2 : ¬k = '\n') :
    ∀ (n : Nat) (l : List Char), l.length ≤ n → ∀ st : Option Bool,
      amoplS m st (pairSub k l) = amoplS m st l := by
  intro n
  induction n with
  | zero =>
    intro l hl st
    have h0 : l = [] := List.length_eq_zero.mp (Nat.le_zero.mp hl)
    subst h0
    rw [show pairSub k [] = [] from by unfold pairSub; rfl]
  | succ n ih =>
    intro l hl st
    cases l with
    | nil => rw [show pairSub k [] = [] from by unfold pairSub; rfl]
    | cons c rest =>
      simp only [List.length_cons] at hl
      by_cases hc : c = k
      · rw [hc]
        cases hfind : findOnLine k rest with
        | some i =>
          obtain ⟨u, v, hrest, hlen, hu⟩ := findOnLine_some k rest i hfind
          have hps : pairSub k (k :: rest) =
              rest.take i ++ pairSub k (rest.drop (i + 1)) := by
            conv_lhs => unfold pairSub
            rw [if_pos rfl, hfind]
          have htake : rest.take i = u := by
            rw [hrest, ← hlen]
            exact List.take_left u _
          have hdrop : rest.drop (i + 1) = v := by
            rw [hrest, ← hlen]
            exact drop_cons_append u v k
          have hv : v.length ≤ n := by
            have hr : rest.length = u.length + (v.length + 1) := by
              rw [hrest]; simp
            omega
          rw [hps, htake, hdrop, amoplS_append, ih v hv, amoplS_cons,
            lineAcc_other m hk1 hk2, hrest, amoplS_append, amoplS_cons,
            lineAcc_other m hk1 hk2]
        | none =>
          have hps : pairSub k (k :: rest) = k :: pairSub k rest := by
            conv_lhs => unfold pairSub
            rw [if_pos rfl, hfind]
          rw [hps, amoplS_cons, amoplS_cons, ih rest (by omega)]
      · have hps : pairSub k (c :: rest) = c :: pairSub k rest := by
          conv_lhs => unfold pairSub
          rw [if_neg hc]
        rw [hps, amoplS_cons, amoplS_cons, ih rest (by omega)]

/-- `pipeSub` deletes pipe spans within a line; for any other marker the
line automaton can only go down. -/
theorem pipeSub_amoplS_le (m : Char) (hm1 : ¬('|' : Char) = m) :
    ∀ (n : Nat) (l : List Char), l.length ≤ n → ∀ st : Option Bool,
      stLe (amoplS m st (pipeSub l)) (amoplS m st l) := by
  intro n
  induction n with
  | zero =>
    intro l hl st
    have h0 : l = [] := List.length_eq_zero.mp (Nat.le_zero.mp hl)
    subst h0
    rw [show pipeSub [] = [] from by unfold pipeSub; rfl]
    exact stLe_refl st
  | succ n ih =>
    intro l hl st
    cases l with
    | nil =>
      rw [show pipeSub [] = [] from by unfold pipeSub; rfl]
      exact stLe_refl st
    | cons c rest =>
      simp only [List.length_cons] at hl
      by_cases hc : c = '|'
      · rw [hc]
        cases hfind : findOnLine '|' rest with
        | some i =>
          obtain ⟨u, v, hrest, hlen, hu⟩ := findOnLine_some '|' rest i hfind
          have hps : pipeSub ('|' :: rest) = pipeSub (rest.drop (i + 1)) := by
            conv_lhs => unfold pipeSub
            rw [if_pos rfl, hfind]
          have hdrop : rest.drop (i + 1) = v := by
            rw [hrest, ← hlen]
            exact drop_cons_append u v '|'
          have hv : v.length ≤ n := by
            have hr : rest.length = u.length + (v.length + 1) := by
              rw [hrest]; simp
            omega
          rw [hps, hdrop, amoplS_cons, lineAcc_other m hm1 (by decide),
            hrest, amoplS_append, amoplS_cons,
            lineAcc_other m hm1 (by decide)]
          refine stLe_trans (ih v hv st) ?_
          refine amoplS_mono m v ?_
          refine amoplS_step_line m u ?_ st
          intro hnl
          exact (hu '\n' hnl).2 rfl
        | none =>
          have hps : pipeSub ('|' :: rest) = '|' :: pipeSub rest := by
            conv_lhs => unfold pipeSub
            rw [if_pos rfl, hfind]
          rw [hps, amoplS_cons, amoplS_cons]
          exact ih rest (by omega) _
      · have hps : pipeSub (c :: rest) = c :: pipeSub rest := by
          conv_lhs => unfold pipeSub
          rw [if_neg hc]
        rw [hps, amoplS_cons, amoplS_cons]
        exact ih rest (by omega) _

/-- The leading `m`-run followed by the rest reassembles the list. -/
theorem charRun_take_drop (m : Char) :
    ∀ l : List Char,
      List.replicate (charRun m l) m ++ l.drop (charRun m l) = l := by
  intro l
  induction l with
  | nil => rfl
  | cons c rest ih =>
    by_cases hc : c = m
    · rw [hc, show charRun m (m :: rest) = charRun m rest + 1 by
        simp [charRun]]
      rw [List.replicate_succ]
      show m :: (List.replicate (charRun m rest) m ++
        rest.drop (charRun m rest)) = m :: rest
      rw [ih]
    · rw [show charRun m (c :: rest) = 0 by simp [charRun, hc]]
      rfl

theorem charRun_drop_run (m : Char) :
    ∀ l : List Char, charRun m (l.drop (charRun m l)) = 0 := by
  intro l
  induction l with
  | nil => rfl
  | cons c rest ih =>
    by_cases hc : c = m
    · rw [hc, show charRun m (m :: rest) = charRun m rest + 1 by
        simp [charRun]]
      exact ih
    · rw [show charRun m (c :: rest) = 0 by simp [charRun, hc]]
      simp [charRun, hc]

/-- `dashSub` deletes only dashes, so any other marker's line automaton is
unchanged. -/
theorem dashSub_amoplS_eq (m : Char) (hm : ¬('-' : Char) = m) :
    ∀ (n : Nat) (l : List Char), l.length ≤ n → ∀ st : Option Bool,
      amoplS m st (dashSub l) = amoplS m st l := by
  intro n
  induction n with
  | zero =>
    intro l hl st
    have h0 : l = [] := List.length_eq_zero.mp (Nat.le_zero.mp hl)
    subst h0
    rw [show dashSub [] = [] from by unfold dashSub; rfl]
  | succ n ih =>
    intro l hl st
    cases l with
    | nil => rw [show dashSub [] = [] from by unfold dashSub; rfl]
    | cons c rest =>
      simp only [List.length_cons] at hl
      by_cases hc : c = '-'
      · rw [hc]
        by_cases h2 : 2 ≤ charRun '-' rest
        · have hps : dashSub ('-' :: rest) =
              dashSub (rest.drop (charRun '-' rest)) := by
            conv_lhs => unfold dashSub
            rw [if_pos rfl, if_pos h2]
          have hlen2 : (rest.drop (charRun '-' rest)).length ≤ n := by
            rw [List.length_drop]
            omega
          have hfree : amoplS m st
              (List.replicate (charRun '-' rest) '-') = st :=
            amoplS_free m (fun x hx => by
              rw [List.eq_of_mem_replicate hx]
              exact ⟨hm, by decide⟩) st
          rw [hps, ih _ hlen2 st]
          conv_rhs =>
            rw [amoplS_cons, lineAcc_other m hm (by decide),
              ← charRun_take_drop '-' rest, amoplS_append]
          rw [hfree]
        · have hps : dashSub ('-' :: rest) = '-' :: dashSub rest := by
            conv_lhs => unfold dashSub
            rw [if_pos rfl, if_neg h2]
          rw [hps, amoplS_cons, amoplS_cons, ih rest (by omega)]
      · have hps : dashSub (c :: rest) = c :: dashSub rest := by
          conv_lhs => unfold dashSub
          rw [if_neg hc]
        rw [hps, amoplS_cons, amoplS_cons, ih rest (by omega)]

/-- `newlineSub` replaces newline runs by two newlines; both leave the line
automaton in the same clean line-start state, so any non-newline marker's
automaton is unchanged. -/
theorem newlineSub_amoplS_eq (m : Char) (hm : ¬m = '\n') :
    ∀ (n : Nat) (l : List Char), l.length ≤ n → ∀ st : Option Bool,
      amoplS m st (newlineSub l) = amoplS m st l := by
  intro n
  induction n with
  | zero =>
    intro l hl st
    have h0 : l = [] := List.length_eq_zero.mp (Nat.le_zero.mp hl)
    subst h0
    rw [show newlineSub [] = [] from by unfold newlineSub; rfl]
  | succ n ih =>
    intro l hl st
    cases l with
    | nil => rw [show newlineSub [] = [] from by unfold newlineSub; rfl]
    | cons c rest =>
      simp only [List.length_cons] at hl
      have hnl : ∀ st' : Option Bool, lineAcc m st' '\n' = none ∨
          lineAcc m st' '\n' = some false := by
        intro st'
        cases st' with
        | none => left; rfl
        | some s => right; simp [lineAcc, show ¬('\n' : Char) = m from
            fun h => hm h.symm]
      have hrep : ∀ (j : Nat) (st' : Option Bool),
          st' = none ∨ st' = some false →
          amoplS m st' (List.replicate j '\n') = st' := by
        intro j
        induction j with
        | zero => intro st' _; rfl
        | succ j ihj =>
          intro st' hst
          rw [List.replicate_succ, amoplS_cons]
          rcases hst with rfl | rfl
          · rw [show lineAcc m none '\n' = none from rfl]
            exact ihj none (Or.inl rfl)
          · rw [show lineAcc m (some false) '\n' = some false by
              simp [lineAcc]]
            exact ihj (some false) (Or.inr rfl)
      by_cases hc : c = '\n'
      · rw [hc]
        by_cases h2 : 2 ≤ charRun '\n' rest
        · have hps : newlineSub ('\n' :: rest) =
              '\n' :: '\n' :: newlineSub (rest.drop (charRun '\n' rest)) := by
            conv_lhs => unfold newlineSub
            rw [if_pos rfl, if_pos h2]
          have hlen2 : (rest.drop (charRun '\n' rest)).length ≤ n := by
            rw [List.length_drop]
            omega
          rw [hps, amoplS_cons, amoplS_cons, ih _ hlen2]
          have hsame : lineAcc m (lineAcc m st '\n') '\n' =
              lineAcc m st '\n' := by
            rcases hnl st with h | h <;> rw [h]
            · rfl
            · simp [lineAcc, show ¬('\n' : Char) = m from
                fun h => hm h.symm]
          rw [hsame]
          conv_rhs =>
            rw [amoplS_cons, ← charRun_take_drop '\n' rest, amoplS_append]
          rw [hrep (charRun '\n' rest) (lineAcc m st '\n') (hnl st)]
        · have hps : newlineSub ('\n' :: rest) = '\n' :: newlineSub rest := by
            conv_lhs => unfold newlineSub
            rw [if_pos rfl, if_neg h2]
          rw [hps, amoplS_cons, amoplS_cons, ih rest (by omega)]
      · have hps : newlineSub (c :: rest) = c :: newlineSub rest := by
          conv_lhs => unfold newlineSub
          rw [if_neg hc]
        rw [hps, amoplS_cons, amoplS_cons, ih rest (by omega)]

/-- No three consecutive occurrences of `m`. -/
def run3free (m : Char) : List Char → Bool
  | a :: b :: c :: rest =>
    !(a = m ∧ b = m ∧ c = m : Bool) && run3free m (b :: c :: rest)
  | _ => true

theorem run3free_tail (m : Char) {c : Char} {t : List Char}
    (h : run3free m (c :: t) = true) : run3free m t = true := by
  cases t with
  | nil => rfl
  | cons a t2 =>
    cases t2 with
    | nil => rfl
    | cons b t3 =>
      have h2 : (!(c = m ∧ a = m ∧ b = m : Bool) &&
          run3free m (a :: b :: t3)) = true := h
      rw [Bool.and_eq_true] at h2
      exact h2.2

theorem run3free_drop (m : Char) :
    ∀ (j : Nat) (t : List Char), run3free m t = true →
      run3free m (t.drop j) = true := by
  intro j
  induction j with
  | zero => intro t h; exact h
  | succ j ih =>
    intro t h
    cases t with
    | nil => rfl
    | cons c t2 =>
      rw [List.drop_succ_cons]
      exact ih t2 (run3free_tail m h)

theorem run3free_cons (m : Char) {c : Char} {t : List Char} (hc : ¬c = m)
    (h : run3free m t = true) : run3free m (c :: t) = true := by
  cases t with
  | nil => rfl
  | cons a t2 =>
    cases t2 with
    | nil => rfl
    | cons b t3 =>
      show (!(c = m ∧ a = m ∧ b = m : Bool) &&
        run3free m (a :: b :: t3)) = true
      rw [Bool.and_eq_true]
      exact ⟨by simp [hc], h⟩

theorem charRun_pos_head (m : Char) {t : List Char} {c : Char}
    (h : charRun m (c :: t) = 0) : ¬c = m := by
  intro hc
  rw [show charRun m (c :: t) = charRun m t + 1 by simp [charRun, hc]] at h
  exact Nat.noConfusion h

theorem run3free_cons_head (m : Char) {t : List Char}
    (h1 : charRun m t ≤ 1) (h2 : run3free m t = true) :
    run3free m (m :: t) = true := by
  cases t with
  | nil => rfl
  | cons a t2 =>
    cases t2 with
    | nil => rfl
    | cons b t3 =>
      show (!(m = m ∧ a = m ∧ b = m : Bool) &&
        run3free m (a :: b :: t3)) = true
      rw [Bool.and_eq_true]
      refine ⟨?_, h2⟩
      by_cases ha : a = m
      · have hrun : charRun m (a :: b :: t3) =
            charRun m (b :: t3) + 1 := by simp [charRun, ha]
        have hb0 : charRun m (b :: t3) = 0 := by omega
        have hb : ¬b = m := charRun_pos_head m hb0
        simp [hb]
      · simp [ha]

theorem run3free_two_head (m : Char) {t : List Char}
    (h1 : charRun m t = 0) (h2 : run3free m t = true) :
    run3free m (m :: m :: t) = true := by
  cases t with
  | nil => rfl
  | cons c t2 =>
    have hc : ¬c = m := charRun_pos_head m h1
    show (!(m = m ∧ m = m ∧ c = m : Bool) &&
      run3free m (m :: c :: t2)) = true
    rw [Bool.and_eq_true]
    refine ⟨by simp [hc], ?_⟩
    cases t2 with
    | nil => rfl
    | cons d t3 =>
      show (!(m = m ∧ c = m ∧ d = m : Bool) &&
        run3free m (c :: d :: t3)) = true
      rw [Bool.and_eq_true]
      exact ⟨by simp [hc], h2⟩

theorem run3free_prefix (m : Char) :
    ∀ (u suf : List Char), run3free m (u ++ suf) = true →
      run3free m u = true := by
  intro u suf
  induction u with
  | nil => intro _; rfl
  | cons c u2 ih =>
    intro h
    cases u2 with
    | nil => rfl
    | cons a u3 =>
      cases u3 with
      | nil => rfl
      | cons b u4 =>
        have h2 : (!(c = m ∧ a = m ∧ b = m : Bool) &&
            run3free m ((a :: b :: u4) ++ suf)) = true := h
        rw [Bool.and_eq_true] at h2
        show (!(c = m ∧ a = m ∧ b = m : Bool) &&
          run3free m (a :: b :: u4)) = true
        rw [Bool.and_eq_true]
        exact ⟨h2.1, ih h2.2⟩

theorem run3free_suffix (m : Char) (pre t : List Char)
    (h : run3free m (pre ++ t) = true) : run3free m t = true := by
  have h2 := run3free_drop m pre.length (pre ++ t) h
  rwa [List.drop_left] at h2

/-- `dashSub` removes every dash run of length at least three and leaves the
shorter runs, so its output has no three consecutive dashes and its leading
dash run is no longer than the input's. -/
theorem dashSub_aux :
    ∀ (n : Nat) (l : List Char), l.length ≤ n →
      run3free '-' (dashSub l) = true ∧
        charRun '-' (dashSub l) ≤ charRun '-' l := by
  intro n
  induction n with
  | zero =>
    intro l hl
    have h0 : l = [] := List.length_eq_zero.mp (Nat.le_zero.mp hl)
    subst h0
    rw [show dashSub [] = [] from by unfold dashSub; rfl]
    exact ⟨rfl, Nat.le_refl 0⟩
  | succ n ih =>
    intro l hl
    cases l with
    | nil =>
      rw [show dashSub [] = [] from by unfold dashSub; rfl]
      exact ⟨rfl, Nat.le_refl 0⟩
    | cons c rest =>
      simp only [List.length_cons] at hl
      by_cases hc : c = '-'
      · rw [hc]
        by_cases h2 : 2 ≤ charRun '-' rest
        · have hps : dashSub ('-' :: rest) =
              dashSub (rest.drop (charRun '-' rest)) := by
            conv_lhs => unfold dashSub
            rw [if_pos rfl, if_pos h2]
          have hlen2 : (rest.drop (charRun '-' rest)).length ≤ n := by
            rw [List.length_drop]
            omega
          obtain ⟨r3, hle⟩ := ih _ hlen2
          have hzero : charRun '-' (rest.drop (charRun '-' rest)) = 0 :=
            charRun_drop_run '-' rest
          have hout : charRun '-'
              (dashSub (rest.drop (charRun '-' rest))) = 0 := by omega
          rw [hps]
          refine ⟨r3, ?_⟩
          rw [hout]
          exact Nat.zero_le _
        · have hps : dashSub ('-' :: rest) = '-' :: dashSub rest := by
            conv_lhs => unfold dashSub
            rw [if_pos rfl, if_neg h2]
          obtain ⟨r3, hle⟩ := ih rest (by omega)
          rw [hps]
          constructor
          · exact run3free_cons_head '-' (by omega) r3
          · rw [show charRun '-' ('-' :: dashSub rest) =
                charRun '-' (dashSub rest) + 1 by simp [charRun],
              show charRun '-' ('-' :: rest) =
                charRun '-' rest + 1 by simp [charRun]]
            omega
      · have hps : dashSub (c :: rest) = c :: dashSub rest := by
          conv_lhs => unfold dashSub
          rw [if_neg hc]
        obtain ⟨r3, hle⟩ := ih rest (by omega)
        rw [hps]
        refine ⟨run3free_cons '-' hc r3, ?_⟩
        rw [show charRun '-' (c :: dashSub rest) = 0 by simp [charRun, hc]]
        exact Nat.zero_le _

/-- `newlineSub` collapses every newline run of length at least three to two
newlines, so its output has no three consecutive newlines and its leading
newline run is no longer than the input's. -/
theorem newlineSub_aux :
    ∀ (n : Nat) (l : List Char), l.length ≤ n →
      run3free '\n' (newlineSub l) = true ∧
        charRun '\n' (newlineSub l) ≤ charRun '\n' l := by
  intro n
  induction n with
  | zero =>
    intro l hl
    have h0 : l = [] := List.length_eq_zero.mp (Nat.le_zero.mp hl)
    subst h0
    rw [show newlineSub [] = [] from by unfold newlineSub; rfl]
    exact ⟨rfl, Nat.le_refl 0⟩
  | succ n ih =>
    intro l hl
    cases l with
    | nil =>
      rw [show newlineSub [] = [] from by unfold newlineSub; rfl]
      exact ⟨rfl, Nat.le_refl 0⟩
    | cons c rest =>
      simp only [List.length_cons] at hl
      by_cases hc : c = '\n'
      · rw [hc]
        by_cases h2 : 2 ≤ charRun '\n' rest
        · have hps : newlineSub ('\n' :: rest) = '\n' :: '\n' ::
              newlineSub (rest.drop (charRun '\n' rest)) := by
            conv_lhs => unfold newlineSub
            rw [if_pos rfl, if_pos h2]
          have hlen2 : (rest.drop (charRun '\n' rest)).length ≤ n := by
            rw [List.length_drop]
            omega
          obtain ⟨r3, hle⟩ := ih _ hlen2
          have hzero : charRun '\n' (rest.drop (charRun '\n' rest)) = 0 :=
            charRun_drop_run '\n' rest
          have hout : charRun '\n'
              (newlineSub (rest.drop (charRun '\n' rest))) = 0 := by omega
          rw [hps]
          constructor
          · exact run3free_two_head '\n' hout r3
          · rw [show charRun '\n' ('\n' :: '\n' ::
                newlineSub (rest.drop (charRun '\n' rest))) =
                charRun '\n'
                  (newlineSub (rest.drop (charRun '\n' rest))) + 2 by
                simp [charRun],
              show charRun '\n' ('\n' :: rest) =
                charRun '\n' rest + 1 by simp [charRun], hout]
            omega
        · have hps : newlineSub ('\n' :: rest) = '\n' :: newlineSub rest := by
            conv_lhs => unfold newlineSub
            rw [if_pos rfl, if_neg h2]
          obtain ⟨r3, hle⟩ := ih rest (by omega)
          rw [hps]
          constructor
          · exact run3free_cons_head '\n' (by omega) r3
          · rw [show charRun '\n' ('\n' :: newlineSub rest) =
                charRun '\n' (newlineSub rest) + 1 by simp [charRun],
              show charRun '\n' ('\n' :: rest) =
                charRun '\n' rest + 1 by simp [charRun]]
            omega
      · have hps : newlineSub (c :: rest) = c :: newlineSub rest := by
          conv_lhs => unfold newlineSub
          rw [if_neg hc]
        obtain ⟨r3, hle⟩ := ih rest (by omega)
        rw [hps]
        refine ⟨run3free_cons '\n' hc r3, ?_⟩
        rw [show charRun '\n' (c :: newlineSub rest) = 0 by
          simp [charRun, hc]]
        exact Nat.zero_le _

theorem charRun_two (m : Char) :
    ∀ t : List Char, 2 ≤ charRun m t → ∃ t2, t = m :: m :: t2 := by
  intro t h
  cases t with
  | nil => simp [charRun] at h
  | cons c t2 =>
    by_cases hc : c = m
    · cases t2 with
      | nil => rw [show charRun m [c] = if c = m then 1 else 0 by
          simp [charRun]] at h; rw [if_pos hc] at h; omega
      | cons d t3 =>
        by_cases hd : d = m
        · exact ⟨t3, by rw [hc, hd]⟩
        · rw [show charRun m (c :: d :: t3) = 1 by
            simp [charRun, hc, hd]] at h
          omega
    · rw [show charRun m (c :: t2) = 0 by simp [charRun, hc]] at h
      omega

/-- `newlineSub` preserves the first two characters. -/
theorem newlineSub_take2 :
    ∀ (n : Nat) (l : List Char), l.length ≤ n →
      (newlineSub l).take 2 = l.take 2 := by
  intro n
  induction n with
  | zero =>
    intro l hl
    have h0 : l = [] := List.length_eq_zero.mp (Nat.le_zero.mp hl)
    subst h0
    rw [show newlineSub [] = [] from by unfold newlineSub; rfl]
  | succ n ih =>
    intro l hl
    cases l with
    | nil => rw [show newlineSub [] = [] from by unfold newlineSub; rfl]
    | cons c rest =>
      simp only [List.length_cons] at hl
      have htk1 : (newlineSub rest).take 1 = rest.take 1 := by
        have h1 := congrArg (fun x : List Char => x.take 1)
          (ih rest (by omega))
        simp only [List.take_take] at h1
        norm_num at h1
        exact h1
      by_cases hc : c = '\n'
      · rw [hc]
        by_cases h2 : 2 ≤ charRun '\n' rest
        · have hps : newlineSub ('\n' :: rest) = '\n' :: '\n' ::
              newlineSub (rest.drop (charRun '\n' rest)) := by
            conv_lhs => unfold newlineSub
            rw [if_pos rfl, if_pos h2]
          obtain ⟨t2, ht2⟩ := charRun_two '\n' rest h2
          rw [hps, ht2]
          rfl
        · have hps : newlineSub ('\n' :: rest) = '\n' :: newlineSub rest := by
            conv_lhs => unfold newlineSub
            rw [if_pos rfl, if_neg h2]
          rw [hps]
          show '\n' :: (newlineSub rest).take 1 = '\n' :: rest.take 1
          rw [htk1]
      · have hps : newlineSub (c :: rest) = c :: newlineSub rest := by
          conv_lhs => unfold newlineSub
          rw [if_neg hc]
        rw [hps]
        show c :: (newlineSub rest).take 1 = c :: rest.take 1
        rw [htk1]

theorem run3free_cons_take2 (m c : Char) {t t' : List Char}
    (h2 : t'.take 2 = t.take 2) (ht' : run3free m t' = true)
    (h : run3free m (c :: t) = true) : run3free m (c :: t') = true := by
  cases t' with
  | nil => rfl
  | cons a t2 =>
    cases t2 with
    | nil => rfl
    | cons b t3 =>
      have htk : t.take 2 = [a, b] := by rw [← h2]; rfl
      obtain ⟨t4, ht4⟩ : ∃ t4, t = a :: b :: t4 := by
        cases t with
        | nil => simp at htk
        | cons x t5 =>
          cases t5 with
          | nil => simp at htk
          | cons y t6 =>
            have hxy : x = a ∧ y = b := by
              have : [x, y] = [a, b] := htk
              simp at this
              exact this
            exact ⟨t6, by rw [hxy.1, hxy.2]⟩
      subst ht4
      have hh : (!(c = m ∧ a = m ∧ b = m : Bool) &&
          run3free m (a :: b :: t4)) = true := h
      rw [Bool.and_eq_true] at hh
      show (!(c = m ∧ a = m ∧ b = m : Bool) &&
        run3free m (a :: b :: t3)) = true
      rw [Bool.and_eq_true]
      exact ⟨hh.1, ht'⟩

/-- `newlineSub` never merges two runs of another marker. -/
theorem newlineSub_run3free (m : Char) (hm : ¬m = '\n') :
    ∀ (n : Nat) (l : List Char), l.length ≤ n → run3free m l = true →
      run3free m (newlineSub l) = true := by
  intro n
  induction n with
  | zero =>
    intro l hl _
    have h0 : l = [] := List.length_eq_zero.mp (Nat.le_zero.mp hl)
    subst h0
    rw [show newlineSub [] = [] from by unfold newlineSub; rfl]
    rfl
  | succ n ih =>
    intro l hl h
    cases l with
    | nil =>
      rw [show newlineSub [] = [] from by unfold newlineSub; rfl]
      rfl
    | cons c rest =>
      simp only [List.length_cons] at hl
      by_cases hc : c = '\n'
      · rw [hc]
        by_cases h2 : 2 ≤ charRun '\n' rest
        · have hps : newlineSub ('\n' :: rest) = '\n' :: '\n' ::
              newlineSub (rest.drop (charRun '\n' rest)) := by
            conv_lhs => unfold newlineSub
            rw [if_pos rfl, if_pos h2]
          have hlen2 : (rest.drop (charRun '\n' rest)).length ≤ n := by
            rw [List.length_drop]
            omega
          rw [hps]
          refine run3free_cons m (fun he => hm he.symm)
            (run3free_cons m (fun he => hm he.symm) ?_)
          exact ih _ hlen2
            (run3free_drop m (charRun '\n' rest) rest (run3free_tail m h))
        · have hps : newlineSub ('\n' :: rest) = '\n' :: newlineSub rest := by
            conv_lhs => unfold newlineSub
            rw [if_pos rfl, if_neg h2]
          rw [hps]
          refine run3free_cons m (fun he => hm he.symm) ?_
          exact ih rest (by omega) (run3free_tail m h)
      · have hps : newlineSub (c :: rest) = c :: newlineSub rest := by
          conv_lhs => unfold newlineSub
          rw [if_neg hc]
        rw [hps]
        exact run3free_cons_take2 m c (newlineSub_take2 rest.length rest
            (Nat.le_refl _))
          (ih rest (by omega) (run3free_tail m h)) h

/-- `str.strip()` keeps a contiguous middle part of its input. -/
theorem pyStrip_split (l : List Char) :
    l.dropWhile isPySpace = pyStrip l ++
      ((l.dropWhile isPySpace).reverse.takeWhile isPySpace).reverse := by
  conv_lhs =>
    rw [← List.reverse_reverse (l.dropWhile isPySpace),
      ← List.takeWhile_append_dropWhile isPySpace
        (l.dropWhile isPySpace).reverse]
  rw [List.reverse_append]
  rfl

theorem run3free_pyStrip (m : Char) (l : List Char)
    (h : run3free m l = true) : run3free m (pyStrip l) = true := by
  have hd : run3free m (l.dropWhile isPySpace) = true :=
    run3free_suffix m (l.takeWhile isPySpace) (l.dropWhile isPySpace)
      (by rw [List.takeWhile_append_dropWhile]; exact h)
  rw [pyStrip_split l] at hd
  exact run3free_prefix m (pyStrip l) _ hd

theorem amoplS_pyStrip (m : Char) (hm : isPySpace m = false)
    (l : List Char) (h : amoplS m (some false) l ≠ none) :
    amoplS m (some false) (pyStrip l) ≠ none := by
  rw [← List.takeWhile_append_dropWhile isPySpace l, amoplS_append,
    amoplS_ws hm (fun c hc => List.mem_takeWhile_imp hc)] at h
  rw [pyStrip_split l, amoplS_append] at h
  intro hnone
  rw [hnone, amoplS_none] at h
  exact h rfl

/-- Every pass only keeps characters of its input. -/
theorem mem_headingSub :
    ∀ (n : Nat) (l : List Char), l.length ≤ n →
      ∀ x ∈ headingSub l, x ∈ l := by
  intro n
  induction n with
  | zero =>
    intro l hl x hx
    have h0 : l = [] := List.length_eq_zero.mp (Nat.le_zero.mp hl)
    subst h0
    rw [show headingSub [] = [] from by unfold headingSub; rfl] at hx
    exact hx
  | succ n ih =>
    intro l hl x hx
    cases l with
    | nil =>
      rw [show headingSub [] = [] from by unfold headingSub; rfl] at hx
      exact hx
    | cons c rest =>
      simp only [List.length_cons] at hl
      by_cases hc : c = '#'
      · rw [hc] at hx ⊢
        have hps : headingSub ('#' :: rest) = headingSub
            ((rest.drop (min (charRun '#' rest) 5)).dropWhile isPySpace) := by
          conv_lhs => unfold headingSub
          rw [if_pos rfl]
        rw [hps] at hx
        have hlen2 : ((rest.drop (min (charRun '#' rest) 5)).dropWhile
            isPySpace).length ≤ n :=
          Nat.le_trans (dropWhileLen _ _) (by rw [List.length_drop]; omega)
        have h2 := ih _ hlen2 x hx
        have h3 := (List.dropWhile_sublist isPySpace).subset h2
        exact List.mem_cons_of_mem _ (List.drop_subset _ rest h3)
      · have hps : headingSub (c :: rest) = c :: headingSub rest := by
          conv_lhs => unfold headingSub
          rw [if_neg hc]
        rw [hps] at hx
        rcases List.mem_cons.mp hx with rfl | hx
        · exact List.mem_cons_self _ _
        · exact List.mem_cons_of_mem c (ih rest (by omega) x hx)

/-- `re.sub(r'#{1,6}\s*', '', text)` consumes every `#`. -/
theorem headingSub_no_hash :
    ∀ (n : Nat) (l : List Char), l.length ≤ n → '#' ∉ headingSub l := by
  intro n
  induction n with
  | zero =>
    intro l hl
    have h0 : l = [] := List.length_eq_zero.mp (Nat.le_zero.mp hl)
    subst h0
    rw [show headingSub [] = [] from by unfold headingSub; rfl]
    simp
  | succ n ih =>
    intro l hl
    cases l with
    | nil =>
      rw [show headingSub [] = [] from by unfold headingSub; rfl]
      simp
    | cons c rest =>
      simp only [List.length_cons] at hl
      by_cases hc : c = '#'
      · rw [hc]
        have hps : headingSub ('#' :: rest) = headingSub
            ((rest.drop (min (charRun '#' rest) 5)).dropWhile isPySpace) := by
          conv_lhs => unfold headingSub
          rw [if_pos rfl]
        rw [hps]
        exact ih _ (Nat.le_trans (dropWhileLen _ _)
          (by rw [List.length_drop]; omega))
      · have hps : headingSub (c :: rest) = c :: headingSub rest := by
          conv_lhs => unfold headingSub
          rw [if_neg hc]
        rw [hps]
        intro hx
        rcases List.mem_cons.mp hx with he | hx
        · exact hc he.symm
        · exact ih rest (by omega) hx

theorem mem_boldSub :
    ∀ (n : Nat) (l : List Char), l.length ≤ n →
      ∀ x ∈ boldSub l, x ∈ l := by
  intro n
  induction n with
  | zero =>
    intro l hl x hx
    have h0 : l = [] := List.length_eq_zero.mp (Nat.le_zero.mp hl)
    subst h0
    rw [show boldSub [] = [] from by unfold boldSub; rfl] at hx
    exact hx
  | succ n ih =>
    intro l hl x hx
    cases l with
    | nil =>
      rw [show boldSub [] = [] from by unfold boldSub; rfl] at hx
      exact hx
    | cons c rest0 =>
      cases rest0 with
      | nil =>
        rw [show boldSub [c] = [c] from by unfold boldSub; rfl] at hx
        exact hx
      | cons d rest =>
        simp only [List.length_cons] at hl
        by_cases hcd : c = '*' ∧ d = '*'
        · cases hfind : findDouble '*' rest with
          | some i =>
            have hps : boldSub (c :: d :: rest) =
                rest.take i ++ boldSub (rest.drop (i + 2)) := by
              conv_lhs => unfold boldSub
              rw [if_pos hcd, hfind]
            rw [hps] at hx
            rcases List.mem_append.mp hx with hx | hx
            · exact List.mem_cons_of_mem c (List.mem_cons_of_mem d
                (List.take_subset i rest hx))
            · have h2 := ih (rest.drop (i + 2))
                (by rw [List.length_drop]; omega) x hx
              exact List.mem_cons_of_mem c (List.mem_cons_of_mem d
                (List.drop_subset _ rest h2))
          | none =>
            have hps : boldSub (c :: d :: rest) =
                c :: boldSub (d :: rest) := by
              conv_lhs => unfold boldSub
              rw [if_pos hcd, hfind]
            rw [hps] at hx
            rcases List.mem_cons.mp hx with rfl | hx
            · exact List.mem_cons_self _ _
            · exact List.mem_cons_of_mem c
                (ih (d :: rest) (by simp only [List.length_cons]; omega) x hx)
        · have hps : boldSub (c :: d :: rest) =
              c :: boldSub (d :: rest) := by
            conv_lhs => unfold boldSub
            rw [if_neg hcd]
          rw [hps] at hx
          rcases List.mem_cons.mp hx with rfl | hx
          · exact List.mem_cons_self _ _
          · exact List.mem_cons_of_mem c
              (ih (d :: rest) (by simp only [List.length_cons]; omega) x hx)

theorem mem_pairSub (m : Char) :
    ∀ (n : Nat) (l : List Char), l.length ≤ n →
      ∀ x ∈ pairSub m l, x ∈ l := by
  intro n
  induction n with
  | zero =>
    intro l hl x hx
    have h0 : l = [] := List.length_eq_zero.mp (Nat.le_zero.mp hl)
    subst h0
    rw [show pairSub m [] = [] from by unfold pairSub; rfl] at hx
    exact hx
  | succ n ih =>
    intro l hl x hx
    cases l with
    | nil =>
      rw [show pairSub m [] = [] from by unfold pairSub; rfl] at hx
      exact hx
    | cons c rest =>
      simp only [List.length_cons] at hl
      by_cases hc : c = m
      · rw [hc] at hx ⊢
        cases hfind : findOnLine m rest with
        | some i =>
          have hps : pairSub m (m :: rest) =
              rest.take i ++ pairSub m (rest.drop (i + 1)) := by
            conv_lhs => unfold pairSub
            rw [if_pos rfl, hfind]
          rw [hps] at hx
          rcases List.mem_append.mp hx with hx | hx
          · exact List.mem_cons_of_mem m (List.take_subset i rest hx)
          · have h2 := ih (rest.drop (i + 1))
              (by rw [List.length_drop]; omega) x hx
            exact List.mem_cons_of_mem m (List.drop_subset _ rest h2)
        | none =>
          have hps : pairSub m (m :: rest) = m :: pairSub m rest := by
            conv_lhs => unfold pairSub
            rw [if_pos rfl, hfind]
          rw [hps] at hx
          rcases List.mem_cons.mp hx with rfl | hx
          · exact List.mem_cons_self _ _
          · exact List.mem_cons_of_mem m (ih rest (by omega) x hx)
      · have hps : pairSub m (c :: rest) = c :: pairSub m rest := by
          conv_lhs => unfold pairSub
          rw [if_neg hc]
        rw [hps] at hx
        rcases List.mem_cons.mp hx with rfl | hx
        · exact List.mem_cons_self _ _
        · exact List.mem_cons_of_mem c (ih rest (by omega) x hx)

theorem mem_pipeSub :
    ∀ (n : Nat) (l : List Char), l.length ≤ n →
      ∀ x ∈ pipeSub l, x ∈ l := by
  intro n
  induction n with
  | zero =>
    intro l hl x hx
    have h0 : l = [] := List.length_eq_zero.mp (Nat.le_zero.mp hl)
    subst h0
    rw [show pipeSub [] = [] from by unfold pipeSub; rfl] at hx
    exact hx
  | succ n ih =>
    intro l hl x hx
    cases l with
    | nil =>
      rw [show pipeSub [] = [] from by unfold pipeSub; rfl] at hx
      exact hx
    | cons c rest =>
      simp only [List.length_cons] at hl
      by_cases hc : c = '|'
      · rw [hc] at hx ⊢
        cases hfind : findOnLine '|' rest with
        | some i =>
          have hps : pipeSub ('|' :: rest) =
              pipeSub (rest.drop (i + 1)) := by
            conv_lhs => unfold pipeSub
            rw [if_pos rfl, hfind]
          rw [hps] at hx
          have h2 := ih (rest.drop (i + 1))
            (by rw [List.length_drop]; omega) x hx
          exact List.mem_cons_of_mem '|' (List.drop_subset _ rest h2)
        | none =>
          have hps : pipeSub ('|' :: rest) = '|' :: pipeSub rest := by
            conv_lhs => unfold pipeSub
            rw [if_pos rfl, hfind]
          rw [hps] at hx
          rcases List.mem_cons.mp hx with rfl | hx
          · exact List.mem_cons_self _ _
          · exact List.mem_cons_of_mem '|' (ih rest (by omega) x hx)
      · have hps : pipeSub (c :: rest) = c :: pipeSub rest := by
          conv_lhs => unfold pipeSub
          rw [if_neg hc]
        rw [hps] at hx
        rcases List.mem_cons.mp hx with rfl | hx
        · exact List.mem_cons_self _ _
        · exact List.mem_cons_of_mem c (ih rest (by omega) x hx)

theorem mem_dashSub :
    ∀ (n : Nat) (l : List Char), l.length ≤ n →
      ∀ x ∈ dashSub l, x ∈ l := by
  intro n
  induction n with
  | zero =>
    intro l hl x hx
    have h0 : l = [] := List.length_eq_zero.mp (Nat.le_zero.mp hl)
    subst h0
    rw [show dashSub [] = [] from by unfold dashSub; rfl] at hx
    exact hx
  | succ n ih =>
    intro l hl x hx
    cases l with
    | nil =>
      rw [show dashSub [] = [] from by unfold dashSub; rfl] at hx
      exact hx
    | cons c rest =>
      simp only [List.length_cons] at hl
      by_cases hc : c = '-'
      · rw [hc] at hx ⊢
        by_cases h2 : 2 ≤ charRun '-' rest
        · have hps : dashSub ('-' :: rest) =
              dashSub (rest.drop (charRun '-' rest)) := by
            conv_lhs => unfold dashSub
            rw [if_pos rfl, if_pos h2]
          rw [hps] at hx
          have h3 := ih (rest.drop (charRun '-' rest))
            (by rw [List.length_drop]; omega) x hx
          exact List.mem_cons_of_mem '-' (List.drop_subset _ rest h3)
        · have hps : dashSub ('-' :: rest) = '-' :: dashSub rest := by
            conv_lhs => unfold dashSub
            rw [if_pos rfl, if_neg h2]
          rw [hps] at hx
          rcases List.mem_cons.mp hx with rfl | hx
          · exact List.mem_cons_self _ _
          · exact List.mem_cons_of_mem '-' (ih rest (by omega) x hx)
      · have hps : dashSub (c :: rest) = c :: dashSub rest := by
          conv_lhs => unfold dashSub
          rw [if_neg hc]
        rw [hps] at hx
        rcases List.mem_cons.mp hx with rfl | hx
        · exact List.mem_cons_self _ _
        · exact List.mem_cons_of_mem c (ih rest (by omega) x hx)

theorem mem_newlineSub :
    ∀ (n : Nat) (l : List Char), l.length ≤ n →
      ∀ x ∈ newlineSub l, x ∈ l := by
  intro n
  induction n with
  | zero =>
    intro l hl x hx
    have h0 : l = [] := List.length_eq_zero.mp (Nat.le_zero.mp hl)
    subst h0
    rw [show newlineSub [] = [] from by unfold newlineSub; rfl] at hx
    exact hx
  | succ n ih =>
    intro l hl x hx
    cases l with
    | nil =>
      rw [show newlineSub [] = [] from by unfold newlineSub; rfl] at hx
      exact hx
    | cons c rest =>
      simp only [List.length_cons] at hl
      by_cases hc : c = '\n'
      · rw [hc] at hx ⊢
        by_cases h2 : 2 ≤ charRun '\n' rest
        · have hps : newlineSub ('\n' :: rest) = '\n' :: '\n' ::
              newlineSub (rest.drop (charRun '\n' rest)) := by
            conv_lhs => unfold newlineSub
            rw [if_pos rfl, if_pos h2]
          rw [hps] at hx
          rcases List.mem_cons.mp hx with rfl | hx
          · exact List.mem_cons_self _ _
          · rcases List.mem_cons.mp hx with rfl | hx
            · exact List.mem_cons_self _ _
            · have h3 := ih (rest.drop (charRun '\n' rest))
                (by rw [List.length_drop]; omega) x hx
              exact List.mem_cons_of_mem '\n' (List.drop_subset _ rest h3)
        · have hps : newlineSub ('\n' :: rest) = '\n' :: newlineSub rest := by
            conv_lhs => unfold newlineSub
            rw [if_pos rfl, if_neg h2]
          rw [hps] at hx
          rcases List.mem_cons.mp hx with rfl | hx
          · exact List.mem_cons_self _ _
          · exact List.mem_cons_of_mem '\n' (ih rest (by omega) x hx)
      · have hps : newlineSub (c :: rest) = c :: newlineSub rest := by
          conv_lhs => unfold newlineSub
          rw [if_neg hc]
        rw [hps] at hx
        rcases List.mem_cons.mp hx with rfl | hx
        · exact List.mem_cons_self _ _
        · exact List.mem_cons_of_mem c (ih rest (by omega) x hx)

theorem mem_pyStrip (l : List Char) : ∀ x ∈ pyStrip l, x ∈ l := by
  intro x hx
  unfold pyStrip at hx
  rw [List.mem_reverse] at hx
  have h1 := (List.dropWhile_sublist isPySpace).subset hx
  rw [List.mem_reverse] at h1
  exact (List.dropWhile_sublist isPySpace).subset h1

/-- With no three consecutive dashes, `dashSub` is the identity. -/
theorem dashSub_id_run3 :
    ∀ l : List Char, run3free '-' l = true → dashSub l = l := by
  intro l
  induction l with
  | nil => intro _; unfold dashSub; rfl
  | cons c rest ih =>
    intro h
    by_cases hc : c = '-'
    · rw [hc] at h ⊢
      have h2 : ¬2 ≤ charRun '-' rest := by
        intro h2
        obtain ⟨t2, ht2⟩ := charRun_two '-' rest h2
        rw [ht2] at h
        simp [run3free] at h
      have hps : dashSub ('-' :: rest) = '-' :: dashSub rest := by
        conv_lhs => unfold dashSub
        rw [if_pos rfl, if_neg h2]
      rw [hps, ih (run3free_tail '-' h)]
    · have hps : dashSub (c :: rest) = c :: dashSub rest := by
        conv_lhs => unfold dashSub
        rw [if_neg hc]
      rw [hps, ih (run3free_tail '-' h)]

/-- With no three consecutive newlines, `newlineSub` is the identity. -/
theorem newlineSub_id_run3 :
    ∀ l : List Char, run3free '\n' l = true → newlineSub l = l := by
  intro l
  induction l with
  | nil => intro _; unfold newlineSub; rfl
  | cons c rest ih =>
    intro h
    by_cases hc : c = '\n'
    · rw [hc] at h ⊢
      have h2 : ¬2 ≤ charRun '\n' rest := by
        intro h2
        obtain ⟨t2, ht2⟩ := charRun_two '\n' rest h2
        rw [ht2] at h
        simp [run3free] at h
      have hps : newlineSub ('\n' :: rest) = '\n' :: newlineSub rest := by
        conv_lhs => unfold newlineSub
        rw [if_pos rfl, if_neg h2]
      rw [hps, ih (run3free_tail '\n' h)]
    · have hps : newlineSub (c :: rest) = c :: newlineSub rest := by
        conv_lhs => unfold newlineSub
        rw [if_neg hc]
      rw [hps, ih (run3free_tail '\n' h)]

/-- For a link-free input the whole pipeline is idempotent: the first run
removes every heading marker, leaves at most one unmatched `*`, `` ` `` and
`|` per line and no two adjacent `*`s, no dash or newline triples, and a
stripped result — on which every pass is the identity. -/
theorem mdText_idem (l : List Char) (hl : '[' ∉ l) :
    mdText (mdText l) = mdText l := by
  have hb4 : '[' ∉ pairSub '`' (pairSub '*' (boldSub (headingSub l))) := by
    intro hm
    exact hl (mem_headingSub _ _ le_rfl '[' (mem_boldSub _ _ le_rfl '['
      (mem_pairSub '*' _ _ le_rfl '[' (mem_pairSub '`' _ _ le_rfl '[' hm))))
  have hml : mdText l = pyStrip (newlineSub (dashSub (pipeSub
      (pairSub '`' (pairSub '*' (boldSub (headingSub l))))))) := by
    unfold mdText
    rw [linkSub_id _ hb4]
  have hht : '#' ∉ mdText l := by
    rw [hml]
    intro hm
    exact headingSub_no_hash l.length l le_rfl
      (mem_boldSub _ _ le_rfl '#' (mem_pairSub '*' _ _ le_rfl '#'
        (mem_pairSub '`' _ _ le_rfl '#' (mem_pipeSub _ _ le_rfl '#'
          (mem_dashSub _ _ le_rfl '#' (mem_newlineSub _ _ le_rfl '#'
            (mem_pyStrip _ '#' hm)))))))
  have hbt : '[' ∉ mdText l := by
    rw [hml]
    intro hm
    exact hb4 (mem_pipeSub _ _ le_rfl '[' (mem_dashSub _ _ le_rfl '['
      (mem_newlineSub _ _ le_rfl '[' (mem_pyStrip _ '[' hm))))
  have hAts : amoplS '*' (some false) (mdText l) ≠ none := by
    rw [hml]
    apply amoplS_pyStrip '*' (by decide)
    rw [newlineSub_amoplS_eq '*' (by decide) _ _ le_rfl,
      dashSub_amoplS_eq '*' (by decide) _ _ le_rfl]
    refine stLe_ne_none
      (pipeSub_amoplS_le '*' (by decide) _ _ le_rfl (some false)) ?_
    rw [pairSub_amoplS_eq '`' '*' (by decide) (by decide) _ _ le_rfl]
    exact pairSub_amopl '*' (by decide) _ _ le_rfl
  have hAtb : amoplS '`' (some false) (mdText l) ≠ none := by
    rw [hml]
    apply amoplS_pyStrip '`' (by decide)
    rw [newlineSub_amoplS_eq '`' (by decide) _ _ le_rfl,
      dashSub_amoplS_eq '`' (by decide) _ _ le_rfl]
    refine stLe_ne_none
      (pipeSub_amoplS_le '`' (by decide) _ _ le_rfl (some false)) ?_
    exact pairSub_amopl '`' (by decide) _ _ le_rfl
  have hAtp : amoplS '|' (some false) (mdText l) ≠ none := by
    rw [hml]
    apply amoplS_pyStrip '|' (by decide)
    rw [newlineSub_amoplS_eq '|' (by decide) _ _ le_rfl,
      dashSub_amoplS_eq '|' (by decide) _ _ le_rfl]
    exact pipeSub_amopl _ _ le_rfl
  have hRtd : run3free '-' (mdText l) = true := by
    rw [hml]
    exact run3free_pyStrip '-' _ (newlineSub_run3free '-' (by decide)
      _ _ le_rfl (dashSub_aux _ _ le_rfl).1)
  have hRtn : run3free '\n' (mdText l) = true := by
    rw [hml]
    exact run3free_pyStrip '\n' _ (newlineSub_aux _ _ le_rfl).1
  have hstep : mdText (mdText l) = pyStrip (newlineSub (dashSub (pipeSub
      (linkSub (pairSub '`' (pairSub '*' (boldSub
        (headingSub (mdText l))))))))) := rfl
  rw [hstep, headingSub_id _ hht,
    boldSub_id_noAdj _ (noAdj_of_amoplS '*' (by decide) _ false hAts),
    pairSub_id_amopl '*' (by decide) _ false hAts,
    pairSub_id_amopl '`' (by decide) _ false hAtb,
    linkSub_id _ hbt,
    pipeSub_id_amopl _ false hAtp,
    dashSub_id_run3 _ hRtd,
    newlineSub_id_run3 _ hRtn,
    mdText_stripped l]

/-- C2 (corrected): `_markdown_to_text` applied to its own output is the
identity for every input that contains no `[` character; on inputs with
links the second application can strip again — the link regex re-forms a
link from residual brackets — so full idempotence fails. -/
theorem C2_markdown_to_text_idempotent (s : String) (h : '[' ∉ s.data) :
    MinerUProcessor.markdown_to_text (MinerUProcessor.markdown_to_text s) =
      MinerUProcessor.markdown_to_text s := by
  apply mdt_eq
  show mdText (mdText s.data) = mdText s.data
  exact mdText_idem s.data h

/-- C2 counterexample: on `[[a]](b)(c)` the first conversion yields
`[a](c)` — itself again link syntax — and the second strips it to `a`, so
the conversion is not idempotent. -/
theorem C2_counterexample :
    MinerUProcessor.markdown_to_text "[[a]](b)(c)" = "[a](c)" ∧
    MinerUProcessor.markdown_to_text
      (MinerUProcessor.markdown_to_text "[[a]](b)(c)") = "a" ∧
    ("a" : String) ≠ "[a](c)" := by
  have h1 : MinerUProcessor.markdown_to_text "[[a]](b)(c)" = "[a](c)" := by
    unfold MinerUProcessor.markdown_to_text
    rw [String.ext_iff]
    show mdText ("[[a]](b)(c)" : String).data = ("[a](c)" : String).data
    have hd1 : ("[[a]](b)(c)" : String).data =
      ['[', '[', 'a', ']', ']', '(', 'b', ')', '(', 'c', ')'] := rfl
    have hd2 : ("[a](c)" : String).data =
      ['[', 'a', ']', '(', 'c', ')'] := rfl
    rw [hd1, hd2]
    simp +decide [mdText, headingSub, boldSub, pairSub, linkSub, pipeSub,
      dashSub, newlineSub, pyStrip, findOnLine, findDouble, findCloseParen,
      linkScan, charRun, isPySpace, List.dropWhile]
  refine ⟨h1, ?_, by decide⟩
  rw [h1]
  unfold MinerUProcessor.markdown_to_text
  rw [String.ext_iff]
  show mdText ("[a](c)" : String).data = ("a" : String).data
  have hd2 : ("[a](c)" : String).data = ['[', 'a', ']', '(', 'c', ')'] := rfl
  have hd3 : ("a" : String).data = ['a'] := rfl
  rw [hd2, hd3]
  simp +decide [mdText, headingSub, boldSub, pairSub, linkSub, pipeSub,
    dashSub, newlineSub, pyStrip, findOnLine, findDouble, findCloseParen,
    linkScan, charRun, isPySpace, List.dropWhile]

/-- C2 witness: a link-free document with headings, bold, italic, code,
table and rule markers is a fixed point of the second application. -/
theorem C2_witness :
    '[' ∉ ("# Title\n\n**bold** and *it* `c` |x| y --- z" : String).data ∧
    MinerUProcessor.markdown_to_text (MinerUProcessor.markdown_to_text
      "# Title\n\n**bold** and *it* `c` |x| y --- z") =
      MinerUProcessor.markdown_to_text
        "# Title\n\n**bold** and *it* `c` |x| y --- z" :=
  ⟨by decide, C2_markdown_to_text_idempotent _ (by decide)⟩

/-- C7 witness: the corrected behaviour at concrete inputs — a heading, a
bold span, a link, and a three-newline run between two words. -/
theorem C7_witness :
    MinerUProcessor.markdown_to_text ("# " ++ "hello") = "hello" ∧
    MinerUProcessor.markdown_to_text ("**" ++ "hello" ++ "**") = "hello" ∧
    MinerUProcessor.markdown_to_text ("[" ++ "text" ++ "](" ++ "url" ++ ")") =
      "text" ∧
    MinerUProcessor.markdown_to_text
        ("top" ++ (⟨List.replicate 3 '\n'⟩ : String) ++ "bottom") =
      "top" ++ "\n\n" ++ "bottom" := by
  obtain ⟨h1, h2, _, h4, _⟩ := C7_markdown_to_text_strips
  refine ⟨(h1 "hello" ⟨by decide, by decide⟩).1,
    (h1 "hello" ⟨by decide, by decide⟩).2.2.1,
    h2 "text" "url" ⟨by decide, by decide⟩ ⟨by decide, by decide⟩, ?_⟩
  exact (h4 "top" "bottom" ⟨by decide, by decide⟩
    ⟨by decide, by decide⟩).2.1 3 (by norm_num)

end PdfConv
